import Mathlib

/-!
Shallow embedding of the graph-algorithms cluster of the PythonDSA repository
(`graphs.py`, `minimum_spanning_trees.py`, `maximum_flow.py`,
`advanced_graph_algorithms.py`) together with proofs about it.

Modelling conventions:
* a Python `dict` is an insertion-ordered association list with unique keys
  (updating an existing key keeps its position, a new key is appended at the end;
  iteration over `.items()` / keys is list order);
* a Python `set` is an insertion-ordered duplicate-free list (`set.add` appends
  when absent); Python set iteration order is arbitrary, the model fixes it to
  insertion order;
* `defaultdict` subscript access is `dgetm`, which materializes the default for
  a missing key (this key-set growth is observable on the shared graph and is
  modelled explicitly by threading the adjacency dictionary through every
  algorithm that subscripts it);
* Python numbers are `Int`; `float('infinity')` in Dijkstra distances is the
  top element of `WithTop Int`.
-/

namespace PyDSA

/-- Python dict: insertion-ordered association list with unique keys. -/
abbrev Dict (K A : Type) : Type := List (K × A)

variable {K A : Type} [DecidableEq K]

/-- Python `m[q]` read access (None when the key is absent). -/
def dlookup : Dict K A → K → Option A
  | [], _ => none
  | (k, a) :: m, q => if k = q then some a else dlookup m q

/-- Read access with a default for a missing key. -/
def dlookupD (m : Dict K A) (q : K) (d : A) : A := (dlookup m q).getD d

/-- Python `q in m` for a dict. -/
def dcontains (m : Dict K A) (q : K) : Bool := (dlookup m q).isSome

/-- Python `m[q] = a`: update in place, or append a new binding at the end. -/
def dset : Dict K A → K → A → Dict K A
  | [], q, a => [(q, a)]
  | (k, b) :: m, q, a => if k = q then (k, a) :: m else (k, b) :: dset m q a

/-- Python `defaultdict` subscript `m[q]`: returns the stored value, or inserts
and returns the default. -/
def dgetm (m : Dict K A) (q : K) (d : A) : A × Dict K A :=
  match dlookup m q with
  | some a => (a, m)
  | none => (d, m ++ [(q, d)])

/-- Python `set.add` on an insertion-ordered set. -/
def setAdd (s : List K) (v : K) : List K := if v ∈ s then s else s ++ [v]

/-- Adjacency representation: `defaultdict(list)` of `(neighbor, weight)` pairs. -/
abbrev Adj (V : Type) : Type := Dict V (List (V × Int))

/-- `self.adj_list[q].append(e)`: materialize the entry, append to its list. -/
def adjAppend [DecidableEq V] (m : Adj V) (q : V) (e : V × Int) : Adj V :=
  let p := dgetm m q []
  dset p.2 q (p.1 ++ [e])

/-- The `Graph` class of `graphs.py`. -/
structure Graph (V : Type) where
  directed : Bool
  adj_list : Adj V
  vertices : List V
  edges : List (V × V × Int)

variable {V : Type} [DecidableEq V]

/-- `Graph.__init__`. -/
def Graph.empty (directed : Bool) : Graph V :=
  { directed := directed, adj_list := [], vertices := [], edges := [] }

/-- `Graph.add_vertex`. -/
def add_vertex (g : Graph V) (v : V) : Graph V :=
  { g with vertices := setAdd g.vertices v }

/-- `Graph.add_edge`. -/
def add_edge (g : Graph V) (u v : V) (w : Int) : Graph V :=
  { g with
    vertices := setAdd (setAdd g.vertices u) v,
    adj_list :=
      if g.directed then adjAppend g.adj_list u (v, w)
      else adjAppend (adjAppend g.adj_list u (v, w)) v (u, w),
    edges := g.edges ++ [(u, v, w)] }

/-- A graph-construction call: `add_vertex` or `add_edge`. -/
inductive GOp (V : Type) where
  | addV (v : V)
  | addE (u v : V) (w : Int)

/-- Apply one construction call. -/
def applyOp (g : Graph V) : GOp V → Graph V
  | .addV v => add_vertex g v
  | .addE u v w => add_edge g u v w

/-- A graph built by a sequence of `add_vertex` / `add_edge` calls. -/
def buildGraph (directed : Bool) (ops : List (GOp V)) : Graph V :=
  ops.foldl applyOp (Graph.empty directed)

/-- The vertex-containment invariant of the spec: every vertex appearing in
`edges` or `adjacency` (as key or neighbor) is present in `vertices`. -/
def graphWF (g : Graph V) : Prop :=
  (∀ e ∈ g.edges, e.1 ∈ g.vertices ∧ e.2.1 ∈ g.vertices) ∧
  (∀ p ∈ g.adj_list, p.1 ∈ g.vertices ∧ ∀ q ∈ p.2, q.1 ∈ g.vertices)

theorem mem_setAdd_of_mem {s : List K} {x v : K} (h : x ∈ s) : x ∈ setAdd s v := by
  unfold setAdd; split <;> simp [h]

theorem self_mem_setAdd (s : List K) (v : K) : v ∈ setAdd s v := by
  unfold setAdd; split
  · assumption
  · simp

theorem mem_dset {m : Dict K A} {q : K} {a : A} {p : K × A} (h : p ∈ dset m q a) :
    p ∈ m ∨ (p.1 = q ∧ p.2 = a) := by
  induction m with
  | nil =>
    simp only [dset, List.mem_singleton] at h
    exact Or.inr (by rw [h]; exact ⟨rfl, rfl⟩)
  | cons hd tl ih =>
    rw [show dset (hd :: tl) q a = if hd.1 = q then (hd.1, a) :: tl
          else hd :: dset tl q a from rfl] at h
    by_cases hk : hd.1 = q
    · rw [if_pos hk] at h
      rcases List.mem_cons.1 h with h | h
      · exact Or.inr (by rw [h]; exact ⟨hk, rfl⟩)
      · exact Or.inl (List.mem_cons_of_mem _ h)
    · rw [if_neg hk] at h
      rcases List.mem_cons.1 h with h | h
      · exact Or.inl (h ▸ List.mem_cons_self _ _)
      · rcases ih h with h | h
        · exact Or.inl (List.mem_cons_of_mem _ h)
        · exact Or.inr h

theorem dlookup_mem {m : Dict K A} {q : K} {a : A} (h : dlookup m q = some a) : (q, a) ∈ m := by
  induction m with
  | nil => simp [dlookup] at h
  | cons hd tl ih =>
    rw [show dlookup (hd :: tl) q = if hd.1 = q then some hd.2 else dlookup tl q from rfl] at h
    by_cases hk : hd.1 = q
    · rw [if_pos hk] at h
      rw [Option.some.injEq] at h
      rw [← hk, ← h]
      exact List.mem_cons_self _ _
    · rw [if_neg hk] at h
      exact List.mem_cons_of_mem _ (ih h)

theorem mem_dgetm {m : Dict K A} {q : K} {d : A} {p : K × A} (h : p ∈ (dgetm m q d).2) :
    p ∈ m ∨ (p.1 = q ∧ p.2 = d) := by
  unfold dgetm at h
  rcases hl : dlookup m q with _ | a
  · rw [hl] at h
    simp only at h
    rcases List.mem_append.1 h with h | h
    · exact Or.inl h
    · exact Or.inr (by rw [List.mem_singleton.1 h]; exact ⟨rfl, rfl⟩)
  · rw [hl] at h
    exact Or.inl h

theorem fst_dgetm_cases (m : Dict K A) (q : K) (d : A) :
    (dgetm m q d).1 = d ∨ (q, (dgetm m q d).1) ∈ m := by
  unfold dgetm
  rcases hl : dlookup m q with _ | a
  · exact Or.inl rfl
  · exact Or.inr (dlookup_mem hl)

/-- Predicate preservation through `self.adj_list[q].append(e)`. -/
theorem adjAppend_pred {P Q : V → Prop} {m : Adj V} {q : V} {e : V × Int}
    (hm : ∀ p ∈ m, P p.1 ∧ ∀ x ∈ p.2, Q x.1) (hq : P q) (he : Q e.1) :
    ∀ p ∈ adjAppend m q e, P p.1 ∧ ∀ x ∈ p.2, Q x.1 := by
  intro p hp
  unfold adjAppend at hp
  simp only at hp
  rcases mem_dset hp with hp | ⟨hp1, hp2⟩
  · rcases mem_dgetm hp with hp | ⟨hp1, hp2⟩
    · exact hm p hp
    · exact ⟨hp1 ▸ hq, by rw [hp2]; simp⟩
  · refine ⟨hp1 ▸ hq, fun x hx => ?_⟩
    rw [hp2] at hx
    rcases List.mem_append.1 hx with hx | hx
    · rcases fst_dgetm_cases m q [] with hc | hc
      · rw [hc] at hx; simp at hx
      · exact (hm _ hc).2 x hx
    · rw [List.mem_singleton.1 hx]; exact he

theorem graphWF_applyOp {g : Graph V} (h : graphWF g) (op : GOp V) : graphWF (applyOp g op) := by
  obtain ⟨he, ha⟩ := h
  cases op with
  | addV v =>
    refine ⟨fun e hee => ?_, fun p hp => ?_⟩
    · obtain ⟨h1, h2⟩ := he e hee
      exact ⟨mem_setAdd_of_mem h1, mem_setAdd_of_mem h2⟩
    · obtain ⟨h1, h2⟩ := ha p hp
      exact ⟨mem_setAdd_of_mem h1, fun q hq => mem_setAdd_of_mem (h2 q hq)⟩
  | addE u v w =>
    have hu : u ∈ setAdd (setAdd g.vertices u) v := mem_setAdd_of_mem (self_mem_setAdd _ _)
    have hv : v ∈ setAdd (setAdd g.vertices u) v := self_mem_setAdd _ _
    have hmem : ∀ x ∈ g.vertices, x ∈ setAdd (setAdd g.vertices u) v :=
      fun x hx => mem_setAdd_of_mem (mem_setAdd_of_mem hx)
    have hbase : ∀ p ∈ g.adj_list, p.1 ∈ setAdd (setAdd g.vertices u) v ∧
        ∀ x ∈ p.2, x.1 ∈ setAdd (setAdd g.vertices u) v := by
      intro p hp
      obtain ⟨h1, h2⟩ := ha p hp
      exact ⟨hmem _ h1, fun x hx => hmem _ (h2 x hx)⟩
    refine ⟨fun e hee => ?_, fun p hp => ?_⟩
    · rw [show (applyOp g (GOp.addE u v w)).edges = g.edges ++ [(u, v, w)] from rfl] at hee
      rcases List.mem_append.1 hee with hee | hee
      · obtain ⟨h1, h2⟩ := he e hee
        exact ⟨hmem _ h1, hmem _ h2⟩
      · rw [List.mem_singleton.1 hee]
        exact ⟨hu, hv⟩
    · rw [show (applyOp g (GOp.addE u v w)).adj_list =
          (if g.directed then adjAppend g.adj_list u (v, w)
            else adjAppend (adjAppend g.adj_list u (v, w)) v (u, w)) from rfl] at hp
      by_cases hd : g.directed = true
      · rw [if_pos hd] at hp
        exact adjAppend_pred hbase hu hv p hp
      · rw [if_neg hd] at hp
        exact adjAppend_pred (adjAppend_pred hbase hu hv) hv hu p hp

theorem graphWF_foldl {g : Graph V} (h : graphWF g) (ops : List (GOp V)) :
    graphWF (ops.foldl applyOp g) := by
  induction ops generalizing g with
  | nil => exact h
  | cons op tl ih =>
    rw [List.foldl_cons]
    exact ih (graphWF_applyOp h op)

theorem buildGraph_wf (directed : Bool) (ops : List (GOp V)) :
    graphWF (buildGraph directed ops) := by
  have base : graphWF (Graph.empty directed : Graph V) := by
    constructor <;> simp [Graph.empty]
  exact graphWF_foldl base ops

/-- Claim C8: for every sequence of `add_vertex` and `add_edge` calls, every
vertex appearing as an endpoint in the edges list or as a key or neighbor in
the adjacency mapping is a member of the vertices set. -/
theorem claim_C8_graph_invariant (directed : Bool) (ops : List (GOp V)) :
    graphWF (buildGraph directed ops) :=
  buildGraph_wf directed ops

/-- Total adjacency-entry count, used to size loop fuel. -/
def totalAdj (g : Graph V) : Nat :=
  g.adj_list.foldl (fun n p => n + p.2.length) 0

/-- Fuel bound for the worklist loops.  Every loop below stops by itself when
its queue empties; the fuel only serves to make the recursion structural.  It
is large enough for every concrete run considered, and every general theorem
below is proved for all fuel values. -/
def fuelOf (g : Graph V) : Nat :=
  g.vertices.length + totalAdj g + 1

/-- The while-loop of `Graph.bfs`.  State: threaded adjacency (a `defaultdict`
subscript may materialize a key), queue, visited set, output order. -/
def bfsLoop : Nat → Adj V → List V → List V → List V → List V
  | 0, _, _, _, order => order
  | fuel + 1, adj, queue, visited, order =>
    match queue with
    | [] => order
    | v :: rest =>
      let p := dgetm adj v []
      let st := p.1.foldl
        (fun (st : List V × List V) e =>
          if e.1 ∈ st.1 then st else (st.1 ++ [e.1], st.2 ++ [e.1]))
        (visited, rest)
      bfsLoop fuel p.2 st.2 st.1 (order ++ [v])

/-- `Graph.bfs`. -/
def bfs (g : Graph V) (start : V) : List V :=
  if start ∈ g.vertices then bfsLoop (fuelOf g) g.adj_list [start] [start] []
  else []

mutual

/-- `dfs_recursive` inside `Graph.dfs`: mark, emit, then visit the unvisited
neighbors in adjacency order.  Returns (visited, order, adjacency). -/
def dfsGo (fuel : Nat) (adj : Adj V) (visited order : List V) (v : V) :
    List V × List V × Adj V :=
  match fuel with
  | 0 => (visited, order, adj)
  | f + 1 =>
    let p := dgetm adj v []
    dfsNbrs f p.2 (setAdd visited v) (order ++ [v]) p.1
termination_by (fuel, 0)

/-- The neighbor loop of `dfs_recursive`; the visited check is re-evaluated
after each recursive return, as in the source. -/
def dfsNbrs (fuel : Nat) (adj : Adj V) (visited order : List V) (l : List (V × Int)) :
    List V × List V × Adj V :=
  match l with
  | [] => (visited, order, adj)
  | e :: rest =>
    if e.1 ∈ visited then dfsNbrs fuel adj visited order rest
    else
      let r := dfsGo fuel adj visited order e.1
      dfsNbrs fuel r.2.2 r.1 r.2.1 rest
termination_by (fuel, l.length + 1)

end

/-- `Graph.dfs`. -/
def dfs (g : Graph V) (start : V) : List V :=
  if start ∈ g.vertices then (dfsGo (fuelOf g) g.adj_list [] [] start).2.1
  else []

/-- Python comparison `n < d` against a value that may be `float('infinity')`
(`none` stands for infinity). -/
def ltInf (n : Int) : Option Int → Bool
  | none => true
  | some m => decide (n < m)

/-- Python comparison `n > d` against a possibly-infinite value. -/
def gtInf (n : Int) : Option Int → Bool
  | none => false
  | some m => decide (m < n)

/-- `heapq` modelled as a list kept sorted by `(distance, vertex)`; `heappop`
is the head, so pops come out in exactly the order the Python heap yields. -/
def heapPush [LinearOrder V] : List (Int × V) → Int × V → List (Int × V)
  | [], e => [e]
  | x :: t, e =>
    if e.1 < x.1 ∨ (e.1 = x.1 ∧ e.2 ≤ x.2) then e :: x :: t else x :: heapPush t e

/-- Dijkstra loop state: distances (`none` = infinity), paths, priority queue,
threaded adjacency. -/
structure DijkstraSt (V : Type) where
  dist : Dict V (Option Int)
  paths : Dict V (List V)
  pq : List (Int × V)
  adj : Adj V

/-- The relaxation step over one adjacency entry of the popped vertex `u` with
popped distance `d`: mirrors the body of the `for neighbor, weight` loop. -/
def dijkstraRelax [LinearOrder V] (u : V) (d : Int) (st : DijkstraSt V) (e : V × Int) :
    DijkstraSt V :=
  let nd := d + e.2
  if ltInf nd (dlookupD st.dist e.1 none) then
    { st with
      dist := dset st.dist e.1 (some nd),
      paths := dset st.paths e.1 (dlookupD st.paths u [] ++ [e.1]),
      pq := heapPush st.pq (nd, e.1) }
  else st

/-- The while-loop of `Graph.dijkstra`, with the lazy-deletion stale check. -/
def dijkstraLoop [LinearOrder V] : Nat → DijkstraSt V → DijkstraSt V
  | 0, st => st
  | fuel + 1, st =>
    match st.pq with
    | [] => st
    | (d, u) :: rest =>
      if gtInf d (dlookupD st.dist u none) then
        dijkstraLoop fuel { st with pq := rest }
      else
        let p := dgetm st.adj u []
        let st2 := p.1.foldl (dijkstraRelax u d)
          { st with pq := rest, adj := p.2 }
        dijkstraLoop fuel st2

/-- Result of `Graph.dijkstra`: the empty dict for an absent start vertex,
otherwise the `(distances, paths)` tuple. -/
inductive DijkstraResult (V : Type) where
  | emptyDict
  | result (distances : Dict V (Option Int)) (paths : Dict V (List V))
deriving DecidableEq

/-- `Graph.dijkstra`.  The adjacency threaded through the loop is internal
state of the graph object; the function's return value is modelled. -/
def dijkstra [DecidableEq V] [LinearOrder V] (g : Graph V) (start : V) : DijkstraResult V :=
  if start ∈ g.vertices then
    let st := dijkstraLoop (fuelOf g * fuelOf g)
      { dist := dset (g.vertices.map fun v => (v, none)) start (some 0),
        paths := dset (g.vertices.map fun v => (v, [])) start [start],
        pq := [(0, start)],
        adj := g.adj_list }
    .result st.dist st.paths
  else .emptyDict

/-- Claim C9: for every Graph and every start vertex not in the vertex set,
`bfs`, `dfs` and `dijkstra` return an empty/neutral result (empty sequence or
empty mapping); in the total model no exception can arise. -/
theorem claim_C9_absent_start [LinearOrder V] (g : Graph V) (s : V)
    (h : s ∉ g.vertices) :
    bfs g s = [] ∧ dfs g s = [] ∧ dijkstra g s = .emptyDict := by
  refine ⟨?_, ?_, ?_⟩
  · rw [bfs, if_neg h]
  · rw [dfs, if_neg h]
  · rw [dijkstra, if_neg h]

/-- Witness for C9 on a concrete graph and a concrete absent vertex. -/
theorem claim_C9_absent_start_witness :
    ('Z' ∉ (buildGraph true [.addE 'A' 'B' 4]).vertices) ∧
      bfs (buildGraph true [.addE 'A' 'B' 4]) 'Z' = [] ∧
      dfs (buildGraph true [.addE 'A' 'B' 4]) 'Z' = [] ∧
      dijkstra (buildGraph true [.addE 'A' 'B' 4]) 'Z' = .emptyDict := by
  refine ⟨by decide, claim_C9_absent_start _ _ (by decide)⟩

/-- The demonstration graph built in `main()` of `graphs.py`. -/
def mainGraph : Graph Char :=
  buildGraph true
    [.addE 'A' 'B' 4, .addE 'A' 'C' 2, .addE 'B' 'C' 1, .addE 'B' 'D' 5,
     .addE 'C' 'D' 8, .addE 'C' 'E' 10, .addE 'D' 'E' 2, .addE 'E' 'D' 7]

/-- Distance that `dijkstra` reports for vertex `v`. -/
def dijkstraDistOf [DecidableEq V] [LinearOrder V] (g : Graph V) (s v : V) :
    Option (Option Int) :=
  match dijkstra g s with
  | .result d _ => dlookup d v
  | .emptyDict => none

/-- Path that `dijkstra` reports for vertex `v`. -/
def dijkstraPathOf [DecidableEq V] [LinearOrder V] (g : Graph V) (s v : V) :
    Option (List V) :=
  match dijkstra g s with
  | .result _ p => dlookup p v
  | .emptyDict => none

/-- Claim C3, counterexample: on the demonstration graph, `dijkstra('A')`
reports distance 11 to `E`, not 12 as the claim states (the spec sentence even
lists `E:11` as the recomputed oracle). -/
theorem claim_C3_counterexample :
    dijkstraDistOf mainGraph 'A' 'E' = some (some 11) ∧
      some (some (11 : Int)) ≠ some (some (12 : Int)) := by
  exact ⟨by decide, by decide⟩

/-- Claim C3, amended: on the demonstration graph, `dijkstra('A')` yields
distance 11 to `E`, reached via the path `A -> B -> D -> E` (and distances
`A:0, B:4, C:2, D:9`). -/
theorem claim_C3_dijkstra_demo :
    dijkstraDistOf mainGraph 'A' 'E' = some (some 11) ∧
      dijkstraPathOf mainGraph 'A' 'E' = some ['A', 'B', 'D', 'E'] ∧
      dijkstraDistOf mainGraph 'A' 'A' = some (some 0) ∧
      dijkstraDistOf mainGraph 'A' 'B' = some (some 4) ∧
      dijkstraDistOf mainGraph 'A' 'C' = some (some 2) ∧
      dijkstraDistOf mainGraph 'A' 'D' = some (some 9) := by
  refine ⟨by decide, by decide, by decide, by decide, by decide, by decide⟩

/-! ### `minimum_spanning_trees.py`: DisjointSet, Kruskal, Prim -/

/-- The `DisjointSet` class: parent and rank dictionaries. -/
structure DisjointSet (V : Type) where
  parent : Dict V V
  rank : Dict V Int

/-- `DisjointSet.__init__`: each vertex its own parent, all ranks 0. -/
def dsInit (vertices : List V) : DisjointSet V :=
  { parent := vertices.foldl (fun m v => dset m v v) [],
    rank := vertices.foldl (fun m v => dset m v 0) [] }

/-- `DisjointSet.find` with path compression.  A missing key would be a Python
`KeyError`; the model's default (the vertex itself) is never exercised on the
vertices the structure was initialized with. -/
def dsFind (fuel : Nat) (ds : DisjointSet V) (v : V) : V × DisjointSet V :=
  match fuel with
  | 0 => (v, ds)
  | f + 1 =>
    let p := dlookupD ds.parent v v
    if p = v then (v, ds)
    else
      let r := dsFind f ds p
      let ds2 := { r.2 with parent := dset r.2.parent v r.1 }
      (dlookupD ds2.parent v v, ds2)

/-- `DisjointSet.union` by rank (missing ranks default to 0, never exercised
on initialized vertices). -/
def dsUnion (fuel : Nat) (ds0 : DisjointSet V) (v1 v2 : V) : DisjointSet V :=
  let r1 := dsFind fuel ds0 v1
  let r2 := dsFind fuel r1.2 v2
  let ds := r2.2
  if r1.1 = r2.1 then ds
  else if dlookupD ds.rank r1.1 0 < dlookupD ds.rank r2.1 0 then
    { ds with parent := dset ds.parent r1.1 r2.1 }
  else if dlookupD ds.rank r2.1 0 < dlookupD ds.rank r1.1 0 then
    { ds with parent := dset ds.parent r2.1 r1.1 }
  else
    { ds with
      parent := dset ds.parent r2.1 r1.1
      rank := dset ds.rank r1.1 (dlookupD ds.rank r1.1 0 + 1) }

/-- `MST.kruskal`: stable sort of the edge list by weight, then greedy
accept-if-different-components.  Reads only the vertex and edge snapshots,
never the adjacency. -/
def kruskal (g : Graph V) : List (V × V × Int) × Int :=
  let sorted_edges := g.edges.mergeSort (fun a b => a.2.2 ≤ b.2.2)
  let fuel := g.vertices.length + 1
  let r := sorted_edges.foldl
    (fun (st : DisjointSet V × List (V × V × Int) × Int) e =>
      let f1 := dsFind fuel st.1 e.1
      let f2 := dsFind fuel f1.2 e.2.1
      if f1.1 ≠ f2.1 then
        (dsUnion fuel f2.2 e.1 e.2.1, st.2.1 ++ [e], st.2.2 + e.2.2)
      else (f2.2, st.2.1, st.2.2))
    (dsInit g.vertices, [], 0)
  (r.2.1, r.2.2)

/-- `heapq` of `(weight, from, to)` triples, kept sorted lexicographically. -/
def heapPush3 [LinearOrder V] : List (Int × V × V) → Int × V × V → List (Int × V × V)
  | [], e => [e]
  | x :: t, e =>
    if e.1 < x.1 ∨ (e.1 = x.1 ∧ (e.2.1 < x.2.1 ∨ (e.2.1 = x.2.1 ∧ e.2.2 ≤ x.2.2))) then
      e :: x :: t
    else x :: heapPush3 t e

/-- The while-loop of `MST.prim`; `nVerts` is `len(self.vertices)`. -/
def primLoop [LinearOrder V] :
    Nat → Adj V → List (Int × V × V) → List V → Nat → List (V × V × Int) → Int →
    (List (V × V × Int) × Int) × Adj V
  | 0, adj, _, _, _, mst, total => ((mst, total), adj)
  | _ + 1, adj, [], _, _, mst, total => ((mst, total), adj)
  | fuel + 1, adj, (w, u, v) :: rest, visited, nVerts, mst, total =>
    if nVerts ≤ visited.length then ((mst, total), adj)
    else if v ∈ visited then primLoop fuel adj rest visited nVerts mst total
    else
      let visited2 := setAdd visited v
      let p := dgetm adj v []
      let heap2 := p.1.foldl
        (fun h e => if e.1 ∈ visited2 then h else heapPush3 h (e.2, v, e.1)) rest
      primLoop fuel p.2 heap2 visited2 nVerts (mst ++ [(u, v, w)]) (total + w)

/-- `MST.prim`.  The second component is the graph after the call: `prim`
subscripts the live `self.graph.adj_list` defaultdict, so missing adjacency
keys it touches are materialized on the shared graph. -/
def prim [LinearOrder V] (g : Graph V) (startArg : Option V) :
    (List (V × V × Int) × Int) × Graph V :=
  match g.vertices with
  | [] => (([], 0), g)
  | v0 :: _ =>
    let start := startArg.getD v0
    let p := dgetm g.adj_list start []
    let heap0 := p.1.foldl (fun h e => heapPush3 h (e.2, start, e.1)) []
    let r := primLoop (fuelOf g) p.2 heap0 [start] g.vertices.length [] 0
    (r.1, { g with adj_list := r.2 })

/-! ### `maximum_flow.py`: MaxFlow (Ford-Fulkerson / Edmonds-Karp) -/

/-- Residual graph / flow network: `defaultdict(dict)` of integer values. -/
abbrev Dict2 (V : Type) : Type := Dict V (Dict V Int)

/-- The `MaxFlow` object state: the vertex snapshot taken at construction and
the residual graph. -/
structure MaxFlowSt (V : Type) where
  vertices : List V
  residual_graph : Dict2 V

/-- Body of `initialize_residual_graph` for one vertex and its adjacency list:
`residual[vertex][neighbor] = capacity`; create `residual[neighbor]` when the
outer key is absent; then `residual[neighbor][vertex] = 0` unconditionally. -/
def initResidualEdges (vertex : V) (res0 : Dict2 V) (l : List (V × Int)) : Dict2 V :=
  l.foldl
    (fun res e =>
      let p := dgetm res vertex ([] : Dict V Int)
      let res1 := dset p.2 vertex (dset p.1 e.1 e.2)
      let res2 := if dcontains res1 e.1 then res1 else dset res1 e.1 []
      let q := dgetm res2 e.1 ([] : Dict V Int)
      dset q.2 e.1 (dset q.1 vertex 0))
    res0

/-- `MaxFlow.initialize_residual_graph`, threading the shared adjacency
defaultdict (whose missing keys it materializes). -/
def initialize_residual_graph (vertices : List V) (adj : Adj V) : Dict2 V × Adj V :=
  vertices.foldl
    (fun (st : Dict2 V × Adj V) vertex =>
      let p := dgetm st.2 vertex []
      (initResidualEdges vertex st.1 p.1, p.2))
    ([], adj)

/-- `MaxFlow.__init__`: snapshot the vertices, build the residual graph; the
second component is the shared graph afterwards. -/
def mkMaxFlow (g : Graph V) : MaxFlowSt V × Graph V :=
  let r := initialize_residual_graph g.vertices g.adj_list
  ({ vertices := g.vertices, residual_graph := r.1 }, { g with adj_list := r.2 })

/-- Path reconstruction in `bfs_augmenting_path`: follow parent pointers from
the sink until `None`, then the caller reverses. -/
def rebuildPath : Nat → Dict V (Option V) → Option V → List V → List V
  | 0, _, _, acc => acc
  | _, _, none, acc => acc
  | fuel + 1, parent, some v, acc => rebuildPath fuel parent (dlookupD parent v none) (acc ++ [v])

/-- `min(min_capacity[current], capacity)` where `None` is `float('inf')`. -/
def mcMin (m : Option Int) (c : Int) : Int :=
  match m with
  | none => c
  | some a => min a c

/-- The neighbor scan of `bfs_augmenting_path` over `residual[current].items()`,
with the early return the moment the sink is discovered.  `inl` is the
continue-state `(parent, min_capacity, queue)`, `inr` the returned
`(path, bottleneck)`. -/
def mfBfsInner (sink current : V) :
    List (V × Int) → Dict V (Option V) → Dict V (Option Int) → List V →
    (Dict V (Option V) × Dict V (Option Int) × List V) ⊕ (List V × Option Int)
  | [], parent, mincap, queue => .inl (parent, mincap, queue)
  | e :: rest, parent, mincap, queue =>
    if 0 < e.2 ∧ ¬ dcontains parent e.1 then
      let parent2 := dset parent e.1 (some current)
      let mincap2 := dset mincap e.1 (some (mcMin (dlookupD mincap current none) e.2))
      if e.1 = sink then
        .inr ((rebuildPath (parent2.length + 1) parent2 (some sink) []).reverse,
          dlookupD mincap2 sink none)
      else mfBfsInner sink current rest parent2 mincap2 (queue ++ [e.1])
    else mfBfsInner sink current rest parent mincap queue

/-- The queue loop of `bfs_augmenting_path`; `none` models the `(None, 0)`
return.  The residual defaultdict is threaded (subscripting it can
materialize an outer key). -/
def mfBfsLoop : Nat → Dict2 V → V → List V → Dict V (Option V) → Dict V (Option Int) →
    Option (List V × Option Int) × Dict2 V
  | 0, res, _, _, _, _ => (none, res)
  | _ + 1, res, _, [], _, _ => (none, res)
  | fuel + 1, res, sink, current :: rest, parent, mincap =>
    let p := dgetm res current ([] : Dict V Int)
    match mfBfsInner sink current p.1 parent mincap rest with
    | .inr r => (some r, p.2)
    | .inl st => mfBfsLoop fuel p.2 sink st.2.2 st.1 st.2.1

/-- Fuel bound for the augmenting-path BFS: every vertex enters the queue at
most once (guarded by membership in `parent`), so the number of parent
entries plus all inner-dict sizes bounds the pops. -/
def mfFuel (res : Dict2 V) : Nat :=
  res.foldl (fun n p => n + p.2.length) 0 + res.length + 2

/-- `MaxFlow.bfs_augmenting_path`. -/
def bfs_augmenting_path (st : MaxFlowSt V) (source sink : V) :
    Option (List V × Option Int) × MaxFlowSt V :=
  let r := mfBfsLoop (mfFuel st.residual_graph) st.residual_graph sink [source]
    [(source, none)] [(source, none)]
  (r.1, { st with residual_graph := r.2 })

/-- Consecutive pairs `(path[i], path[i+1])` of an augmenting path. -/
def augmentPairs : List V → List (V × V)
  | [] => []
  | [_] => []
  | u :: v :: rest => (u, v) :: augmentPairs (v :: rest)

/-- `residual[u][v] -= m` (defaultdict outer access; an absent inner key would
be a Python `KeyError`, never exercised because every path edge was seeded or
touched by the BFS; the model defaults the absent value to 0). -/
def d2add (m : Dict2 V) (u v : V) (x : Int) : Dict2 V :=
  let p := dgetm m u ([] : Dict V Int)
  dset p.2 u (dset p.1 v (dlookupD p.1 v 0 + x))

/-- One augmenting-path update of `ford_fulkerson`: for every consecutive pair,
decrease the forward residual, increase the reverse residual, and increase the
recorded flow. -/
def applyAugment (path : List V) (m : Int) (res flow : Dict2 V) : Dict2 V × Dict2 V :=
  (augmentPairs path).foldl
    (fun (st : Dict2 V × Dict2 V) uv =>
      (d2add (d2add st.1 uv.1 uv.2 (-m)) uv.2 uv.1 m, d2add st.2 uv.1 uv.2 m))
    (res, flow)

/-- The `while True` loop of `ford_fulkerson`.  Returns
`(max_flow, flow_network, residual)`. -/
def fordLoop (source sink : V) : Nat → Dict2 V → Dict2 V → Int → Int × Dict2 V × Dict2 V
  | 0, res, flow, acc => (acc, flow, res)
  | fuel + 1, res, flow, acc =>
    let r := mfBfsLoop (mfFuel res) res sink [source] [(source, none)] [(source, none)]
    match r.1 with
    | none => (acc, flow, r.2)
    | some pm =>
      let m := pm.2.getD 0
      let st := applyAugment pm.1 m r.2 flow
      fordLoop source sink fuel st.1 st.2 (acc + m)

/-- Initialization of the zero flow network: iterates the vertex snapshot and,
for each, the keys of `residual[vertex]` (a defaultdict subscript that can
materialize the outer key). -/
def initFlow (vertices : List V) (res : Dict2 V) : Dict2 V × Dict2 V :=
  vertices.foldl
    (fun (st : Dict2 V × Dict2 V) vertex =>
      let p := dgetm st.2 vertex ([] : Dict V Int)
      (p.1.foldl
        (fun flow q =>
          let r := dgetm flow vertex ([] : Dict V Int)
          dset r.2 vertex (dset r.1 q.1 0))
        st.1, p.2))
    ([], res)

/-- Fuel for the augmentation loop: one unit per possible unit of flow plus
one, enough for every integer-capacity run that terminates. -/
def fordFuel (res : Dict2 V) : Nat :=
  res.foldl (fun n p => p.2.foldl (fun n2 q => n2 + q.2.natAbs) n) 0 + 1

/-- `MaxFlow.ford_fulkerson`: returns the total flow value and the flow
network, together with the final object state. -/
def ford_fulkerson (st : MaxFlowSt V) (source sink : V) :
    (Int × Dict2 V) × MaxFlowSt V :=
  let fi := initFlow st.vertices st.residual_graph
  let r := fordLoop source sink (fordFuel fi.2) fi.2 fi.1 0
  ((r.1, r.2.1), { st with residual_graph := r.2.2 })

/-! ### `advanced_graph_algorithms.py`: Kosaraju SCC and topological sort -/

mutual

/-- `_dfs_first_pass`: mark, recurse into unvisited neighbors, then append the
vertex to the finish-order list (post-order). -/
def sccDfs1 (fuel : Nat) (adj : Adj V) (visited order : List V) (v : V) :
    List V × List V × Adj V :=
  match fuel with
  | 0 => (visited, order, adj)
  | f + 1 =>
    let p := dgetm adj v []
    let r := sccNbrs1 f p.2 (setAdd visited v) order p.1
    (r.1, r.2.1 ++ [v], r.2.2)
termination_by (fuel, 0)

/-- Neighbor loop of `_dfs_first_pass`. -/
def sccNbrs1 (fuel : Nat) (adj : Adj V) (visited order : List V) (l : List (V × Int)) :
    List V × List V × Adj V :=
  match l with
  | [] => (visited, order, adj)
  | e :: rest =>
    if e.1 ∈ visited then sccNbrs1 fuel adj visited order rest
    else
      let r := sccDfs1 fuel adj visited order e.1
      sccNbrs1 fuel r.2.2 r.1 r.2.1 rest
termination_by (fuel, l.length + 1)

end

mutual

/-- `_dfs_second_pass` over the reversed adjacency: mark, collect into the
current component, recurse into unvisited reversed neighbors. -/
def sccDfs2 (fuel : Nat) (radj : Adj V) (visited component : List V) (v : V) :
    List V × List V × Adj V :=
  match fuel with
  | 0 => (visited, component, radj)
  | f + 1 =>
    let p := dgetm radj v []
    sccNbrs2 f p.2 (setAdd visited v) (component ++ [v]) p.1
termination_by (fuel, 0)

/-- Neighbor loop of `_dfs_second_pass`. -/
def sccNbrs2 (fuel : Nat) (radj : Adj V) (visited component : List V) (l : List (V × Int)) :
    List V × List V × Adj V :=
  match l with
  | [] => (visited, component, radj)
  | e :: rest =>
    if e.1 ∈ visited then sccNbrs2 fuel radj visited component rest
    else
      let r := sccDfs2 fuel radj visited component e.1
      sccNbrs2 fuel r.2.2 r.1 r.2.1 rest
termination_by (fuel, l.length + 1)

end

/-- `_reverse_graph`: a fresh `defaultdict(list)` with every edge reversed;
the shared adjacency is threaded because it is subscripted per vertex. -/
def reverse_graph (vertices : List V) (adj : Adj V) : Adj V × Adj V :=
  vertices.foldl
    (fun (st : Adj V × Adj V) vertex =>
      let p := dgetm st.2 vertex []
      (p.1.foldl (fun racc e => adjAppend racc e.1 (vertex, e.2)) st.1, p.2))
    ([], adj)

/-- `find_scc`: first-pass DFS over all vertices for the finish order, then
second-pass DFS over the reversed graph in reverse finish order.  The second
component is the graph after the call (threaded adjacency). -/
def find_scc (g : Graph V) : List (List V) × Graph V :=
  let fp := g.vertices.foldl
    (fun (st : List V × List V × Adj V) v =>
      if v ∈ st.1 then st else sccDfs1 (fuelOf g) st.2.2 st.1 st.2.1 v)
    ([], [], g.adj_list)
  let rg := reverse_graph g.vertices fp.2.2
  let sp := fp.2.1.reverse.foldl
    (fun (st : List V × List (List V) × Adj V) v =>
      if v ∈ st.1 then st
      else
        let r := sccDfs2 (fuelOf g) st.2.2 st.1 [] v
        (r.1, st.2.1 ++ [r.2.1], r.2.2))
    ([], [], rg.1)
  (sp.2.1, { g with adj_list := rg.2 })

/-- State of the topological-sort DFS: visited set, in-progress set, output
order (a deque used with `appendleft`, so the model conses), adjacency. -/
structure TopoSt (V : Type) where
  visited : List V
  temp : List V
  order : List V
  adj : Adj V

mutual

/-- `_dfs_topological`: three-colour DFS; `true` means a cycle was found. -/
def topoDfs (fuel : Nat) (st : TopoSt V) (v : V) : Bool × TopoSt V :=
  match fuel with
  | 0 => (true, st)
  | f + 1 =>
    let p := dgetm st.adj v []
    let r := topoNbrs f
      { st with visited := setAdd st.visited v, temp := setAdd st.temp v, adj := p.2 } p.1
    if r.1 then r
    else (false, { r.2 with temp := r.2.temp.erase v, order := v :: r.2.order })
termination_by (fuel, 0)

/-- Neighbor loop of `_dfs_topological`: recurse into unvisited neighbors,
report a cycle when a neighbor is in the in-progress set. -/
def topoNbrs (fuel : Nat) (st : TopoSt V) (l : List (V × Int)) : Bool × TopoSt V :=
  match l with
  | [] => (false, st)
  | e :: rest =>
    if e.1 ∉ st.visited then
      let r := topoDfs fuel st e.1
      if r.1 then r else topoNbrs fuel r.2 rest
    else if e.1 ∈ st.temp then (true, st)
    else topoNbrs fuel st rest
termination_by (fuel, l.length + 1)

end

/-- The outer vertex loop of `topological_sort`, with the early `None` return
on the first detected cycle. -/
def topoOuter (fuel : Nat) (st : TopoSt V) : List V → Bool × TopoSt V
  | [] => (false, st)
  | v :: rest =>
    if v ∈ st.visited then topoOuter fuel st rest
    else
      let r := topoDfs fuel st v
      if r.1 then r else topoOuter fuel r.2 rest

/-- `topological_sort`: `none` when a cycle is found, otherwise the order.
The second component is the graph after the call (threaded adjacency). -/
def topological_sort (g : Graph V) : Option (List V) × Graph V :=
  let r := topoOuter (fuelOf g)
    { visited := [], temp := [], order := [], adj := g.adj_list } g.vertices
  (if r.1 then none else some r.2.order, { g with adj_list := r.2.adj })

/-! ### Concrete runs deciding claims C1, C2 (counterexample) and C4
(counterexample) -/

/-- Nested lookup in a residual graph / flow network. -/
def d2lookup (m : Dict2 V) (u v : V) : Option Int :=
  match dlookup m u with
  | some inner => dlookup inner v
  | none => none

/-- A two-vertex graph with the antiparallel edges `D -> E (2)` and
`E -> D (7)`. -/
def graphDE : Graph Char :=
  buildGraph true [.addE 'D' 'E' 2, .addE 'E' 'D' 7]

/-- Claim C1: `initialize_residual_graph` writes `residual[neighbor][vertex] = 0`
unconditionally (its guard only checks the outer dict), so seeding the later
antiparallel edge `E -> D` overwrites `residual['D']['E']` with 0 even though
the graph has the edge `D -> E` with capacity 2.  This theorem evaluates the
code at the failing input: the claim (and the spec) require
`residual['D']['E'] = 2`, the code produces 0. -/
theorem claim_C1_residual_overwrite :
    ('D', 'E', (2 : Int)) ∈ graphDE.edges ∧
      d2lookup (mkMaxFlow graphDE).1.residual_graph 'D' 'E' = some 0 ∧
      (0 : Int) ≠ 2 := by
  refine ⟨by decide, by decide, by decide⟩

/-- A unit-capacity network on which Edmonds-Karp must augment along the
reverse residual edge `V -> U` (flow cancellation): the only length-3 path is
`S-U-V-T`; afterwards the only augmenting path is `S-A-B-V-U-C-D-T`. -/
def cancelGraph : Graph Char :=
  buildGraph true
    [.addE 'S' 'U' 1, .addE 'U' 'V' 1, .addE 'V' 'T' 1, .addE 'S' 'A' 1,
     .addE 'A' 'B' 1, .addE 'B' 'V' 1, .addE 'U' 'C' 1, .addE 'C' 'D' 1,
     .addE 'D' 'T' 1]

/-- Claim C2, counterexample: on `cancelGraph` (non-negative integer
capacities), `ford_fulkerson('S','T')` records flow 1 on the pair `(V, U)`
although the graph has no edge `V -> U` — contradicting the claim that a pair
with no original edge carries no positive flow (equivalently, that flow never
exceeds the original capacity). -/
theorem claim_C2_counterexample :
    d2lookup (ford_fulkerson (mkMaxFlow cancelGraph).1 'S' 'T').1.2 'V' 'U' = some 1 ∧
      (0 : Int) < 1 ∧
      cancelGraph.edges.all (fun e => !(e.1 = 'V' ∧ e.2.1 = 'U')) = true := by
  refine ⟨by decide, by decide, by decide⟩

/-- A one-edge directed graph `A -> B`; the sink `B` has no adjacency entry. -/
def graphAB : Graph Char :=
  buildGraph true [.addE 'A' 'B' 1]

/-- Claim C4, counterexample: constructing `MaxFlow` on `graphAB` mutates the
shared graph's adjacency mapping: the defaultdict subscript
`self.adj_list[vertex]` materializes the key `'B'` (bound to an empty list),
so the adjacency key set differs before and after the invocation. -/
theorem claim_C4_counterexample :
    dcontains graphAB.adj_list 'B' = false ∧
      dcontains (mkMaxFlow graphAB).2.adj_list 'B' = true ∧
      (mkMaxFlow graphAB).2.adj_list ≠ graphAB.adj_list := by
  refine ⟨by decide, by decide, by decide⟩

/-! ### Claim C4 (amended): the algorithms never change existing graph state;
the adjacency defaultdict can only grow by keys bound to empty lists -/

/-- `b` extends `a` by appended bindings whose values are all the empty list
(exactly what `defaultdict(list)` subscripts can add). -/
def ExtEmpty (a b : Adj V) : Prop :=
  ∃ ex, b = a ++ ex ∧ ∀ p ∈ ex, p.2 = ([] : List (V × Int))

theorem extEmpty_refl (a : Adj V) : ExtEmpty a a :=
  ⟨[], by simp, by simp⟩

theorem extEmpty_trans {a b c : Adj V} (h1 : ExtEmpty a b) (h2 : ExtEmpty b c) :
    ExtEmpty a c := by
  obtain ⟨e1, he1, hp1⟩ := h1
  obtain ⟨e2, he2, hp2⟩ := h2
  refine ⟨e1 ++ e2, ?_, fun p hp => ?_⟩
  · rw [he2, he1, List.append_assoc]
  · rcases List.mem_append.1 hp with h | h
    · exact hp1 p h
    · exact hp2 p h

theorem extEmpty_dgetm (m : Adj V) (k : V) : ExtEmpty m (dgetm m k []).2 := by
  unfold dgetm
  rcases h : dlookup m k with _ | a
  · exact ⟨[(k, [])], rfl, by simp⟩
  · exact ⟨[], by simp, by simp⟩

/-- Any fold whose step extends the adjacency projection by empty keys only,
extends it by empty keys only. -/
theorem extEmpty_foldl {α σ : Type} (f : σ → α → σ) (proj : σ → Adj V)
    (h : ∀ s a, ExtEmpty (proj s) (proj (f s a))) :
    ∀ (l : List α) (s : σ), ExtEmpty (proj s) (proj (l.foldl f s)) := by
  intro l
  induction l with
  | nil => intro s; exact extEmpty_refl _
  | cons a t ih => intro s; exact extEmpty_trans (h s a) (ih (f s a))

theorem extEmpty_init_residual (vertices : List V) (adj : Adj V) :
    ExtEmpty adj (initialize_residual_graph vertices adj).2 := by
  unfold initialize_residual_graph
  apply extEmpty_foldl
  intro s a
  exact extEmpty_dgetm s.2 a

theorem extEmpty_primLoop [LinearOrder V] (fuel : Nat) :
    ∀ (adj : Adj V) heap visited nVerts mst total,
      ExtEmpty adj (primLoop fuel adj heap visited nVerts mst total).2 := by
  induction fuel with
  | zero => intro adj heap visited nVerts mst total; exact extEmpty_refl _
  | succ f ih =>
    intro adj heap visited nVerts mst total
    rcases heap with _ | ⟨⟨w, u, v⟩, rest⟩
    · rw [primLoop]; exact extEmpty_refl _
    · rw [primLoop]
      by_cases h1 : nVerts ≤ visited.length
      · rw [if_pos h1]; exact extEmpty_refl _
      · rw [if_neg h1]
        by_cases h2 : v ∈ visited
        · rw [if_pos h2]; exact ih adj rest visited nVerts mst total
        · rw [if_neg h2]
          exact extEmpty_trans (extEmpty_dgetm adj v) (ih _ _ _ _ _ _)

theorem extEmpty_sccDfs1 (fuel : Nat) :
    (∀ (adj : Adj V) visited order v, ExtEmpty adj (sccDfs1 fuel adj visited order v).2.2) ∧
      (∀ (adj : Adj V) visited order l, ExtEmpty adj (sccNbrs1 fuel adj visited order l).2.2) := by
  induction fuel with
  | zero =>
    constructor
    · intro adj visited order v
      rw [sccDfs1]
      exact extEmpty_refl _
    · intro adj visited order l
      induction l generalizing adj visited order with
      | nil => rw [sccNbrs1]; exact extEmpty_refl _
      | cons e rest ih =>
        rw [sccNbrs1]
        by_cases h : e.1 ∈ visited
        · rw [if_pos h]; exact ih adj visited order
        · rw [if_neg h]
          simp only
          refine extEmpty_trans ?_ (ih _ _ _)
          rw [sccDfs1]
          exact extEmpty_refl _
  | succ f ih =>
    have hdfs : ∀ (adj : Adj V) visited order v,
        ExtEmpty adj (sccDfs1 (f + 1) adj visited order v).2.2 := by
      intro adj visited order v
      rw [sccDfs1]
      exact extEmpty_trans (extEmpty_dgetm adj v) (ih.2 _ _ _ _)
    refine ⟨hdfs, ?_⟩
    intro adj visited order l
    induction l generalizing adj visited order with
    | nil => rw [sccNbrs1]; exact extEmpty_refl _
    | cons e rest ihl =>
      rw [sccNbrs1]
      by_cases h : e.1 ∈ visited
      · rw [if_pos h]; exact ihl adj visited order
      · rw [if_neg h]
        simp only
        exact extEmpty_trans (hdfs adj visited order e.1) (ihl _ _ _)

theorem extEmpty_reverse_graph (vertices : List V) (adj : Adj V) :
    ExtEmpty adj (reverse_graph vertices adj).2 := by
  unfold reverse_graph
  apply extEmpty_foldl
  intro s a
  exact extEmpty_dgetm s.2 a

theorem extEmpty_find_scc (g : Graph V) : ExtEmpty g.adj_list (find_scc g).2.adj_list := by
  unfold find_scc
  simp only
  refine extEmpty_trans (b := (g.vertices.foldl
    (fun (st : List V × List V × Adj V) v =>
      if v ∈ st.1 then st else sccDfs1 (fuelOf g) st.2.2 st.1 st.2.1 v)
    ([], [], g.adj_list)).2.2) ?_ ?_
  · refine extEmpty_foldl _ (fun st : List V × List V × Adj V => st.2.2) ?_ g.vertices _
    intro s a
    by_cases h : a ∈ s.1
    · rw [if_pos h]; exact extEmpty_refl _
    · rw [if_neg h]; exact (extEmpty_sccDfs1 (fuelOf g)).1 _ _ _ _
  · exact extEmpty_reverse_graph _ _

theorem extEmpty_topoDfs (fuel : Nat) :
    (∀ (st : TopoSt V) v, ExtEmpty st.adj (topoDfs fuel st v).2.adj) ∧
      (∀ (st : TopoSt V) l, ExtEmpty st.adj (topoNbrs fuel st l).2.adj) := by
  induction fuel with
  | zero =>
    constructor
    · intro st v
      rw [topoDfs]
      exact extEmpty_refl _
    · intro st l
      induction l generalizing st with
      | nil => rw [topoNbrs]; exact extEmpty_refl _
      | cons e rest ih =>
        rw [topoNbrs]
        by_cases h : e.1 ∉ st.visited
        · rw [if_pos h]
          simp only
          have h0 : ExtEmpty st.adj (topoDfs 0 st e.1).2.adj := by
            rw [topoDfs]; exact extEmpty_refl _
          by_cases hc : (topoDfs 0 st e.1).1 = true
          · rw [if_pos hc]; exact h0
          · rw [if_neg hc]; exact extEmpty_trans h0 (ih _)
        · rw [if_neg h]
          by_cases h2 : e.1 ∈ st.temp
          · rw [if_pos h2]; exact extEmpty_refl _
          · rw [if_neg h2]; exact ih st
  | succ f ih =>
    have hdfs : ∀ (st : TopoSt V) v, ExtEmpty st.adj (topoDfs (f + 1) st v).2.adj := by
      intro st v
      rw [topoDfs]
      simp only
      have step : ExtEmpty st.adj
          (topoNbrs f { st with
            visited := setAdd st.visited v, temp := setAdd st.temp v,
            adj := (dgetm st.adj v []).2 } (dgetm st.adj v []).1).2.adj :=
        extEmpty_trans (extEmpty_dgetm st.adj v) (ih.2 _ _)
      by_cases hc : (topoNbrs f { st with
          visited := setAdd st.visited v, temp := setAdd st.temp v,
          adj := (dgetm st.adj v []).2 } (dgetm st.adj v []).1).1 = true
      · rw [if_pos hc]; exact step
      · rw [if_neg hc]; exact step
    refine ⟨hdfs, ?_⟩
    intro st l
    induction l generalizing st with
    | nil => rw [topoNbrs]; exact extEmpty_refl _
    | cons e rest ihl =>
      rw [topoNbrs]
      by_cases h : e.1 ∉ st.visited
      · rw [if_pos h]
        simp only
        by_cases hc : (topoDfs (f + 1) st e.1).1 = true
        · rw [if_pos hc]; exact hdfs st e.1
        · rw [if_neg hc]; exact extEmpty_trans (hdfs st e.1) (ihl _)
      · rw [if_neg h]
        by_cases h2 : e.1 ∈ st.temp
        · rw [if_pos h2]; exact extEmpty_refl _
        · rw [if_neg h2]; exact ihl st

theorem extEmpty_topoOuter (fuel : Nat) (l : List V) :
    ∀ (st : TopoSt V), ExtEmpty st.adj (topoOuter fuel st l).2.adj := by
  induction l with
  | nil => intro st; rw [topoOuter]; exact extEmpty_refl _
  | cons v rest ih =>
    intro st
    rw [topoOuter]
    by_cases h : v ∈ st.visited
    · rw [if_pos h]; exact ih st
    · rw [if_neg h]
      simp only
      by_cases hc : (topoDfs fuel st v).1 = true
      · rw [if_pos hc]; exact (extEmpty_topoDfs fuel).1 st v
      · rw [if_neg hc]
        exact extEmpty_trans ((extEmpty_topoDfs fuel).1 st v) (ih _)

/-- Claim C4, amended: `MST.prim`, `MST.kruskal`, `MaxFlow` construction with
`ford_fulkerson`, `find_scc` and `topological_sort` leave the graph's directed
flag, vertex set, edge list and every existing adjacency binding unchanged;
the only observable change is that defaultdict subscripts may append adjacency
keys bound to empty lists.  (`kruskal` reads only the vertex and edge
snapshots and `ford_fulkerson` reads only the MaxFlow-owned residual graph, as
the types of `kruskal` and `ford_fulkerson` in this file make evident.) -/
theorem claim_C4_no_mutation_beyond_empty_keys [LinearOrder V] (g : Graph V)
    (startArg : Option V) :
    ((prim g startArg).2.directed = g.directed ∧
      (prim g startArg).2.vertices = g.vertices ∧
      (prim g startArg).2.edges = g.edges ∧
      ExtEmpty g.adj_list (prim g startArg).2.adj_list) ∧
    ((mkMaxFlow g).2.directed = g.directed ∧
      (mkMaxFlow g).2.vertices = g.vertices ∧
      (mkMaxFlow g).2.edges = g.edges ∧
      ExtEmpty g.adj_list (mkMaxFlow g).2.adj_list) ∧
    ((find_scc g).2.directed = g.directed ∧
      (find_scc g).2.vertices = g.vertices ∧
      (find_scc g).2.edges = g.edges ∧
      ExtEmpty g.adj_list (find_scc g).2.adj_list) ∧
    ((topological_sort g).2.directed = g.directed ∧
      (topological_sort g).2.vertices = g.vertices ∧
      (topological_sort g).2.edges = g.edges ∧
      ExtEmpty g.adj_list (topological_sort g).2.adj_list) := by
  refine ⟨?_, ?_, ?_, ?_⟩
  · unfold prim
    rcases hv : g.vertices with _ | ⟨v0, vs⟩
    · exact ⟨rfl, hv, rfl, extEmpty_refl _⟩
    · refine ⟨rfl, rfl, rfl, ?_⟩
      exact extEmpty_trans (extEmpty_dgetm g.adj_list (startArg.getD v0))
        (extEmpty_primLoop (fuelOf g) _ _ _ _ _ _)
  · exact ⟨rfl, rfl, rfl, extEmpty_init_residual g.vertices g.adj_list⟩
  · exact ⟨rfl, rfl, rfl, extEmpty_find_scc g⟩
  · exact ⟨rfl, rfl, rfl, extEmpty_topoOuter (fuelOf g) g.vertices _⟩

/-! ### Claim C2 (amended): every recorded flow value is non-negative -/

/-- All finite values in a BFS min-capacity dict are positive. -/
def MCpos (m : Dict V (Option Int)) : Prop :=
  ∀ p ∈ m, ∀ c : Int, p.2 = some c → 0 < c

/-- All recorded flow values are non-negative. -/
def FlowNN (m : Dict2 V) : Prop :=
  ∀ p ∈ m, ∀ q ∈ p.2, 0 ≤ q.2

theorem mcpos_lookup {m : Dict V (Option Int)} {k : V} {c : Int}
    (hm : MCpos m) (h : dlookupD m k none = some c) : 0 < c := by
  unfold dlookupD at h
  rcases hl : dlookup m k with _ | x
  · rw [hl] at h; simp at h
  · rw [hl] at h
    simp only [Option.getD_some] at h
    exact hm (k, x) (dlookup_mem hl) c h

theorem mcpos_dset {m : Dict V (Option Int)} {k : V} {c : Int}
    (hm : MCpos m) (hc : 0 < c) : MCpos (dset m k (some c)) := by
  intro p hp d hd
  rcases mem_dset hp with h | ⟨_, h2⟩
  · exact hm p h d hd
  · rw [h2] at hd
    rw [Option.some.injEq] at hd
    rw [← hd]; exact hc

theorem mfBfsInner_pos (sink current : V) (l : List (V × Int)) :
    ∀ (parent : Dict V (Option V)) (mincap : Dict V (Option Int)) (queue : List V),
      MCpos mincap →
      (∀ st, mfBfsInner sink current l parent mincap queue = .inl st → MCpos st.2.1) ∧
      (∀ r, mfBfsInner sink current l parent mincap queue = .inr r →
        ∀ c : Int, r.2 = some c → 0 < c) := by
  induction l with
  | nil =>
    intro parent mincap queue hm
    refine ⟨fun st hst => ?_, fun r hr => by simp [mfBfsInner] at hr⟩
    rw [mfBfsInner] at hst
    rw [Sum.inl.injEq] at hst
    rw [← hst]
    exact hm
  | cons e rest ih =>
    intro parent mincap queue hm
    rw [mfBfsInner]
    by_cases hg : 0 < e.2 ∧ ¬ dcontains parent e.1
    · rw [if_pos hg]
      have hpos : 0 < mcMin (dlookupD mincap current none) e.2 := by
        unfold mcMin
        rcases hc : dlookupD mincap current none with _ | a
        · exact hg.1
        · exact lt_min (mcpos_lookup hm hc) hg.1
      have hm2 : MCpos (dset mincap e.1 (some (mcMin (dlookupD mincap current none) e.2))) :=
        mcpos_dset hm hpos
      by_cases hs : e.1 = sink
      · rw [if_pos hs]
        refine ⟨fun st hst => by simp at hst, fun r hr => ?_⟩
        rw [Sum.inr.injEq] at hr
        intro c hc
        rw [← hr] at hc
        simp only at hc
        exact mcpos_lookup hm2 hc
      · rw [if_neg hs]
        exact ih _ _ _ hm2
    · rw [if_neg hg]
      exact ih _ _ _ hm

theorem mfBfsLoop_pos :
    ∀ (fuel : Nat) (res : Dict2 V) (sink : V) (queue : List V)
      (parent : Dict V (Option V)) (mincap : Dict V (Option Int)),
      MCpos mincap →
      ∀ r, (mfBfsLoop fuel res sink queue parent mincap).1 = some r →
        ∀ c : Int, r.2 = some c → 0 < c := by
  intro fuel
  induction fuel with
  | zero => intro res sink queue parent mincap _ r hr; simp [mfBfsLoop] at hr
  | succ f ih =>
    intro res sink queue parent mincap hm r hr
    rcases queue with _ | ⟨current, rest⟩
    · simp [mfBfsLoop] at hr
    · simp only [mfBfsLoop] at hr
      rcases hinner : mfBfsInner sink current (dgetm res current []).1 parent mincap rest with
        st | r2
      · rw [hinner] at hr
        simp only at hr
        exact ih _ _ _ _ _ ((mfBfsInner_pos sink current _ _ _ _ hm).1 st hinner) r hr
      · rw [hinner] at hr
        simp only [Option.some.injEq] at hr
        rw [← hr]
        exact (mfBfsInner_pos sink current _ _ _ _ hm).2 r2 hinner

theorem dlookupD0_nonneg {inner : Dict V Int} {v : V}
    (h : ∀ q ∈ inner, 0 ≤ q.2) : 0 ≤ dlookupD inner v 0 := by
  unfold dlookupD
  rcases hl : dlookup inner v with _ | w
  · simp
  · simp only [Option.getD_some]
    exact h (v, w) (dlookup_mem hl)

theorem flowNN_d2add {m : Dict2 V} {u v : V} {x : Int}
    (hm : FlowNN m) (hx : 0 ≤ x) : FlowNN (d2add m u v x) := by
  intro p hp q hq
  unfold d2add at hp
  simp only at hp
  have hfst : ∀ q2 ∈ (dgetm m u ([] : Dict V Int)).1, 0 ≤ q2.2 := by
    rcases fst_dgetm_cases m u ([] : Dict V Int) with h | h
    · rw [h]; simp
    · exact hm _ h
  rcases mem_dset hp with hp | ⟨_, hp2⟩
  · rcases mem_dgetm hp with hp | ⟨_, hp2⟩
    · exact hm p hp q hq
    · rw [hp2] at hq; simp at hq
  · rw [hp2] at hq
    rcases mem_dset hq with hq | ⟨_, hq2⟩
    · exact hfst q hq
    · rw [hq2]
      exact add_nonneg (dlookupD0_nonneg hfst) hx

theorem flowNN_applyAugment (path : List V) (x : Int) (hx : 0 ≤ x) :
    ∀ (res flow : Dict2 V), FlowNN flow → FlowNN (applyAugment path x res flow).2 := by
  unfold applyAugment
  generalize augmentPairs path = pairs
  induction pairs with
  | nil => intro res flow hf; exact hf
  | cons uv rest ih =>
    intro res flow hf
    rw [List.foldl_cons]
    exact ih _ _ (flowNN_d2add hf hx)

theorem flowNN_initFlow (vertices : List V) (res : Dict2 V) :
    FlowNN (initFlow vertices res).1 := by
  unfold initFlow
  have step : ∀ (l : List (V × Int)) (flow : Dict2 V) (vertex : V), FlowNN flow →
      FlowNN (l.foldl
        (fun flow q =>
          let r := dgetm flow vertex ([] : Dict V Int)
          dset r.2 vertex (dset r.1 q.1 0)) flow) := by
    intro l
    induction l with
    | nil => intro flow vertex hf; exact hf
    | cons q rest ih =>
      intro flow vertex hf
      rw [List.foldl_cons]
      refine ih _ _ (fun p hp q2 hq2 => ?_)
      have hfst : ∀ q3 ∈ (dgetm flow vertex ([] : Dict V Int)).1, 0 ≤ q3.2 := by
        rcases fst_dgetm_cases flow vertex ([] : Dict V Int) with h | h
        · rw [h]; simp
        · exact hf _ h
      rcases mem_dset hp with hp | ⟨_, hp2⟩
      · rcases mem_dgetm hp with hp | ⟨_, hp2⟩
        · exact hf p hp q2 hq2
        · rw [hp2] at hq2; simp at hq2
      · rw [hp2] at hq2
        rcases mem_dset hq2 with hq2 | ⟨_, hq3⟩
        · exact hfst q2 hq2
        · rw [hq3]

  have main : ∀ (vs : List V) (st : Dict2 V × Dict2 V), FlowNN st.1 →
      FlowNN (vs.foldl
        (fun (st : Dict2 V × Dict2 V) vertex =>
          let p := dgetm st.2 vertex ([] : Dict V Int)
          ((p.1.foldl
            (fun flow q =>
              let r := dgetm flow vertex ([] : Dict V Int)
              dset r.2 vertex (dset r.1 q.1 0)) st.1), p.2)) st).1 := by
    intro vs
    induction vs with
    | nil => intro st hst; exact hst
    | cons vx rest ih =>
      intro st hst
      rw [List.foldl_cons]
      exact ih _ (step _ _ _ hst)
  exact main vertices ([], res) (by intro p hp; simp at hp)

/-- The initial min-capacity dict `{source: inf}` has no finite values. -/
theorem mcpos_init (source : V) : MCpos ([(source, none)] : Dict V (Option Int)) := by
  intro p hp c hc
  rw [List.mem_singleton] at hp
  rw [hp] at hc
  simp at hc

theorem fordLoop_flowNN (source sink : V) :
    ∀ (fuel : Nat) (res flow : Dict2 V) (acc : Int), FlowNN flow →
      FlowNN (fordLoop source sink fuel res flow acc).2.1 := by
  intro fuel
  induction fuel with
  | zero => intro res flow acc hf; exact hf
  | succ f ih =>
    intro res flow acc hf
    simp only [fordLoop]
    rcases hbfs : (mfBfsLoop (mfFuel res) res sink [source] [(source, none)]
        [(source, none)]).1 with _ | pm
    · exact hf
    · have hm : 0 ≤ pm.2.getD 0 := by
        rcases hpm : pm.2 with _ | c
        · simp
        · simp only [Option.getD_some]
          exact le_of_lt
            (mfBfsLoop_pos (mfFuel res) res sink [source] _ _ (mcpos_init source) pm hbfs c hpm)
      exact ih _ _ _ (flowNN_applyAugment pm.1 _ hm _ _ hf)

/-- Claim C2, amended: for every graph and every source/sink, every flow value
recorded in the network returned by `ford_fulkerson` is non-negative.  (The
original upper bound by the edge capacity is refuted by
the counterexample above: flow cancellation records positive
flow on reverse pairs.) -/
theorem claim_C2_flow_nonneg (g : Graph V) (source sink u v : V) (c : Int)
    (h : d2lookup (ford_fulkerson (mkMaxFlow g).1 source sink).1.2 u v = some c) :
    0 ≤ c := by
  unfold d2lookup at h
  rcases hu : dlookup (ford_fulkerson (mkMaxFlow g).1 source sink).1.2 u with _ | inner
  · rw [hu] at h; simp at h
  · rw [hu] at h
    have hNN : FlowNN (ford_fulkerson (mkMaxFlow g).1 source sink).1.2 := by
      unfold ford_fulkerson
      simp only
      exact fordLoop_flowNN source sink _ _ _ _ (flowNN_initFlow _ _)
    exact hNN (u, inner) (dlookup_mem hu) (v, c) (dlookup_mem h)

/-- Witness for the amended C2 on the cancellation network: the recorded flow
on `(V, U)` is 1, and the theorem instantiates to `0 ≤ 1`. -/
theorem claim_C2_flow_nonneg_witness : (0 : Int) ≤ 1 :=
  claim_C2_flow_nonneg cancelGraph 'S' 'T' 'V' 'U' 1 (by decide)

/-! ### Claim C10: Dijkstra's distances and paths are mutually consistent -/

/-- Content of the adjacency defaultdict at a key (empty when absent). -/
def acontent (m : Adj V) (u : V) : List (V × Int) := dlookupD m u []

/-- `ChainW adj s v l c`: the vertex list `l` starts at `s`, ends at `v`,
follows adjacency entries of `adj`, and the followed weights sum to `c`. -/
inductive ChainW (adj : V → List (V × Int)) : V → V → List V → Int → Prop where
  | refl (v : V) : ChainW adj v v [v] 0
  | cons {u v w : V} {x d : Int} {l : List V} (h : (v, x) ∈ adj u)
      (t : ChainW adj v w l d) : ChainW adj u w (u :: l) (x + d)

theorem chainW_cast {adj : V → List (V × Int)} {s v : V} {l : List V} {c c2 : Int}
    (h : ChainW adj s v l c) (he : c = c2) : ChainW adj s v l c2 := he ▸ h

theorem chainW_head {adj : V → List (V × Int)} {s v : V} {l : List V} {c : Int}
    (h : ChainW adj s v l c) : l.head? = some s := by
  cases h <;> rfl

theorem chainW_last {adj : V → List (V × Int)} {s v : V} {l : List V} {c : Int}
    (h : ChainW adj s v l c) : l.getLast? = some v := by
  induction h with
  | refl => rfl
  | cons hmem t ih =>
    rcases t with _ | _
    · rw [← ih]; rfl
    · rw [← ih]; rfl

theorem chainW_snoc {adj : V → List (V × Int)} {s u n : V} {l : List V} {c w : Int}
    (h : ChainW adj s u l c) (hm : (n, w) ∈ adj u) :
    ChainW adj s n (l ++ [n]) (c + w) := by
  induction h with
  | refl v => exact chainW_cast (ChainW.cons hm (ChainW.refl n)) (by omega)
  | cons hmem t ih =>
    exact chainW_cast (ChainW.cons hmem (ih hm)) (by omega)

theorem dlookup_dset_self (m : Dict K A) (k : K) (a : A) :
    dlookup (dset m k a) k = some a := by
  induction m with
  | nil => simp [dset, dlookup]
  | cons hd tl ih =>
    rw [show dset (hd :: tl) k a = if hd.1 = k then (hd.1, a) :: tl
          else hd :: dset tl k a from rfl]
    by_cases hk : hd.1 = k
    · rw [if_pos hk, dlookup, if_pos hk]
    · rw [if_neg hk, dlookup, if_neg hk]
      exact ih

theorem dlookup_dset_ne (m : Dict K A) {k k2 : K} (a : A) (h : k ≠ k2) :
    dlookup (dset m k a) k2 = dlookup m k2 := by
  induction m with
  | nil => simp [dset, dlookup, h]
  | cons hd tl ih =>
    rw [show dset (hd :: tl) k a = if hd.1 = k then (hd.1, a) :: tl
          else hd :: dset tl k a from rfl]
    by_cases hk : hd.1 = k
    · rw [if_pos hk, dlookup, dlookup, if_neg (hk ▸ h), if_neg (hk ▸ h)]
    · rw [if_neg hk, dlookup, dlookup]
      by_cases hk2 : hd.1 = k2
      · rw [if_pos hk2, if_pos hk2]
      · rw [if_neg hk2, if_neg hk2]
        exact ih

theorem dlookup_map_const (l : List K) (a : A) (k : K) :
    dlookup (l.map fun x => (x, a)) k = if k ∈ l then some a else none := by
  induction l with
  | nil => simp [dlookup]
  | cons hd tl ih =>
    rw [List.map_cons, dlookup]
    by_cases hk : hd = k
    · rw [if_pos hk, if_pos (by rw [hk]; exact List.mem_cons_self _ _)]
    · rw [if_neg hk, ih]
      by_cases hm : k ∈ tl
      · rw [if_pos hm, if_pos (List.mem_cons_of_mem _ hm)]
      · have hnc : k ∉ hd :: tl := by
          intro hc
          rcases List.mem_cons.1 hc with hc | hc
          · exact hk hc.symm
          · exact hm hc
        rw [if_neg hm, if_neg hnc]

theorem mem_heapPush [LinearOrder V] {h : List (Int × V)} {e x : Int × V}
    (hx : x ∈ heapPush h e) : x ∈ h ∨ x = e := by
  induction h with
  | nil => simp [heapPush] at hx; exact Or.inr hx
  | cons hd tl ih =>
    rw [heapPush] at hx
    by_cases hc : e.1 < hd.1 ∨ (e.1 = hd.1 ∧ e.2 ≤ hd.2)
    · rw [if_pos hc] at hx
      rcases List.mem_cons.1 hx with h1 | h1
      · exact Or.inr h1
      · exact Or.inl h1
    · rw [if_neg hc] at hx
      rcases List.mem_cons.1 hx with h1 | h1
      · exact Or.inl (h1 ▸ List.mem_cons_self _ _)
      · rcases ih h1 with h2 | h2
        · exact Or.inl (List.mem_cons_of_mem _ h2)
        · exact Or.inr h2

theorem dlookupD_none_some {m : Dict K (Option A)} {k : K} {c : A}
    (h : dlookupD m k none = some c) : dlookup m k = some (some c) := by
  unfold dlookupD at h
  rcases hl : dlookup m k with _ | x
  · rw [hl] at h; simp at h
  · rw [hl] at h
    simp only [Option.getD_some] at h
    rw [h]

/-- Invariant of the Dijkstra loop relative to the original adjacency content
`A` and the start vertex. -/
structure DijkInv (A : V → List (V × Int)) (start : V) (st : DijkstraSt V) : Prop where
  inv1 : ∀ e ∈ st.pq, ∃ c : Int, dlookupD st.dist e.2 none = some c ∧ c ≤ e.1
  inv2 : ∀ (v : V) (c : Int), dlookup st.dist v = some (some c) →
    ∃ l, dlookup st.paths v = some l ∧ ChainW A start v l c
  inv3 : ∀ v : V, dlookup st.dist v = some none → dlookup st.paths v = some []
  inv4 : ∀ u : V, acontent st.adj u = A u

theorem dijkInv_relax [LinearOrder V] {A : V → List (V × Int)} {start u : V} {d : Int}
    {st : DijkstraSt V} (hA : ∀ w, ∀ q ∈ A w, 0 ≤ q.2)
    (h : DijkInv A start st) (hd : dlookup st.dist u = some (some d))
    {e : V × Int} (he : e ∈ A u) :
    DijkInv A start (dijkstraRelax u d st e) ∧
      dlookup (dijkstraRelax u d st e).dist u = some (some d) := by
  unfold dijkstraRelax
  by_cases hguard : ltInf (d + e.2) (dlookupD st.dist e.1 none) = true
  · rw [if_pos hguard]
    simp only
    have hne : u ≠ e.1 := by
      intro hEq
      rw [← hEq] at hguard
      unfold dlookupD at hguard
      rw [hd] at hguard
      simp only [Option.getD_some, ltInf, decide_eq_true_eq] at hguard
      have : 0 ≤ e.2 := hA u e he
      omega
    have hdist_u : dlookup (dset st.dist e.1 (some (d + e.2))) u = some (some d) := by
      rw [dlookup_dset_ne _ _ (fun hEq => hne hEq.symm)]
      exact hd
    obtain ⟨lu, hlu, hcu⟩ := h.inv2 u d hd
    refine ⟨⟨?_, ?_, ?_, ?_⟩, hdist_u⟩
    · intro e2 he2
      rcases mem_heapPush he2 with he2 | he2
      · obtain ⟨c, hc, hcle⟩ := h.inv1 e2 he2
        by_cases hv : e2.2 = e.1
        · rw [hv]
          refine ⟨d + e.2, ?_, ?_⟩
          · unfold dlookupD
            rw [dlookup_dset_self]
            rfl
          · rw [hv] at hc
            unfold ltInf at hguard
            rw [hc] at hguard
            simp only [decide_eq_true_eq] at hguard
            omega
        · refine ⟨c, ?_, hcle⟩
          unfold dlookupD
          rw [dlookup_dset_ne _ _ (fun hEq => hv hEq.symm)]
          exact hc
      · rw [he2]
        refine ⟨d + e.2, ?_, le_refl _⟩
        unfold dlookupD
        rw [dlookup_dset_self]
        rfl
    · intro v c hv
      by_cases hveq : v = e.1
      · rw [hveq, dlookup_dset_self] at hv
        simp only [Option.some.injEq] at hv
        refine ⟨lu ++ [e.1], ?_, ?_⟩
        · rw [hveq, dlookup_dset_self]
          unfold dlookupD
          rw [hlu]
          rfl
        · rw [hveq]
          rw [← hv]
          exact chainW_snoc hcu (by rw [show ((e.1, e.2) : V × Int) = e from rfl]; exact he)
      · rw [dlookup_dset_ne _ _ (fun hEq => hveq hEq.symm)] at hv
        obtain ⟨l, hl, hc⟩ := h.inv2 v c hv
        refine ⟨l, ?_, hc⟩
        rw [dlookup_dset_ne _ _ (fun hEq => hveq hEq.symm)]
        exact hl
    · intro v hv
      by_cases hveq : v = e.1
      · rw [hveq, dlookup_dset_self] at hv
        simp at hv
      · rw [dlookup_dset_ne _ _ (fun hEq => hveq hEq.symm)] at hv
        rw [dlookup_dset_ne _ _ (fun hEq => hveq hEq.symm)]
        exact h.inv3 v hv
    · exact h.inv4
  · rw [if_neg hguard]
    exact ⟨h, hd⟩

theorem dijkInv_fold [LinearOrder V] {A : V → List (V × Int)} {start u : V} {d : Int}
    (hA : ∀ w, ∀ q ∈ A w, 0 ≤ q.2) (l : List (V × Int)) (hl : ∀ e ∈ l, e ∈ A u) :
    ∀ (st : DijkstraSt V), DijkInv A start st → dlookup st.dist u = some (some d) →
      DijkInv A start (l.foldl (dijkstraRelax u d) st) := by
  induction l with
  | nil => intro st h _; exact h
  | cons e rest ih =>
    intro st h hd
    rw [List.foldl_cons]
    obtain ⟨h2, hd2⟩ := dijkInv_relax hA h hd (hl e (List.mem_cons_self _ _))
    exact ih (fun e2 he2 => hl e2 (List.mem_cons_of_mem _ he2)) _ h2 hd2

theorem dgetm_fst_content (m : Adj V) (k : V) : (dgetm m k []).1 = acontent m k := by
  unfold dgetm acontent dlookupD
  rcases h : dlookup m k with _ | a
  · simp
  · simp

theorem dlookupD_append_default (m : Adj V) (k u : V) :
    dlookupD (m ++ [(k, [])]) u [] = dlookupD m u [] := by
  induction m with
  | nil =>
    rw [List.nil_append]
    unfold dlookupD
    rw [show dlookup ([(k, ([] : List (V × Int)))]) u =
          if k = u then some [] else dlookup [] u from rfl]
    by_cases hk : k = u
    · rw [if_pos hk]; simp [dlookup]
    · rw [if_neg hk]
  | cons hd tl ih =>
    unfold dlookupD
    rw [show dlookup ((hd :: tl) ++ [(k, [])]) u =
          if hd.1 = u then some hd.2 else dlookup (tl ++ [(k, [])]) u from rfl]
    rw [show dlookup (hd :: tl) u = if hd.1 = u then some hd.2
          else dlookup tl u from rfl]
    by_cases hk : hd.1 = u
    · rw [if_pos hk, if_pos hk]
    · rw [if_neg hk, if_neg hk]
      exact ih

theorem dgetm_snd_content (m : Adj V) (k u : V) :
    acontent (dgetm m k []).2 u = acontent m u := by
  unfold dgetm
  rcases h : dlookup m k with _ | a
  · simp only
    unfold acontent
    exact dlookupD_append_default m k u
  · simp

theorem dijkInv_loop [LinearOrder V] {A : V → List (V × Int)} {start : V}
    (hA : ∀ w, ∀ q ∈ A w, 0 ≤ q.2) :
    ∀ (fuel : Nat) (st : DijkstraSt V), DijkInv A start st →
      DijkInv A start (dijkstraLoop fuel st) := by
  intro fuel
  induction fuel with
  | zero => intro st h; exact h
  | succ f ih =>
    intro st h
    rcases st with ⟨dist, paths, pq, adj⟩
    rcases pq with _ | ⟨⟨d, u⟩, rest⟩
    · rw [dijkstraLoop]
      exact h
    · rw [dijkstraLoop]
      simp only
      by_cases hstale : gtInf d (dlookupD dist u none) = true
      · rw [if_pos hstale]
        refine ih _ ⟨?_, h.inv2, h.inv3, h.inv4⟩
        intro e he
        exact h.inv1 e (List.mem_cons_of_mem _ he)
      · rw [if_neg hstale]
        obtain ⟨c, hc, hcle⟩ := h.inv1 (d, u) (List.mem_cons_self _ _)
        have hcd : c = d := by
          unfold gtInf at hstale
          rw [hc] at hstale
          simp only [decide_eq_true_eq] at hstale
          omega
        have hdist_u : dlookup dist u = some (some d) := by
          rw [← hcd]
          exact dlookupD_none_some hc
        have hbase : DijkInv A start
            (⟨dist, paths, rest, (dgetm adj u []).2⟩ : DijkstraSt V) := by
          refine ⟨?_, h.inv2, h.inv3, ?_⟩
          · intro e he
            exact h.inv1 e (List.mem_cons_of_mem _ he)
          · intro w
            rw [show (⟨dist, paths, rest, (dgetm adj u []).2⟩ : DijkstraSt V).adj =
                  (dgetm adj u []).2 from rfl]
            rw [dgetm_snd_content]
            exact h.inv4 w
        have hmem : ∀ e ∈ (dgetm adj u []).1, e ∈ A u := by
          intro e he
          rw [dgetm_fst_content] at he
          rw [h.inv4 u] at he
          exact he
        exact ih _ (dijkInv_fold hA _ hmem _ hbase hdist_u)

/-- Claim C10: for every graph with non-negative weights and start vertex in
the vertex set, the `(distances, paths)` pair returned by `dijkstra(start)` is
internally consistent: a vertex with a finite distance `c` has a recorded path
that begins at `start`, ends at that vertex, follows adjacency edges whose
weights sum to `c`; a vertex with an infinite distance has the empty path. -/
theorem claim_C10_dijkstra_consistent [LinearOrder V] (g : Graph V) (start : V)
    (hstart : start ∈ g.vertices)
    (hw : ∀ p ∈ g.adj_list, ∀ q ∈ p.2, 0 ≤ q.2)
    (d : Dict V (Option Int)) (paths : Dict V (List V))
    (hres : dijkstra g start = .result d paths) :
    (∀ (v : V) (c : Int), dlookup d v = some (some c) →
      ∃ l, dlookup paths v = some l ∧ l.head? = some start ∧ l.getLast? = some v ∧
        ChainW (acontent g.adj_list) start v l c) ∧
    (∀ v : V, dlookup d v = some none → dlookup paths v = some []) := by
  have hA : ∀ w, ∀ q ∈ acontent g.adj_list w, 0 ≤ q.2 := by
    intro w q hq
    unfold acontent dlookupD at hq
    rcases hl : dlookup g.adj_list w with _ | l
    · rw [hl] at hq; simp at hq
    · rw [hl] at hq
      simp only [Option.getD_some] at hq
      exact hw (w, l) (dlookup_mem hl) q hq
  unfold dijkstra at hres
  rw [if_pos hstart] at hres
  simp only [DijkstraResult.result.injEq] at hres
  have hinit : DijkInv (acontent g.adj_list) start
      ({ dist := dset (g.vertices.map fun v => (v, none)) start (some 0),
         paths := dset (g.vertices.map fun v => (v, [])) start [start],
         pq := [(0, start)], adj := g.adj_list } : DijkstraSt V) := by
    refine ⟨?_, ?_, ?_, fun u => rfl⟩
    · intro e he
      rw [List.mem_singleton] at he
      rw [he]
      refine ⟨0, ?_, le_refl _⟩
      unfold dlookupD
      rw [dlookup_dset_self]
      rfl
    · intro v c hv
      by_cases hveq : v = start
      · rw [hveq, dlookup_dset_self] at hv
        simp only [Option.some.injEq] at hv
        refine ⟨[start], ?_, ?_⟩
        · rw [hveq, dlookup_dset_self]
        · rw [hveq, ← hv]
          exact ChainW.refl start
      · rw [dlookup_dset_ne _ _ (fun hEq => hveq hEq.symm)] at hv
        rw [dlookup_map_const] at hv
        by_cases hm : v ∈ g.vertices
        · rw [if_pos hm] at hv; simp at hv
        · rw [if_neg hm] at hv; simp at hv
    · intro v hv
      by_cases hveq : v = start
      · rw [hveq, dlookup_dset_self] at hv
        simp at hv
      · rw [dlookup_dset_ne _ _ (fun hEq => hveq hEq.symm)] at hv
        rw [dlookup_map_const] at hv
        rw [dlookup_dset_ne _ _ (fun hEq => hveq hEq.symm), dlookup_map_const]
        by_cases hm : v ∈ g.vertices
        · rw [if_pos hm]
        · rw [if_neg hm] at hv; simp at hv
  have hfin := dijkInv_loop hA (fuelOf g * fuelOf g) _ hinit
  constructor
  · intro v c hv
    have hv2 : dlookup (dijkstraLoop (fuelOf g * fuelOf g)
        ({ dist := dset (g.vertices.map fun v => (v, none)) start (some 0),
           paths := dset (g.vertices.map fun v => (v, [])) start [start],
           pq := [(0, start)], adj := g.adj_list } : DijkstraSt V)).dist v =
        some (some c) := by
      rw [hres.1]; exact hv
    obtain ⟨l, hl, hc⟩ := hfin.inv2 v c hv2
    refine ⟨l, ?_, chainW_head hc, chainW_last hc, hc⟩
    rw [← hres.2]; exact hl
  · intro v hv
    have hv2 : dlookup (dijkstraLoop (fuelOf g * fuelOf g)
        ({ dist := dset (g.vertices.map fun v => (v, none)) start (some 0),
           paths := dset (g.vertices.map fun v => (v, [])) start [start],
           pq := [(0, start)], adj := g.adj_list } : DijkstraSt V)).dist v =
        some none := by
      rw [hres.1]; exact hv
    have := hfin.inv3 v hv2
    rw [← hres.2]; exact this

/-- Witness for C10: on the demonstration graph the theorem yields, at vertex
`E` with distance 11, that the recorded path `A -> B -> D -> E` is a real
adjacency chain of total weight 11. -/
theorem claim_C10_dijkstra_consistent_witness :
    ChainW (acontent mainGraph.adj_list) 'A' 'E' ['A', 'B', 'D', 'E'] 11 := by
  rcases hR : dijkstra mainGraph 'A' with _ | ⟨d, p⟩
  · exact absurd hR (by decide)
  · have hd : dlookup d 'E' = some (some 11) := by
      have h1 : dijkstraDistOf mainGraph 'A' 'E' = some (some 11) := by decide
      unfold dijkstraDistOf at h1
      rw [hR] at h1
      exact h1
    obtain ⟨l, hl, hh, hlast, hchain⟩ :=
      (claim_C10_dijkstra_consistent mainGraph 'A' (by decide) (by decide) d p hR).1 'E' 11 hd
    have hp : dlookup p 'E' = some ['A', 'B', 'D', 'E'] := by
      have h2 : dijkstraPathOf mainGraph 'A' 'E' = some ['A', 'B', 'D', 'E'] := by decide
      unfold dijkstraPathOf at h2
      rw [hR] at h2
      exact h2
    rw [hl] at hp
    rw [Option.some.injEq] at hp
    rw [← hp]
    exact hchain

/-! ### Claim C5: topological sort -/

/-- The edge relation induced by an adjacency content function. -/
def EdgeOf (A : V → List (V × Int)) (u v : V) : Prop := ∃ w : Int, (v, w) ∈ A u

/-- Every vertex of the order sees all its adjacency successors strictly
later in the list. -/
def GoodOrder (A : V → List (V × Int)) (L : List V) : Prop :=
  ∀ l1 x l2, L = l1 ++ x :: l2 → ∀ q ∈ A x, q.1 ∈ l2

/-- Number of vertices of `vs` not yet visited. -/
def unvisCount (vs visited : List V) : Nat :=
  vs.countP (fun x => !(decide (x ∈ visited)))

theorem mem_setAdd_iff {s : List K} {x v : K} : x ∈ setAdd s v ↔ x ∈ s ∨ x = v := by
  unfold setAdd
  by_cases h : v ∈ s
  · rw [if_pos h]
    constructor
    · exact Or.inl
    · rintro (hx | hx)
      · exact hx
      · rw [hx]; exact h
  · rw [if_neg h]
    simp

theorem setAdd_of_not_mem {s : List K} {v : K} (h : v ∉ s) : setAdd s v = s ++ [v] := by
  unfold setAdd; rw [if_neg h]

theorem countP_strict {p q : V → Bool} {l : List V} {v : V} (hv : v ∈ l)
    (hpq : ∀ x, q x = true → p x = true) (hp : p v = true) (hq : q v = false) :
    l.countP q + 1 ≤ l.countP p := by
  induction l with
  | nil => simp at hv
  | cons x t ih =>
    rw [List.countP_cons, List.countP_cons]
    have hmono : t.countP q ≤ t.countP p := List.countP_mono_left (fun x _ hx => hpq x hx)
    rcases List.mem_cons.1 hv with hv | hv
    · subst hv
      rw [hp, hq]
      simp only [if_true, Bool.false_eq_true, if_false]
      omega
    · have hrec := ih hv
      have hif : (if q x = true then 1 else 0) ≤ (if p x = true then 1 else 0) := by
        by_cases hqx : q x = true
        · rw [if_pos hqx, if_pos (hpq x hqx)]
        · rw [if_neg hqx]
          exact Nat.zero_le _
      omega

theorem unvis_mono {a b : List V} (h : ∀ x ∈ a, x ∈ b) (vs : List V) :
    unvisCount vs b ≤ unvisCount vs a := by
  unfold unvisCount
  refine List.countP_mono_left (fun x _ hx => ?_)
  simp only [Bool.not_eq_true', decide_eq_false_iff_not] at hx ⊢
  intro hxa
  exact hx (h x hxa)

theorem unvis_setAdd {vs visited : List V} {v : V} (hv : v ∈ vs) (hnv : v ∉ visited) :
    unvisCount vs (setAdd visited v) + 1 ≤ unvisCount vs visited := by
  unfold unvisCount
  refine countP_strict hv (fun x hx => ?_) (by simp [hnv]) (by simp [mem_setAdd_iff])
  simp only [Bool.not_eq_true', decide_eq_false_iff_not] at hx ⊢
  intro hxa
  exact hx (mem_setAdd_iff.2 (Or.inl hxa))

theorem unvis_pos {vs visited : List V} {v : V} (hv : v ∈ vs) (hnv : v ∉ visited) :
    1 ≤ unvisCount vs visited := by
  unfold unvisCount
  rw [Nat.succ_le_iff]
  rw [List.countP_pos]
  exact ⟨v, hv, by simp [hnv]⟩

theorem chain'_reaches_last {R : V → V → Prop} :
    ∀ {l : List V} {a b : V}, l.Chain' R → a ∈ l → l.getLast? = some b →
      Relation.ReflTransGen R a b := by
  intro l
  induction l with
  | nil => intro a b _ ha _; simp at ha
  | cons x t ih =>
    intro a b hc ha hl
    rcases t with _ | ⟨y, t2⟩
    · rw [List.mem_singleton.1 ha]
      rw [show ([x] : List V).getLast? = some x from rfl] at hl
      rw [Option.some.injEq] at hl
      rw [hl]
    · rw [List.chain'_cons] at hc
      have hlast : (y :: t2).getLast? = some b := by
        rw [← hl]; rfl
      rcases List.mem_cons.1 ha with ha | ha
      · rw [ha]
        exact Relation.ReflTransGen.head hc.1 (ih hc.2 (List.mem_cons_self _ _) hlast)
      · exact ih hc.2 ha hlast

theorem indexOf_lt_of_split {u v : V} :
    ∀ (l1 l2 : List V), (l1 ++ u :: l2).Nodup → v ∈ l2 →
      u ∈ l1 ++ u :: l2 ∧ v ∈ l1 ++ u :: l2 ∧
        (l1 ++ u :: l2).indexOf u < (l1 ++ u :: l2).indexOf v := by
  intro l1
  induction l1 with
  | nil =>
    intro l2 hnd hv
    rw [List.nil_append] at hnd ⊢
    have hne : u ≠ v := by
      intro hEq
      rw [List.nodup_cons] at hnd
      exact hnd.1 (hEq ▸ hv)
    refine ⟨List.mem_cons_self _ _, List.mem_cons_of_mem _ hv, ?_⟩
    rw [List.indexOf_cons_self, List.indexOf_cons_ne _ hne]
    omega
  | cons a t ih =>
    intro l2 hnd hv
    rw [List.cons_append] at hnd ⊢
    rw [List.nodup_cons] at hnd
    have ha := hnd.1
    obtain ⟨h1, h2, h3⟩ := ih l2 hnd.2 hv
    have hau : a ≠ u := fun h => ha (h ▸ List.mem_append.2 (Or.inr (List.mem_cons_self _ _)))
    have hav : a ≠ v := fun h => ha (h ▸ List.mem_append.2 (Or.inr (List.mem_cons_of_mem _ hv)))
    refine ⟨List.mem_cons_of_mem _ h1, List.mem_cons_of_mem _ h2, ?_⟩
    rw [List.indexOf_cons_ne _ hau, List.indexOf_cons_ne _ hav]
    omega

theorem transGen_indexOf_lt {A : V → List (V × Int)} {L vs : List V}
    (hkeys : ∀ u : V, ∀ q ∈ A u, u ∈ vs)
    (hnd : L.Nodup) (hgood : GoodOrder A L) (hcover : ∀ x ∈ vs, x ∈ L) :
    ∀ a b : V, Relation.TransGen (EdgeOf A) a b → L.indexOf a < L.indexOf b := by
  have step : ∀ a b : V, EdgeOf A a b → L.indexOf a < L.indexOf b := by
    intro a b hab
    obtain ⟨w, hm⟩ := hab
    have haL : a ∈ L := hcover a (hkeys a (b, w) hm)
    obtain ⟨l1, l2, hsplit⟩ := List.append_of_mem haL
    have hbl2 : b ∈ l2 := hgood l1 a l2 hsplit (b, w) hm
    have := indexOf_lt_of_split l1 l2 (hsplit ▸ hnd) hbl2
    rw [← hsplit] at this
    exact this.2.2
  intro a b h
  induction h with
  | single h1 => exact step _ _ h1
  | tail h1 h2 ih => exact lt_trans ih (step _ _ h2)

/-- Invariant of the topological-sort DFS relative to the original adjacency
content `A`. -/
structure TopoInv (A : V → List (V × Int)) (st : TopoSt V) : Prop where
  temp_vis : ∀ x ∈ st.temp, x ∈ st.visited
  order_vis : ∀ x ∈ st.order, x ∈ st.visited
  order_temp : ∀ x ∈ st.order, x ∉ st.temp
  vis_cover : ∀ x ∈ st.visited, x ∈ st.temp ∨ x ∈ st.order
  order_nodup : st.order.Nodup
  good : GoodOrder A st.order
  temp_nodup : st.temp.Nodup
  temp_chain : st.temp.Chain' (EdgeOf A)
  adjA : ∀ u, acontent st.adj u = A u

theorem topoDfs_sound (A : V → List (V × Int)) (vs : List V)
    (hnbr : ∀ u : V, ∀ q ∈ A u, q.1 ∈ vs) :
    ∀ fuel : Nat,
      (∀ (st : TopoSt V) (v : V), TopoInv A st → v ∈ vs → v ∉ st.visited →
        unvisCount vs st.visited ≤ fuel →
        (st.temp = [] ∨ ∃ u, st.temp.getLast? = some u ∧ EdgeOf A u v) →
        ((topoDfs fuel st v).1 = true → ∃ z, Relation.TransGen (EdgeOf A) z z) ∧
        ((topoDfs fuel st v).1 = false →
          TopoInv A (topoDfs fuel st v).2 ∧
          (topoDfs fuel st v).2.temp = st.temp ∧
          (∀ x ∈ st.visited, x ∈ (topoDfs fuel st v).2.visited) ∧
          v ∈ (topoDfs fuel st v).2.visited ∧
          (∀ x ∈ st.order, x ∈ (topoDfs fuel st v).2.order) ∧
          v ∈ (topoDfs fuel st v).2.order)) ∧
      (∀ (st : TopoSt V) (u : V) (l : List (V × Int)), TopoInv A st →
        unvisCount vs st.visited ≤ fuel →
        st.temp.getLast? = some u → (∀ e ∈ l, e ∈ A u) →
        ((topoNbrs fuel st l).1 = true → ∃ z, Relation.TransGen (EdgeOf A) z z) ∧
        ((topoNbrs fuel st l).1 = false →
          TopoInv A (topoNbrs fuel st l).2 ∧
          (topoNbrs fuel st l).2.temp = st.temp ∧
          (∀ x ∈ st.visited, x ∈ (topoNbrs fuel st l).2.visited) ∧
          (∀ x ∈ st.order, x ∈ (topoNbrs fuel st l).2.order) ∧
          (∀ e ∈ l, e.1 ∈ (topoNbrs fuel st l).2.order))) := by
  have cycle_case : ∀ (st : TopoSt V) (u : V) (e : V × Int), TopoInv A st →
      st.temp.getLast? = some u → e ∈ A u → e.1 ∈ st.temp →
      ∃ z, Relation.TransGen (EdgeOf A) z z := by
    intro st u e hinv hlast hmem htemp
    refine ⟨e.1, ?_⟩
    have hreach : Relation.ReflTransGen (EdgeOf A) e.1 u :=
      chain'_reaches_last hinv.temp_chain htemp hlast
    exact Relation.TransGen.trans_right hreach (Relation.TransGen.single ⟨e.2, hmem⟩)
  have nbrs_step : ∀ fuel : Nat,
      (∀ (st : TopoSt V) (v : V), TopoInv A st → v ∈ vs → v ∉ st.visited →
        unvisCount vs st.visited ≤ fuel →
        (st.temp = [] ∨ ∃ u, st.temp.getLast? = some u ∧ EdgeOf A u v) →
        ((topoDfs fuel st v).1 = true → ∃ z, Relation.TransGen (EdgeOf A) z z) ∧
        ((topoDfs fuel st v).1 = false →
          TopoInv A (topoDfs fuel st v).2 ∧
          (topoDfs fuel st v).2.temp = st.temp ∧
          (∀ x ∈ st.visited, x ∈ (topoDfs fuel st v).2.visited) ∧
          v ∈ (topoDfs fuel st v).2.visited ∧
          (∀ x ∈ st.order, x ∈ (topoDfs fuel st v).2.order) ∧
          v ∈ (topoDfs fuel st v).2.order)) →
      (∀ (st : TopoSt V) (u : V) (l : List (V × Int)), TopoInv A st →
        unvisCount vs st.visited ≤ fuel →
        st.temp.getLast? = some u → (∀ e ∈ l, e ∈ A u) →
        ((topoNbrs fuel st l).1 = true → ∃ z, Relation.TransGen (EdgeOf A) z z) ∧
        ((topoNbrs fuel st l).1 = false →
          TopoInv A (topoNbrs fuel st l).2 ∧
          (topoNbrs fuel st l).2.temp = st.temp ∧
          (∀ x ∈ st.visited, x ∈ (topoNbrs fuel st l).2.visited) ∧
          (∀ x ∈ st.order, x ∈ (topoNbrs fuel st l).2.order) ∧
          (∀ e ∈ l, e.1 ∈ (topoNbrs fuel st l).2.order))) := by
    intro fuel hdfs st u l
    induction l generalizing st with
    | nil =>
      intro hinv hfuel hlast hsub
      rw [topoNbrs]
      exact ⟨fun h => by simp at h,
        fun _ => ⟨hinv, rfl, fun x hx => hx, fun x hx => hx, fun e he => by simp at he⟩⟩
    | cons e rest ih =>
      intro hinv hfuel hlast hsub
      rw [topoNbrs]
      by_cases hvis : e.1 ∉ st.visited
      · rw [if_pos hvis]
        simp only
        have hconn : st.temp = [] ∨ ∃ w, st.temp.getLast? = some w ∧ EdgeOf A w e.1 :=
          Or.inr ⟨u, hlast, ⟨e.2, hsub e (List.mem_cons_self _ _)⟩⟩
        have hchild := hdfs st e.1 hinv
          (hnbr u e (hsub e (List.mem_cons_self _ _)))
          hvis hfuel hconn
        by_cases hc : (topoDfs fuel st e.1).1 = true
        · rw [if_pos hc]
          exact ⟨fun _ => hchild.1 hc, fun hfalse => absurd hc (by rw [hfalse]; simp)⟩
        · rw [if_neg hc]
          rw [Bool.not_eq_true] at hc
          obtain ⟨hinv2, htemp2, hvismono, hvin, hordmono, hoin⟩ := hchild.2 hc
          have hrest := ih (topoDfs fuel st e.1).2 hinv2
            (le_trans (unvis_mono hvismono vs) hfuel)
            (htemp2 ▸ hlast)
            (fun e2 he2 => hsub e2 (List.mem_cons_of_mem _ he2))
          refine ⟨hrest.1, fun hok => ?_⟩
          obtain ⟨hinv3, htemp3, hvismono3, hordmono3, hord3⟩ := hrest.2 hok
          refine ⟨hinv3, by rw [htemp3, htemp2],
            fun x hx => hvismono3 x (hvismono x hx),
            fun x hx => hordmono3 x (hordmono x hx), ?_⟩
          intro e2 he2
          rcases List.mem_cons.1 he2 with he2 | he2
          · rw [he2]; exact hordmono3 e.1 hoin
          · exact hord3 e2 he2
      · rw [if_neg hvis]
        rw [not_not] at hvis
        by_cases htmp : e.1 ∈ st.temp
        · rw [if_pos htmp]
          refine ⟨fun _ => cycle_case st u e hinv hlast
            (hsub e (List.mem_cons_self _ _)) htmp, fun h => by simp at h⟩
        · rw [if_neg htmp]
          have hein : e.1 ∈ st.order := by
            rcases hinv.vis_cover e.1 hvis with h | h
            · exact absurd h htmp
            · exact h
          have hrest := ih st hinv hfuel hlast
            (fun e2 he2 => hsub e2 (List.mem_cons_of_mem _ he2))
          refine ⟨hrest.1, fun hok => ?_⟩
          obtain ⟨hinv3, htemp3, hvismono3, hordmono3, hord3⟩ := hrest.2 hok
          refine ⟨hinv3, htemp3, hvismono3, hordmono3, ?_⟩
          intro e2 he2
          rcases List.mem_cons.1 he2 with he2 | he2
          · rw [he2]; exact hordmono3 e.1 hein
          · exact hord3 e2 he2
  intro fuel
  induction fuel with
  | zero =>
    constructor
    · intro st v hinv hv hnv hfuel hconn
      have := unvis_pos hv hnv
      omega
    · refine nbrs_step 0 ?_
      intro st v hinv hv hnv hfuel hconn
      have := unvis_pos hv hnv
      omega
  | succ f ihf =>
    have hnbrsf := nbrs_step f ihf.1
    have hdfs : ∀ (st : TopoSt V) (v : V), TopoInv A st → v ∈ vs → v ∉ st.visited →
        unvisCount vs st.visited ≤ f + 1 →
        (st.temp = [] ∨ ∃ u, st.temp.getLast? = some u ∧ EdgeOf A u v) →
        ((topoDfs (f + 1) st v).1 = true → ∃ z, Relation.TransGen (EdgeOf A) z z) ∧
        ((topoDfs (f + 1) st v).1 = false →
          TopoInv A (topoDfs (f + 1) st v).2 ∧
          (topoDfs (f + 1) st v).2.temp = st.temp ∧
          (∀ x ∈ st.visited, x ∈ (topoDfs (f + 1) st v).2.visited) ∧
          v ∈ (topoDfs (f + 1) st v).2.visited ∧
          (∀ x ∈ st.order, x ∈ (topoDfs (f + 1) st v).2.order) ∧
          v ∈ (topoDfs (f + 1) st v).2.order) := by
      intro st v hinv hv hnv hfuel hconn
      rw [topoDfs]
      simp only
      have hvtemp : v ∉ st.temp := fun h => hnv (hinv.temp_vis v h)
      have hvorder : v ∉ st.order := fun h => hnv (hinv.order_vis v h)
      have htemps : setAdd st.temp v = st.temp ++ [v] := setAdd_of_not_mem hvtemp
      set st2 : TopoSt V := { st with
        visited := setAdd st.visited v, temp := setAdd st.temp v,
        adj := (dgetm st.adj v []).2 } with hst2
      have hinv2 : TopoInv A st2 := by
        refine ⟨?_, ?_, ?_, ?_, ?_, ?_, ?_, ?_, ?_⟩
        · intro x hx
          rw [show st2.temp = setAdd st.temp v from rfl, mem_setAdd_iff] at hx
          rw [show st2.visited = setAdd st.visited v from rfl, mem_setAdd_iff]
          rcases hx with hx | hx
          · exact Or.inl (hinv.temp_vis x hx)
          · exact Or.inr hx
        · intro x hx
          rw [show st2.visited = setAdd st.visited v from rfl, mem_setAdd_iff]
          exact Or.inl (hinv.order_vis x hx)
        · intro x hx
          rw [show st2.temp = setAdd st.temp v from rfl, mem_setAdd_iff]
          rintro (h | h)
          · exact hinv.order_temp x hx h
          · rw [h] at hx; exact hvorder hx
        · intro x hx
          rw [show st2.visited = setAdd st.visited v from rfl, mem_setAdd_iff] at hx
          rw [show st2.temp = setAdd st.temp v from rfl]
          rcases hx with hx | hx
          · rcases hinv.vis_cover x hx with h | h
            · exact Or.inl (mem_setAdd_iff.2 (Or.inl h))
            · exact Or.inr h
          · exact Or.inl (mem_setAdd_iff.2 (Or.inr hx))
        · exact hinv.order_nodup
        · exact hinv.good
        · rw [show st2.temp = setAdd st.temp v from rfl, htemps]
          simp [List.nodup_append, hinv.temp_nodup, hvtemp]
        · rw [show st2.temp = setAdd st.temp v from rfl, htemps]
          rw [List.chain'_append]
          refine ⟨hinv.temp_chain, List.chain'_singleton _, ?_⟩
          intro x hx y hy
          rw [show ([v] : List V).head? = some v from rfl, Option.mem_def,
            Option.some.injEq] at hy
          rcases hconn with hc | ⟨u, hu, he⟩
          · rw [hc] at hx; simp at hx
          · rw [Option.mem_def, hu, Option.some.injEq] at hx
            rw [← hx, ← hy]
            exact he
        · intro u
          rw [show st2.adj = (dgetm st.adj v []).2 from rfl, dgetm_snd_content]
          exact hinv.adjA u
      have hfuel2 : unvisCount vs st2.visited ≤ f := by
        have := unvis_setAdd hv hnv
        rw [show st2.visited = setAdd st.visited v from rfl]
        omega
      have hlast2 : st2.temp.getLast? = some v := by
        rw [show st2.temp = setAdd st.temp v from rfl, htemps]
        exact List.getLast?_concat _
      have hsub2 : ∀ e ∈ (dgetm st.adj v []).1, e ∈ A v := by
        intro e he
        rw [dgetm_fst_content, hinv.adjA v] at he
        exact he
      have hnb := hnbrsf st2 v (dgetm st.adj v []).1 hinv2 hfuel2 hlast2 hsub2
      by_cases hc : (topoNbrs f st2 (dgetm st.adj v []).1).1 = true
      · rw [if_pos hc]
        exact ⟨fun _ => hnb.1 hc, fun hfalse => absurd hc (by rw [hfalse]; simp)⟩
      · rw [if_neg hc]
        rw [Bool.not_eq_true] at hc
        obtain ⟨hinv3, htemp3, hvismono3, hordmono3, hord3⟩ := hnb.2 hc
        set r2 := (topoNbrs f st2 (dgetm st.adj v []).1).2 with hr2
        have htemp_r2 : r2.temp = st.temp ++ [v] := by rw [htemp3, show st2.temp = setAdd st.temp v from rfl, htemps]
        have herase : r2.temp.erase v = st.temp := by
          rw [htemp_r2, List.erase_append_right _ hvtemp]
          simp
        have hvnotin_r2order : v ∉ r2.order := by
          intro h
          exact hinv3.order_temp v h (by rw [htemp_r2]; exact List.mem_append.2 (Or.inr (List.mem_singleton.2 rfl)))
        have hvin_r2vis : v ∈ r2.visited := by
          refine hvismono3 v ?_
          rw [show st2.visited = setAdd st.visited v from rfl, mem_setAdd_iff]
          exact Or.inr rfl
        refine ⟨fun h => by simp at h, fun _ => ?_⟩
        refine ⟨⟨?_, ?_, ?_, ?_, ?_, ?_, ?_, ?_, ?_⟩, ?_, ?_, ?_, ?_, ?_⟩
        · intro x hx
          simp only at hx
          rw [herase] at hx
          exact hinv3.temp_vis x (by rw [htemp_r2]; exact List.mem_append.2 (Or.inl hx))
        · intro x hx
          simp only at hx
          rcases List.mem_cons.1 hx with hx | hx
          · rw [hx]; exact hvin_r2vis
          · exact hinv3.order_vis x hx
        · intro x hx
          simp only at hx ⊢
          rw [herase]
          rcases List.mem_cons.1 hx with hx | hx
          · rw [hx]; exact hvtemp
          · intro hxt
            exact hinv3.order_temp x hx (by rw [htemp_r2]; exact List.mem_append.2 (Or.inl hxt))
        · intro x hx
          simp only at hx ⊢
          rw [herase]
          rcases hinv3.vis_cover x hx with h | h
          · rw [htemp_r2] at h
            rcases List.mem_append.1 h with h | h
            · exact Or.inl h
            · exact Or.inr (List.mem_cons.2 (Or.inl (List.mem_singleton.1 h)))
          · exact Or.inr (List.mem_cons.2 (Or.inr h))
        · simp only
          rw [List.nodup_cons]
          exact ⟨hvnotin_r2order, hinv3.order_nodup⟩
        · simp only
          intro l1 x l2 hsplit q hq
          rcases l1 with _ | ⟨y, l1t⟩
          · rw [List.nil_append] at hsplit
            rw [List.cons.injEq] at hsplit
            obtain ⟨hxv, hl2⟩ := hsplit
            have hq2 : q ∈ (dgetm st.adj v []).1 := by
              rw [dgetm_fst_content, hinv.adjA v, hxv]
              exact hq
            have hmem := hord3 q hq2
            rw [hl2] at hmem
            exact hmem
          · rw [List.cons_append, List.cons.injEq] at hsplit
            exact hinv3.good l1t x l2 hsplit.2 q hq
        · simp only
          rw [herase]
          exact hinv.temp_nodup
        · simp only
          rw [herase]
          exact hinv.temp_chain
        · intro u
          simp only
          exact hinv3.adjA u
        · simp only
          exact herase
        · intro x hx
          simp only
          refine hvismono3 x ?_
          rw [show st2.visited = setAdd st.visited v from rfl, mem_setAdd_iff]
          exact Or.inl hx
        · simp only
          exact hvin_r2vis
        · intro x hx
          simp only
          exact List.mem_cons.2 (Or.inr (hordmono3 x hx))
        · simp only
          exact List.mem_cons_self _ _
    exact ⟨hdfs, nbrs_step (f + 1) hdfs⟩

theorem topoOuter_sound (A : V → List (V × Int)) (vs : List V)
    (hnbr : ∀ u : V, ∀ q ∈ A u, q.1 ∈ vs) (fuel : Nat) :
    ∀ (l : List V) (st : TopoSt V), TopoInv A st → st.temp = [] →
      (∀ x ∈ l, x ∈ vs) → unvisCount vs st.visited ≤ fuel →
      ((topoOuter fuel st l).1 = true → ∃ z, Relation.TransGen (EdgeOf A) z z) ∧
      ((topoOuter fuel st l).1 = false →
        TopoInv A (topoOuter fuel st l).2 ∧ (topoOuter fuel st l).2.temp = [] ∧
        (∀ x ∈ st.visited, x ∈ (topoOuter fuel st l).2.visited) ∧
        (∀ x ∈ l, x ∈ (topoOuter fuel st l).2.visited) ∧
        (∀ x ∈ st.order, x ∈ (topoOuter fuel st l).2.order)) := by
  intro l
  induction l with
  | nil =>
    intro st hinv htemp hsub hfuel
    rw [topoOuter]
    exact ⟨fun h => by simp at h,
      fun _ => ⟨hinv, htemp, fun x hx => hx, fun x hx => by simp at hx, fun x hx => hx⟩⟩
  | cons v rest ih =>
    intro st hinv htemp hsub hfuel
    rw [topoOuter]
    by_cases hv : v ∈ st.visited
    · rw [if_pos hv]
      have hrest := ih st hinv htemp (fun x hx => hsub x (List.mem_cons_of_mem _ hx)) hfuel
      refine ⟨hrest.1, fun hok => ?_⟩
      obtain ⟨i1, i2, i3, i4, i5⟩ := hrest.2 hok
      refine ⟨i1, i2, i3, ?_, i5⟩
      intro x hx
      rcases List.mem_cons.1 hx with hx | hx
      · rw [hx]; exact i3 v hv
      · exact i4 x hx
    · rw [if_neg hv]
      simp only
      have hchild := (topoDfs_sound A vs hnbr fuel).1 st v hinv
        (hsub v (List.mem_cons_self _ _)) hv hfuel (Or.inl htemp)
      by_cases hc : (topoDfs fuel st v).1 = true
      · rw [if_pos hc]
        exact ⟨fun _ => hchild.1 hc, fun hfalse => absurd hc (by rw [hfalse]; simp)⟩
      · rw [if_neg hc]
        rw [Bool.not_eq_true] at hc
        obtain ⟨hinv2, htemp2, hvism, hvin, hordm, hoin⟩ := hchild.2 hc
        have hrest := ih (topoDfs fuel st v).2 hinv2 (htemp2.trans htemp)
          (fun x hx => hsub x (List.mem_cons_of_mem _ hx))
          (le_trans (unvis_mono hvism vs) hfuel)
        refine ⟨hrest.1, fun hok => ?_⟩
        obtain ⟨i1, i2, i3, i4, i5⟩ := hrest.2 hok
        refine ⟨i1, i2, fun x hx => i3 x (hvism x hx), ?_, fun x hx => i5 x (hordm x hx)⟩
        intro x hx
        rcases List.mem_cons.1 hx with hx | hx
        · rw [hx]; exact i3 v hvin
        · exact i4 x hx

/-- Claim C5: on every graph satisfying the construction invariant, if the
directed graph is acyclic then `topological_sort` returns an order in which
the source of every adjacency edge appears strictly before its target, and if
the graph has a cycle then it returns the `None` signal rather than any
partial order. -/
theorem claim_C5_topological_sort (g : Graph V) (hwf : graphWF g) :
    ((¬ ∃ z, Relation.TransGen (EdgeOf (acontent g.adj_list)) z z) →
      ∃ L, (topological_sort g).1 = some L ∧
        ∀ u v, EdgeOf (acontent g.adj_list) u v →
          u ∈ L ∧ v ∈ L ∧ L.indexOf u < L.indexOf v) ∧
    ((∃ z, Relation.TransGen (EdgeOf (acontent g.adj_list)) z z) →
      (topological_sort g).1 = none) := by
  have hcontent : ∀ u lst, dlookup g.adj_list u = some lst → acontent g.adj_list u = lst := by
    intro u lst h
    unfold acontent dlookupD
    rw [h]
    rfl
  have hkeys : ∀ u : V, ∀ q ∈ acontent g.adj_list u, u ∈ g.vertices := by
    intro u q hq
    unfold acontent dlookupD at hq
    rcases hl : dlookup g.adj_list u with _ | lst
    · rw [hl] at hq; simp at hq
    · exact (hwf.2 (u, lst) (dlookup_mem hl)).1
  have hnbr : ∀ u : V, ∀ q ∈ acontent g.adj_list u, q.1 ∈ g.vertices := by
    intro u q hq
    unfold acontent dlookupD at hq
    rcases hl : dlookup g.adj_list u with _ | lst
    · rw [hl] at hq; simp at hq
    · rw [hl] at hq
      simp only [Option.getD_some] at hq
      exact (hwf.2 (u, lst) (dlookup_mem hl)).2 q hq
  have hinv0 : TopoInv (acontent g.adj_list)
      ({ visited := [], temp := [], order := [], adj := g.adj_list } : TopoSt V) := by
    refine ⟨?_, ?_, ?_, ?_, ?_, ?_, ?_, ?_, ?_⟩
    · intro x hx; simp at hx
    · intro x hx; simp at hx
    · intro x hx; simp at hx
    · intro x hx; simp at hx
    · exact List.nodup_nil
    · intro l1 x l2 hsplit
      exact absurd hsplit (by simp)
    · exact List.nodup_nil
    · exact List.chain'_nil
    · intro u; rfl
  have hfuel0 : unvisCount g.vertices ([] : List V) ≤ fuelOf g := by
    unfold unvisCount fuelOf
    have := List.countP_le_length (l := g.vertices)
      (p := fun x => !(decide (x ∈ ([] : List V))))
    omega
  have houter := topoOuter_sound (acontent g.adj_list) g.vertices hnbr (fuelOf g)
    g.vertices _ hinv0 rfl (fun x hx => hx) hfuel0
  by_cases hres : (topoOuter (fuelOf g)
      { visited := [], temp := [], order := [], adj := g.adj_list } g.vertices).1 = true
  · -- the run reported a cycle: a cycle really exists, and the result is None
    have hcyc := houter.1 hres
    constructor
    · intro hnc
      exact absurd hcyc hnc
    · intro _
      unfold topological_sort
      simp only
      rw [if_pos hres]
  · rw [Bool.not_eq_true] at hres
    obtain ⟨hinvF, htempF, _, hcoverF, _⟩ := houter.2 hres
    have hLcover : ∀ x ∈ g.vertices, x ∈ (topoOuter (fuelOf g)
        { visited := [], temp := [], order := [], adj := g.adj_list } g.vertices).2.order := by
      intro x hx
      rcases hinvF.vis_cover x (hcoverF x hx) with h | h
      · rw [htempF] at h; simp at h
      · exact h
    have hedge : ∀ u v, EdgeOf (acontent g.adj_list) u v →
        u ∈ (topoOuter (fuelOf g)
          { visited := [], temp := [], order := [], adj := g.adj_list } g.vertices).2.order ∧
        v ∈ (topoOuter (fuelOf g)
          { visited := [], temp := [], order := [], adj := g.adj_list } g.vertices).2.order ∧
        ((topoOuter (fuelOf g)
          { visited := [], temp := [], order := [], adj := g.adj_list } g.vertices).2.order).indexOf u <
        ((topoOuter (fuelOf g)
          { visited := [], temp := [], order := [], adj := g.adj_list } g.vertices).2.order).indexOf v := by
      intro u v huv
      obtain ⟨w, hm⟩ := huv
      have huL := hLcover u (hkeys u (v, w) hm)
      obtain ⟨l1, l2, hsplit⟩ := List.append_of_mem huL
      have hvl2 : v ∈ l2 := hinvF.good l1 u l2 hsplit (v, w) hm
      have := indexOf_lt_of_split l1 l2 (hsplit ▸ hinvF.order_nodup) hvl2
      rw [← hsplit] at this
      exact this
    constructor
    · intro _
      refine ⟨(topoOuter (fuelOf g)
        { visited := [], temp := [], order := [], adj := g.adj_list } g.vertices).2.order,
        ?_, hedge⟩
      unfold topological_sort
      simp only
      rw [if_neg (by rw [hres]; simp)]
    · intro hcyc
      obtain ⟨z, hz⟩ := hcyc
      have := transGen_indexOf_lt hkeys hinvF.order_nodup hinvF.good hLcover z z hz
      omega

/-- Witness for C5 on the three-vertex cycle demonstrated in
`advanced_graph_algorithms.py`: the graph construction invariant is discharged
by evaluation, the cycle `A -> B -> C -> A` is exhibited, and the claim
theorem yields the `None` result. -/
theorem claim_C5_topological_sort_witness :
    (topological_sort (buildGraph true
      [.addE 'A' 'B' 1, .addE 'B' 'C' 1, .addE 'C' 'A' 1])).1 = none := by
  refine (claim_C5_topological_sort
      (buildGraph true [.addE 'A' 'B' 1, .addE 'B' 'C' 1, .addE 'C' 'A' 1])
      (buildGraph_wf true _)).2 ⟨'A', ?_⟩
  have h1 : EdgeOf (acontent (buildGraph true
        [.addE 'A' 'B' 1, .addE 'B' 'C' 1, .addE 'C' 'A' 1]).adj_list) 'A' 'B' :=
      ⟨1, by decide⟩
  have h2 : EdgeOf (acontent (buildGraph true
        [.addE 'A' 'B' 1, .addE 'B' 'C' 1, .addE 'C' 'A' 1]).adj_list) 'B' 'C' :=
      ⟨1, by decide⟩
  have h3 : EdgeOf (acontent (buildGraph true
        [.addE 'A' 'B' 1, .addE 'B' 'C' 1, .addE 'C' 'A' 1]).adj_list) 'C' 'A' :=
      ⟨1, by decide⟩
  exact Relation.TransGen.tail (Relation.TransGen.tail (Relation.TransGen.single h1) h2) h3

/-! ### Claim C6: Kosaraju strongly connected components.

The development proves, for the first pass, that the finish order `ord`
satisfies the domination property: everything reachable from a finished
vertex is dominated (position-wise) by a member of that vertex's strong
component.  The second pass then collects, for each root, exactly its strong
component. -/

/-- Reachability along an adjacency content function. -/
def Reach (A : V → List (V × Int)) (u v : V) : Prop :=
  Relation.ReflTransGen (EdgeOf A) u v

/-- `z` occurs before (or at) `m` in the list `L`. -/
def ble (L : List V) (z m : V) : Prop :=
  ∃ l1 l2, L = l1 ++ m :: l2 ∧ (z = m ∨ z ∈ l1)

theorem ble_append {L ext : List V} {z m : V} (h : ble L z m) : ble (L ++ ext) z m := by
  obtain ⟨l1, l2, hL, hz⟩ := h
  exact ⟨l1, l2 ++ ext, by rw [hL]; simp, hz⟩

theorem ble_last {L : List V} {z v : V} (h : z = v ∨ z ∈ L) : ble (L ++ [v]) z v :=
  ⟨L, [], rfl, h⟩

theorem ble_mem_left {L : List V} {z m : V} (h : ble L z m) : z ∈ L := by
  obtain ⟨l1, l2, hL, hz⟩ := h
  rw [hL]
  rcases hz with hz | hz
  · rw [hz]; exact List.mem_append.2 (Or.inr (List.mem_cons_self _ _))
  · exact List.mem_append.2 (Or.inl hz)

theorem ble_mem_right {L : List V} {z m : V} (h : ble L z m) : m ∈ L := by
  obtain ⟨l1, l2, hL, _⟩ := h
  rw [hL]
  exact List.mem_append.2 (Or.inr (List.mem_cons_self _ _))

/-- Vertex `x` (finished) has each reachable `z` dominated by a finished
member of its strong component, unless `x` reaches the in-progress stack. -/
def DomAt (A : V → List (V × Int)) (order stack : List V) (x : V) : Prop :=
  ∀ z, Reach A x z →
    (∃ m, Reach A x m ∧ Reach A m x ∧ ble order z m) ∨ (∃ a ∈ stack, Reach A x a)

theorem domAt_mono {A : V → List (V × Int)} {order ext stack stack2 : List V} {x : V}
    (h : DomAt A order stack x) (hs : ∀ a ∈ stack, a ∈ stack2) :
    DomAt A (order ++ ext) stack2 x := by
  intro z hz
  rcases h z hz with ⟨m, h1, h2, h3⟩ | ⟨a, ha, h1⟩
  · exact Or.inl ⟨m, h1, h2, ble_append h3⟩
  · exact Or.inr ⟨a, hs a ha, h1⟩

/-- Neighbors of finished vertices are visited. -/
def NbInv (A : V → List (V × Int)) (order visited : List V) : Prop :=
  ∀ x ∈ order, ∀ q ∈ A x, q.1 ∈ visited

/-- A reachability path out of a finished vertex either stays among finished
vertices or enters the in-progress stack. -/
theorem reach_path_escape {A : V → List (V × Int)} {order stack visited : List V}
    (hnb : NbInv A order visited)
    (hcover : ∀ x ∈ visited, x ∈ order ∨ x ∈ stack)
    {x z : V} (hz : Reach A x z) :
    x ∈ order → (z ∈ order ∨ ∃ a ∈ stack, Reach A x a) := by
  induction hz using Relation.ReflTransGen.head_induction_on with
  | refl => intro hx; exact Or.inl hx
  | head hstep hrest ih =>
    rename_i p q
    intro hx
    obtain ⟨w, hw⟩ := hstep
    have hqvis : q ∈ visited := hnb p hx (q, w) hw
    rcases hcover q hqvis with hq | hq
    · rcases ih hq with h | ⟨a, ha, h1⟩
      · exact Or.inl h
      · exact Or.inr ⟨a, ha, Relation.ReflTransGen.head ⟨w, hw⟩ h1⟩
    · exact Or.inr ⟨q, hq, Relation.ReflTransGen.single ⟨w, hw⟩⟩

theorem indexOf_lt_of_before {m r : V} :
    ∀ (l1 l2 : List V), (l1 ++ m :: l2).Nodup → r ∈ l1 →
      (l1 ++ m :: l2).indexOf r < (l1 ++ m :: l2).indexOf m := by
  intro l1
  induction l1 with
  | nil => intro l2 _ hr; simp at hr
  | cons a t ih =>
    intro l2 hnd hr
    rw [List.cons_append] at hnd ⊢
    rw [List.nodup_cons] at hnd
    rcases List.mem_cons.1 hr with hr | hr
    · have ham : a ≠ m := by
        intro hEq
        exact hnd.1 (hEq ▸ List.mem_append.2 (Or.inr (List.mem_cons_self _ _)))
      rw [← hr, List.indexOf_cons_self, List.indexOf_cons_ne _ (hr ▸ ham)]
      omega
    · have har : a ≠ r := by
        intro hEq
        exact hnd.1 (hEq ▸ List.mem_append.2 (Or.inl hr))
      have ham : a ≠ m := by
        intro hEq
        exact hnd.1 (hEq ▸ List.mem_append.2 (Or.inr (List.mem_cons_self _ _)))
      rw [List.indexOf_cons_ne _ har, List.indexOf_cons_ne _ ham]
      have := ih l2 hnd.2 hr
      omega

theorem mem_right_of_indexOf_gt {r m : V} :
    ∀ (L1 L2 : List V), (L1 ++ r :: L2).Nodup → m ∈ L1 ++ r :: L2 →
      (L1 ++ r :: L2).indexOf r < (L1 ++ r :: L2).indexOf m → m ∈ L2 := by
  intro L1
  induction L1 with
  | nil =>
    intro L2 hnd hm hidx
    rcases List.mem_cons.1 hm with hm | hm
    · rw [← hm] at hidx
      omega
    · exact hm
  | cons a t ih =>
    intro L2 hnd hm hidx
    rw [List.cons_append] at hnd hm hidx
    rw [List.nodup_cons] at hnd
    have har : a ≠ r := by
      intro hEq
      exact hnd.1 (hEq ▸ List.mem_append.2 (Or.inr (List.mem_cons_self _ _)))
    rcases List.mem_cons.1 hm with hm | hm
    · subst hm
      rw [List.indexOf_cons_self, List.indexOf_cons_ne _ har] at hidx
      omega
    · have ham : a ≠ m := by
        intro hEq
        rw [hEq] at hnd
        exact hnd.1 hm
      rw [List.indexOf_cons_ne _ har, List.indexOf_cons_ne _ ham] at hidx
      exact ih L2 hnd.2 hm (by omega)

theorem mem_of_getLastQ {l : List V} {a : V} (h : l.getLast? = some a) : a ∈ l := by
  induction l with
  | nil => simp at h
  | cons b t ih =>
    rcases t with _ | ⟨c, t2⟩
    · rw [show ([b] : List V).getLast? = some b from rfl, Option.some.injEq] at h
      rw [← h]
      exact List.mem_cons_self _ _
    · rw [List.getLast?_cons_cons] at h
      exact List.mem_cons_of_mem _ (ih h)

/-- Post-condition of the first-pass DFS call at `v` with ghost ancestor
stack `stk`: `Δ` is the newly appended finish-order segment. -/
structure Dfs1Post (A : V → List (V × Int)) (vs stk visited order : List V) (v : V)
    (r : List V × List V × Adj V) (Δ : List V) : Prop where
  ord_eq : r.2.1 = order ++ Δ
  last_v : Δ.getLast? = some v
  vis_iff : ∀ x, x ∈ r.1 ↔ x ∈ visited ∨ x ∈ Δ
  reach : ∀ x ∈ Δ, Reach A v x
  delta_vs : ∀ x ∈ Δ, x ∈ vs
  fresh : ∀ x ∈ Δ, x ∉ visited
  nodup : r.2.1.Nodup
  nb : NbInv A r.2.1 r.1
  dom : ∀ x ∈ Δ, DomAt A r.2.1 stk x
  adjA : ∀ u, acontent r.2.2 u = A u

/-- Post-condition of the first-pass neighbor loop below parent `v`, whose
ghost ancestor stack (including `v`) is `stkv`. -/
structure Nbrs1Post (A : V → List (V × Int)) (vs stkv visited order : List V) (v : V)
    (l : List (V × Int)) (r : List V × List V × Adj V) (Δ : List V) : Prop where
  ord_eq : r.2.1 = order ++ Δ
  vis_iff : ∀ x, x ∈ r.1 ↔ x ∈ visited ∨ x ∈ Δ
  reach : ∀ x ∈ Δ, Reach A v x
  delta_vs : ∀ x ∈ Δ, x ∈ vs
  fresh : ∀ x ∈ Δ, x ∉ visited
  nodup : r.2.1.Nodup
  nb : NbInv A r.2.1 r.1
  dom : ∀ x ∈ Δ, DomAt A r.2.1 stkv x
  adjA : ∀ u, acontent r.2.2 u = A u
  done : ∀ e ∈ l, e.1 ∈ r.1

/-- Master lemma for the first Kosaraju pass: the DFS appends a segment of
newly finished vertices, all reachable from the call vertex, and every new
finish-order entry satisfies the domination property `DomAt` relative to the
ghost ancestor stack. -/
theorem sccDfs1_sound (A : V → List (V × Int)) (vs : List V)
    (hnbr : ∀ u : V, ∀ q ∈ A u, q.1 ∈ vs) :
    ∀ fuel : Nat,
      (∀ (adj : Adj V) (visited order stk : List V) (v : V),
        (∀ u, acontent adj u = A u) →
        v ∈ vs → v ∉ visited →
        unvisCount vs visited ≤ fuel →
        (∀ x, x ∈ visited ↔ x ∈ order ∨ x ∈ stk) →
        order.Nodup → (∀ x ∈ order, x ∈ vs) →
        NbInv A order visited →
        (∀ a ∈ stk, Reach A a v) →
        ∃ Δ, Dfs1Post A vs stk visited order v (sccDfs1 fuel adj visited order v) Δ) ∧
      (∀ (adj : Adj V) (visited order stkv : List V) (v : V) (l : List (V × Int)),
        (∀ u, acontent adj u = A u) →
        unvisCount vs visited ≤ fuel →
        (∀ x, x ∈ visited ↔ x ∈ order ∨ x ∈ stkv) →
        order.Nodup → (∀ x ∈ order, x ∈ vs) →
        NbInv A order visited →
        (∀ a ∈ stkv, Reach A a v) →
        (∀ e ∈ l, e ∈ A v) →
        ∃ Δ, Nbrs1Post A vs stkv visited order v l
          (sccNbrs1 fuel adj visited order l) Δ) := by
  have nbrs_step : ∀ fuel : Nat,
      (∀ (adj : Adj V) (visited order stk : List V) (v : V),
        (∀ u, acontent adj u = A u) →
        v ∈ vs → v ∉ visited →
        unvisCount vs visited ≤ fuel →
        (∀ x, x ∈ visited ↔ x ∈ order ∨ x ∈ stk) →
        order.Nodup → (∀ x ∈ order, x ∈ vs) →
        NbInv A order visited →
        (∀ a ∈ stk, Reach A a v) →
        ∃ Δ, Dfs1Post A vs stk visited order v (sccDfs1 fuel adj visited order v) Δ) →
      (∀ (adj : Adj V) (visited order stkv : List V) (v : V) (l : List (V × Int)),
        (∀ u, acontent adj u = A u) →
        unvisCount vs visited ≤ fuel →
        (∀ x, x ∈ visited ↔ x ∈ order ∨ x ∈ stkv) →
        order.Nodup → (∀ x ∈ order, x ∈ vs) →
        NbInv A order visited →
        (∀ a ∈ stkv, Reach A a v) →
        (∀ e ∈ l, e ∈ A v) →
        ∃ Δ, Nbrs1Post A vs stkv visited order v l
          (sccNbrs1 fuel adj visited order l) Δ) := by
    intro fuel hdfs adj visited order stkv v l
    induction l generalizing adj visited order with
    | nil =>
      intro hA hfuel hcov hnd hovs hnb hanc hsub
      rw [sccNbrs1]
      refine ⟨[], ⟨(List.append_nil order).symm, fun x => by simp,
        fun x hx => absurd hx (List.not_mem_nil x),
        fun x hx => absurd hx (List.not_mem_nil x),
        fun x hx => absurd hx (List.not_mem_nil x),
        hnd, hnb, fun x hx => absurd hx (List.not_mem_nil x), hA,
        fun e he => absurd he (List.not_mem_nil e)⟩⟩
    | cons e rest ih =>
      intro hA hfuel hcov hnd hovs hnb hanc hsub
      rw [sccNbrs1]
      by_cases hvis : e.1 ∈ visited
      · rw [if_pos hvis]
        obtain ⟨Δ, hp⟩ := ih adj visited order hA hfuel hcov hnd hovs hnb hanc
          (fun q hq => hsub q (List.mem_cons_of_mem _ hq))
        refine ⟨Δ, ⟨hp.ord_eq, hp.vis_iff, hp.reach, hp.delta_vs, hp.fresh,
          hp.nodup, hp.nb, hp.dom, hp.adjA, ?_⟩⟩
        intro q hq
        rcases List.mem_cons.1 hq with hq | hq
        · rw [hq]; exact (hp.vis_iff e.1).2 (Or.inl hvis)
        · exact hp.done q hq
      · rw [if_neg hvis]
        simp only
        have hein : e ∈ A v := hsub e (List.mem_cons_self _ _)
        have hevs : e.1 ∈ vs := hnbr v e hein
        have hanc_e : ∀ a ∈ stkv, Reach A a e.1 := fun a ha =>
          Relation.ReflTransGen.tail (hanc a ha) ⟨e.2, hein⟩
        obtain ⟨Δc, hc⟩ := hdfs adj visited order stkv e.1 hA hevs hvis hfuel
          hcov hnd hovs hnb hanc_e
        have hfuel2 : unvisCount vs (sccDfs1 fuel adj visited order e.1).1 ≤ fuel :=
          le_trans (unvis_mono (fun x hx => (hc.vis_iff x).2 (Or.inl hx)) vs) hfuel
        have hcov2 : ∀ x, x ∈ (sccDfs1 fuel adj visited order e.1).1 ↔
            x ∈ (sccDfs1 fuel adj visited order e.1).2.1 ∨ x ∈ stkv := by
          intro x
          rw [hc.vis_iff x, hc.ord_eq, List.mem_append]
          constructor
          · rintro (hx | hx)
            · rcases (hcov x).1 hx with h | h
              · exact Or.inl (Or.inl h)
              · exact Or.inr h
            · exact Or.inl (Or.inr hx)
          · rintro ((hx | hx) | hx)
            · exact Or.inl ((hcov x).2 (Or.inl hx))
            · exact Or.inr hx
            · exact Or.inl ((hcov x).2 (Or.inr hx))
        have hovs2 : ∀ x ∈ (sccDfs1 fuel adj visited order e.1).2.1, x ∈ vs := by
          intro x hx
          rw [hc.ord_eq] at hx
          rcases List.mem_append.1 hx with h | h
          · exact hovs x h
          · exact hc.delta_vs x h
        obtain ⟨Δr, hr⟩ := ih (sccDfs1 fuel adj visited order e.1).2.2
          (sccDfs1 fuel adj visited order e.1).1
          (sccDfs1 fuel adj visited order e.1).2.1
          hc.adjA hfuel2 hcov2 hc.nodup hovs2 hc.nb hanc
          (fun q hq => hsub q (List.mem_cons_of_mem _ hq))
        refine ⟨Δc ++ Δr, ⟨?_, ?_, ?_, ?_, ?_, ?_, ?_, ?_, ?_, ?_⟩⟩
        · rw [hr.ord_eq, hc.ord_eq, List.append_assoc]
        · intro x
          rw [hr.vis_iff x, hc.vis_iff x, List.mem_append]
          tauto
        · intro x hx
          rcases List.mem_append.1 hx with h | h
          · exact Relation.ReflTransGen.head ⟨e.2, hein⟩ (hc.reach x h)
          · exact hr.reach x h
        · intro x hx
          rcases List.mem_append.1 hx with h | h
          · exact hc.delta_vs x h
          · exact hr.delta_vs x h
        · intro x hx
          rcases List.mem_append.1 hx with h | h
          · exact hc.fresh x h
          · exact fun hmem => hr.fresh x h ((hc.vis_iff x).2 (Or.inl hmem))
        · exact hr.nodup
        · exact hr.nb
        · intro x hx
          rcases List.mem_append.1 hx with h | h
          · rw [hr.ord_eq]
            exact domAt_mono (hc.dom x h) (fun a ha => ha)
          · exact hr.dom x h
        · exact hr.adjA
        · intro q hq
          rcases List.mem_cons.1 hq with hq | hq
          · rw [hq]
            refine (hr.vis_iff e.1).2 (Or.inl ((hc.vis_iff e.1).2 (Or.inr ?_)))
            exact mem_of_getLastQ hc.last_v
          · exact hr.done q hq
  intro fuel
  induction fuel with
  | zero =>
    constructor
    · intro adj visited order stk v hA hv hnv hfuel hcov hnd hovs hnb hanc
      have := unvis_pos hv hnv
      omega
    · refine nbrs_step 0 ?_
      intro adj visited order stk v hA hv hnv hfuel hcov hnd hovs hnb hanc
      have := unvis_pos hv hnv
      omega
  | succ f ihf =>
    have hnbrsf := nbrs_step f ihf.1
    have hdfs : ∀ (adj : Adj V) (visited order stk : List V) (v : V),
        (∀ u, acontent adj u = A u) →
        v ∈ vs → v ∉ visited →
        unvisCount vs visited ≤ f + 1 →
        (∀ x, x ∈ visited ↔ x ∈ order ∨ x ∈ stk) →
        order.Nodup → (∀ x ∈ order, x ∈ vs) →
        NbInv A order visited →
        (∀ a ∈ stk, Reach A a v) →
        ∃ Δ, Dfs1Post A vs stk visited order v (sccDfs1 (f + 1) adj visited order v) Δ := by
      intro adj visited order stk v hA hv hnv hfuel hcov hnd hovs hnb hanc
      rw [sccDfs1]
      show ∃ Δ, Dfs1Post A vs stk visited order v
        ((sccNbrs1 f (dgetm adj v []).2 (setAdd visited v) order (dgetm adj v []).1).1,
          (sccNbrs1 f (dgetm adj v []).2 (setAdd visited v) order
            (dgetm adj v []).1).2.1 ++ [v],
          (sccNbrs1 f (dgetm adj v []).2 (setAdd visited v) order
            (dgetm adj v []).1).2.2) Δ
      have hA2 : ∀ u, acontent (dgetm adj v []).2 u = A u := fun u => by
        rw [dgetm_snd_content]; exact hA u
      have hfuel2 : unvisCount vs (setAdd visited v) ≤ f := by
        have := unvis_setAdd hv hnv
        omega
      have hcov2 : ∀ x, x ∈ setAdd visited v ↔ x ∈ order ∨ x ∈ stk ++ [v] := by
        intro x
        rw [mem_setAdd_iff, hcov x, List.mem_append, List.mem_singleton]
        tauto
      have hnb2 : NbInv A order (setAdd visited v) := fun x hx q hq =>
        mem_setAdd_iff.2 (Or.inl (hnb x hx q hq))
      have hanc2 : ∀ a ∈ stk ++ [v], Reach A a v := by
        intro a ha
        rcases List.mem_append.1 ha with h | h
        · exact hanc a h
        · rw [List.mem_singleton.1 h]
          exact Relation.ReflTransGen.refl
      have hsub2 : ∀ q ∈ (dgetm adj v []).1, q ∈ A v := by
        intro q hq
        rw [dgetm_fst_content, hA v] at hq
        exact hq
      obtain ⟨Δn, hn⟩ := hnbrsf (dgetm adj v []).2 (setAdd visited v) order
        (stk ++ [v]) v (dgetm adj v []).1 hA2 hfuel2 hcov2 hnd hovs hnb2 hanc2 hsub2
      set rn := sccNbrs1 f (dgetm adj v []).2 (setAdd visited v) order (dgetm adj v []).1
        with hrn
      have hvK : v ∉ order := fun h => hnv ((hcov v).2 (Or.inl h))
      have hvΔn : v ∉ Δn := fun h => hn.fresh v h (mem_setAdd_iff.2 (Or.inr rfl))
      have hvnot : v ∉ rn.2.1 := by
        rw [hn.ord_eq]
        intro h
        rcases List.mem_append.1 h with h | h
        · exact hvK h
        · exact hvΔn h
      have hvisiff : ∀ x, x ∈ rn.1 ↔ x ∈ visited ∨ x ∈ Δn ++ [v] := by
        intro x
        rw [hn.vis_iff x, mem_setAdd_iff, List.mem_append, List.mem_singleton]
        tauto
      have hnbKey : NbInv A (rn.2.1 ++ [v]) rn.1 := by
        intro x hx q hq
        rcases List.mem_append.1 hx with hx | hx
        · exact hn.nb x hx q hq
        · rw [List.mem_singleton.1 hx] at hq
          have hq2 : q ∈ (dgetm adj v []).1 := by
            rw [dgetm_fst_content, hA v]
            exact hq
          exact hn.done q hq2
      have hcovKey : ∀ y ∈ rn.1, y ∈ rn.2.1 ++ [v] ∨ y ∈ stk := by
        intro y hy
        rcases (hvisiff y).1 hy with h | h
        · rcases (hcov y).1 h with h2 | h2
          · exact Or.inl (List.mem_append.2 (Or.inl (by
              rw [hn.ord_eq]; exact List.mem_append.2 (Or.inl h2))))
          · exact Or.inr h2
        · rcases List.mem_append.1 h with h2 | h2
          · exact Or.inl (List.mem_append.2 (Or.inl (by
              rw [hn.ord_eq]; exact List.mem_append.2 (Or.inr h2))))
          · exact Or.inl (List.mem_append.2 (Or.inr h2))
      refine ⟨Δn ++ [v], ⟨?_, ?_, ?_, ?_, ?_, ?_, ?_, ?_, ?_, ?_⟩⟩
      · rw [show (rn.1, rn.2.1 ++ [v], rn.2.2).2.1 = rn.2.1 ++ [v] from rfl,
          hn.ord_eq, List.append_assoc]
      · exact List.getLast?_concat _
      · exact hvisiff
      · intro x hx
        rcases List.mem_append.1 hx with h | h
        · exact hn.reach x h
        · rw [List.mem_singleton.1 h]
          exact Relation.ReflTransGen.refl
      · intro x hx
        rcases List.mem_append.1 hx with h | h
        · exact hn.delta_vs x h
        · rw [List.mem_singleton.1 h]; exact hv
      · intro x hx
        rcases List.mem_append.1 hx with h | h
        · exact fun hmem => hn.fresh x h (mem_setAdd_iff.2 (Or.inl hmem))
        · rw [List.mem_singleton.1 h]; exact hnv
      · simp [List.nodup_append, hn.nodup, hvnot]
      · exact hnbKey
      · intro x hx z hz
        have hesc := reach_path_escape hnbKey hcovKey hz
        rcases List.mem_append.1 hx with hxn | hxv
        · rcases hn.dom x hxn z hz with ⟨m, h1, h2, h3⟩ | ⟨a, ha, h1⟩
          · exact Or.inl ⟨m, h1, h2, ble_append h3⟩
          · rcases List.mem_append.1 ha with ha | ha
            · exact Or.inr ⟨a, ha, h1⟩
            · have hxrv : Reach A x v := by
                rw [← List.mem_singleton.1 ha]
                exact h1
              have hxin : x ∈ rn.2.1 ++ [v] := List.mem_append.2 (Or.inl (by
                rw [hn.ord_eq]; exact List.mem_append.2 (Or.inr hxn)))
              rcases hesc hxin with hzin | ⟨b, hb, h4⟩
              · refine Or.inl ⟨v, hxrv, hn.reach x hxn, ble_last ?_⟩
                rcases List.mem_append.1 hzin with h | h
                · exact Or.inr h
                · exact Or.inl (List.mem_singleton.1 h)
              · exact Or.inr ⟨b, hb, h4⟩
        · have hxe : x = v := List.mem_singleton.1 hxv
          subst hxe
          have hvin : x ∈ rn.2.1 ++ [x] := List.mem_append.2 (Or.inr (List.mem_singleton.2 rfl))
          rcases hesc hvin with hzin | ⟨b, hb, h4⟩
          · refine Or.inl ⟨x, Relation.ReflTransGen.refl, Relation.ReflTransGen.refl,
              ble_last ?_⟩
            rcases List.mem_append.1 hzin with h | h
            · exact Or.inr h
            · exact Or.inl (List.mem_singleton.1 h)
          · exact Or.inr ⟨b, hb, h4⟩
      · exact hn.adjA
    exact ⟨hdfs, nbrs_step (f + 1) hdfs⟩

theorem unvisCount_le_length (vs visited : List V) : unvisCount vs visited ≤ vs.length := by
  unfold unvisCount
  exact List.countP_le_length _

/-- Outer loop of the first pass: starting from any state satisfying the
invariants, folding the first-pass DFS over a vertex list preserves them and
visits every listed vertex. -/
theorem sccPass1_fold (A : V → List (V × Int)) (vs : List V)
    (hnbr : ∀ u : V, ∀ q ∈ A u, q.1 ∈ vs) (fuel : Nat) (hfuel : vs.length ≤ fuel) :
    ∀ (vl : List V) (st : List V × List V × Adj V),
      (∀ x ∈ vl, x ∈ vs) →
      (∀ x, x ∈ st.1 ↔ x ∈ st.2.1) →
      st.2.1.Nodup → (∀ x ∈ st.2.1, x ∈ vs) →
      NbInv A st.2.1 st.1 →
      (∀ x ∈ st.2.1, DomAt A st.2.1 [] x) →
      (∀ u, acontent st.2.2 u = A u) →
      ((∀ x, x ∈ (vl.foldl (fun st v =>
          if v ∈ st.1 then st else sccDfs1 fuel st.2.2 st.1 st.2.1 v) st).1 ↔
          x ∈ (vl.foldl (fun st v =>
          if v ∈ st.1 then st else sccDfs1 fuel st.2.2 st.1 st.2.1 v) st).2.1) ∧
        (vl.foldl (fun st v =>
          if v ∈ st.1 then st else sccDfs1 fuel st.2.2 st.1 st.2.1 v) st).2.1.Nodup ∧
        (∀ x ∈ (vl.foldl (fun st v =>
          if v ∈ st.1 then st else sccDfs1 fuel st.2.2 st.1 st.2.1 v) st).2.1, x ∈ vs) ∧
        NbInv A (vl.foldl (fun st v =>
          if v ∈ st.1 then st else sccDfs1 fuel st.2.2 st.1 st.2.1 v) st).2.1
          (vl.foldl (fun st v =>
          if v ∈ st.1 then st else sccDfs1 fuel st.2.2 st.1 st.2.1 v) st).1 ∧
        (∀ x ∈ (vl.foldl (fun st v =>
          if v ∈ st.1 then st else sccDfs1 fuel st.2.2 st.1 st.2.1 v) st).2.1,
          DomAt A (vl.foldl (fun st v =>
          if v ∈ st.1 then st else sccDfs1 fuel st.2.2 st.1 st.2.1 v) st).2.1 [] x) ∧
        (∀ u, acontent (vl.foldl (fun st v =>
          if v ∈ st.1 then st else sccDfs1 fuel st.2.2 st.1 st.2.1 v) st).2.2 u = A u) ∧
        (∀ x ∈ vl, x ∈ (vl.foldl (fun st v =>
          if v ∈ st.1 then st else sccDfs1 fuel st.2.2 st.1 st.2.1 v) st).1) ∧
        (∀ x ∈ st.1, x ∈ (vl.foldl (fun st v =>
          if v ∈ st.1 then st else sccDfs1 fuel st.2.2 st.1 st.2.1 v) st).1)) := by
  intro vl
  induction vl with
  | nil =>
    intro st hvl hcov hnd hovs hnb hdom hA
    exact ⟨hcov, hnd, hovs, hnb, hdom, hA, fun x hx => absurd hx (List.not_mem_nil x),
      fun x hx => hx⟩
  | cons v rest ih =>
    intro st hvl hcov hnd hovs hnb hdom hA
    rw [List.foldl_cons]
    by_cases hv : v ∈ st.1
    · rw [if_pos hv]
      obtain ⟨icov, ind, iovs, inb, idom, iA, irest, imono⟩ := ih st
        (fun x hx => hvl x (List.mem_cons_of_mem _ hx)) hcov hnd hovs hnb hdom hA
      refine ⟨icov, ind, iovs, inb, idom, iA, ?_, imono⟩
      intro x hx
      rcases List.mem_cons.1 hx with hx | hx
      · rw [hx]; exact imono v hv
      · exact irest x hx
    · rw [if_neg hv]
      have hcov0 : ∀ x, x ∈ st.1 ↔ x ∈ st.2.1 ∨ x ∈ ([] : List V) := by
        intro x
        rw [hcov x]
        simp
      obtain ⟨Δ, hp⟩ := (sccDfs1_sound A vs hnbr fuel).1 st.2.2 st.1 st.2.1 [] v hA
        (hvl v (List.mem_cons_self _ _)) hv
        (le_trans (unvisCount_le_length vs st.1) hfuel) hcov0 hnd hovs hnb
        (fun a ha => absurd ha (List.not_mem_nil a))
      set st2 := sccDfs1 fuel st.2.2 st.1 st.2.1 v with hst2
      have hcov2 : ∀ x, x ∈ st2.1 ↔ x ∈ st2.2.1 := by
        intro x
        rw [hp.vis_iff x, hp.ord_eq, List.mem_append, hcov x]
      have hovs2 : ∀ x ∈ st2.2.1, x ∈ vs := by
        intro x hx
        rw [hp.ord_eq] at hx
        rcases List.mem_append.1 hx with h | h
        · exact hovs x h
        · exact hp.delta_vs x h
      have hdom2 : ∀ x ∈ st2.2.1, DomAt A st2.2.1 [] x := by
        intro x hx
        rw [hp.ord_eq] at hx ⊢
        rcases List.mem_append.1 hx with h | h
        · exact domAt_mono (hdom x h) (fun a ha => ha)
        · rw [← hp.ord_eq]
          exact hp.dom x h
      obtain ⟨icov, ind, iovs, inb, idom, iA, irest, imono⟩ := ih st2
        (fun x hx => hvl x (List.mem_cons_of_mem _ hx)) hcov2 hp.nodup hovs2 hp.nb
        hdom2 hp.adjA
      refine ⟨icov, ind, iovs, inb, idom, iA, ?_, ?_⟩
      · intro x hx
        rcases List.mem_cons.1 hx with hx | hx
        · rw [hx]
          exact imono v ((hp.vis_iff v).2 (Or.inr (mem_of_getLastQ hp.last_v)))
        · exact irest x hx
      · intro x hx
        exact imono x ((hp.vis_iff x).2 (Or.inl hx))

theorem acontent_adjAppend_self (m : Adj V) (q : V) (e : V × Int) :
    acontent (adjAppend m q e) q = acontent m q ++ [e] := by
  show acontent (dset (dgetm m q []).2 q ((dgetm m q []).1 ++ [e])) q
      = acontent m q ++ [e]
  have h1 := dlookup_dset_self (dgetm m q []).2 q ((dgetm m q []).1 ++ [e])
  unfold acontent dlookupD
  rw [h1, dgetm_fst_content]
  rfl

theorem acontent_adjAppend_ne (m : Adj V) {q u : V} (e : V × Int) (h : u ≠ q) :
    acontent (adjAppend m q e) u = acontent m u := by
  show acontent (dset (dgetm m q []).2 q ((dgetm m q []).1 ++ [e])) u = acontent m u
  have h1 := dlookup_dset_ne (dgetm m q []).2 ((dgetm m q []).1 ++ [e])
    (fun hEq => h hEq.symm)
  have h2 := dgetm_snd_content m q u
  unfold acontent dlookupD
  unfold acontent dlookupD at h2
  rw [h1]
  exact h2

theorem revInner_mem (vertex : V) :
    ∀ (l : List (V × Int)) (racc : Adj V) (y : V) (q : V × Int),
      q ∈ acontent (l.foldl (fun racc e => adjAppend racc e.1 (vertex, e.2)) racc) y ↔
        q ∈ acontent racc y ∨ ∃ e ∈ l, e.1 = y ∧ q = (vertex, e.2) := by
  intro l
  induction l with
  | nil =>
    intro racc y q
    simp
  | cons e rest ih =>
    intro racc y q
    rw [List.foldl_cons, ih]
    constructor
    · rintro (hq | ⟨e2, he2, h1, h2⟩)
      · by_cases hy : y = e.1
        · subst hy
          rw [acontent_adjAppend_self] at hq
          rcases List.mem_append.1 hq with hq | hq
          · exact Or.inl hq
          · exact Or.inr ⟨e, List.mem_cons_self _ _, rfl, List.mem_singleton.1 hq⟩
        · rw [acontent_adjAppend_ne _ _ hy] at hq
          exact Or.inl hq
      · exact Or.inr ⟨e2, List.mem_cons_of_mem _ he2, h1, h2⟩
    · rintro (hq | ⟨e2, he2, h1, h2⟩)
      · by_cases hy : y = e.1
        · subst hy
          refine Or.inl ?_
          rw [acontent_adjAppend_self]
          exact List.mem_append.2 (Or.inl hq)
        · refine Or.inl ?_
          rw [acontent_adjAppend_ne _ _ hy]
          exact hq
      · rcases List.mem_cons.1 he2 with he2 | he2
        · refine Or.inl ?_
          rw [he2] at h1 h2
          rw [← h1, acontent_adjAppend_self]
          refine List.mem_append.2 (Or.inr ?_)
          rw [h2]
          exact List.mem_singleton.2 rfl
        · exact Or.inr ⟨e2, he2, h1, h2⟩

theorem revOuter_mem (A : V → List (V × Int)) :
    ∀ (vl : List V) (st : Adj V × Adj V),
      (∀ u, acontent st.2 u = A u) →
      ((∀ u, acontent (vl.foldl (fun (st : Adj V × Adj V) vertex =>
          ((dgetm st.2 vertex []).1.foldl
            (fun racc e => adjAppend racc e.1 (vertex, e.2)) st.1,
            (dgetm st.2 vertex []).2)) st).2 u = A u) ∧
        (∀ y (q : V × Int),
          q ∈ acontent (vl.foldl (fun (st : Adj V × Adj V) vertex =>
            ((dgetm st.2 vertex []).1.foldl
              (fun racc e => adjAppend racc e.1 (vertex, e.2)) st.1,
              (dgetm st.2 vertex []).2)) st).1 y ↔
            q ∈ acontent st.1 y ∨ ∃ u ∈ vl, ∃ w : Int, (y, w) ∈ A u ∧ q = (u, w))) := by
  intro vl
  induction vl with
  | nil =>
    intro st hA
    refine ⟨hA, ?_⟩
    intro y q
    simp
  | cons vertex rest ih =>
    intro st hA
    rw [List.foldl_cons]
    have hA2 : ∀ u, acontent (dgetm st.2 vertex []).2 u = A u := fun u => by
      rw [dgetm_snd_content]; exact hA u
    obtain ⟨ih1, ih2⟩ := ih
      ((dgetm st.2 vertex []).1.foldl
        (fun racc e => adjAppend racc e.1 (vertex, e.2)) st.1,
        (dgetm st.2 vertex []).2) hA2
    refine ⟨ih1, ?_⟩
    intro y q
    rw [ih2 y q, revInner_mem vertex _ _ y q]
    have hcontent : (dgetm st.2 vertex []).1 = A vertex := by
      rw [dgetm_fst_content]; exact hA vertex
    constructor
    · rintro ((hq | ⟨e, he, h1, h2⟩) | ⟨u, hu, w, h1, h2⟩)
      · exact Or.inl hq
      · refine Or.inr ⟨vertex, List.mem_cons_self _ _, e.2, ?_, ?_⟩
        · rw [← h1]
          rw [hcontent] at he
          exact he
        · rw [h2]
      · exact Or.inr ⟨u, List.mem_cons_of_mem _ hu, w, h1, h2⟩
    · rintro (hq | ⟨u, hu, w, h1, h2⟩)
      · exact Or.inl (Or.inl hq)
      · rcases List.mem_cons.1 hu with hu | hu
        · refine Or.inl (Or.inr ⟨(y, w), ?_, rfl, ?_⟩)
          · rw [hu] at h1
            rw [hcontent]
            exact h1
          · rw [h2, hu]
        · exact Or.inr ⟨u, hu, w, h1, h2⟩

/-- Membership characterization of `_reverse_graph`: the reversed adjacency
holds `(u, w)` at key `y` precisely when the original graph has the edge
`u -> y` with weight `w` and `u` is a listed vertex. -/
theorem reverse_graph_mem (A : V → List (V × Int)) (vs : List V) (adj : Adj V)
    (hA : ∀ u, acontent adj u = A u) (y : V) (q : V × Int) :
    q ∈ acontent (reverse_graph vs adj).1 y ↔
      ∃ u ∈ vs, ∃ w : Int, (y, w) ∈ A u ∧ q = (u, w) := by
  unfold reverse_graph
  rw [(revOuter_mem A vs ([], adj) hA).2 y q]
  constructor
  · rintro (hq | h)
    · simp [acontent, dlookupD, dlookup] at hq
    · exact h
  · exact fun h => Or.inr h

theorem reverse_graph_snd (A : V → List (V × Int)) (vs : List V) (adj : Adj V)
    (hA : ∀ u, acontent adj u = A u) :
    ∀ u, acontent (reverse_graph vs adj).2 u = A u := by
  unfold reverse_graph
  exact (revOuter_mem A vs ([], adj) hA).1

/-- Mutual reachability (same strong component). -/
def MutReach (A : V → List (V × Int)) (a b : V) : Prop :=
  Reach A a b ∧ Reach A b a

theorem mutReach_refl (A : V → List (V × Int)) (a : V) : MutReach A a a :=
  ⟨Relation.ReflTransGen.refl, Relation.ReflTransGen.refl⟩

theorem mutReach_symm {A : V → List (V × Int)} {a b : V} (h : MutReach A a b) :
    MutReach A b a := ⟨h.2, h.1⟩

theorem mutReach_trans {A : V → List (V × Int)} {a b c : V}
    (h1 : MutReach A a b) (h2 : MutReach A b c) : MutReach A a c :=
  ⟨Relation.ReflTransGen.trans h1.1 h2.1, Relation.ReflTransGen.trans h2.2 h1.2⟩

/-- Reachability along `R` all of whose path vertices (endpoints included)
avoid the list `W`. -/
inductive ReachAvoid (R : V → V → Prop) (W : List V) : V → V → Prop where
  | refl : ∀ {v}, v ∉ W → ReachAvoid R W v v
  | head : ∀ {u v w}, u ∉ W → R u v → ReachAvoid R W v w → ReachAvoid R W u w

theorem reachAvoid_start_not_mem {R : V → V → Prop} {W : List V} {u v : V}
    (h : ReachAvoid R W u v) : u ∉ W := by
  cases h with
  | refl h1 => exact h1
  | head h1 _ _ => exact h1

theorem reachAvoid_end_not_mem {R : V → V → Prop} {W : List V} {u v : V}
    (h : ReachAvoid R W u v) : v ∉ W := by
  induction h with
  | refl h1 => exact h1
  | head _ _ _ ih => exact ih

theorem reachAvoid_mono {R : V → V → Prop} {W W2 : List V} {u v : V}
    (hsub : ∀ x ∈ W, x ∈ W2) (h : ReachAvoid R W2 u v) : ReachAvoid R W u v := by
  induction h with
  | refl h1 => exact ReachAvoid.refl (fun hx => h1 (hsub _ hx))
  | head h1 h2 _ ih => exact ReachAvoid.head (fun hx => h1 (hsub _ hx)) h2 ih

theorem reachAvoid_trans {R : V → V → Prop} {W : List V} {u v w : V}
    (h1 : ReachAvoid R W u v) (h2 : ReachAvoid R W v w) : ReachAvoid R W u w := by
  induction h1 with
  | refl _ => exact h2
  | head ha hb _ ih => exact ReachAvoid.head ha hb (ih h2)

theorem reachAvoid_snoc {R : V → V → Prop} {W : List V} {u v w : V}
    (h1 : ReachAvoid R W u v) (h2 : R v w) (h3 : w ∉ W) : ReachAvoid R W u w :=
  reachAvoid_trans h1 (ReachAvoid.head (reachAvoid_end_not_mem h1) h2 (ReachAvoid.refl h3))

theorem reachAvoid_to_reflTransGen {R : V → V → Prop} {W : List V} {u v : V}
    (h : ReachAvoid R W u v) : Relation.ReflTransGen R u v := by
  induction h with
  | refl _ => exact Relation.ReflTransGen.refl
  | head _ h2 _ ih => exact Relation.ReflTransGen.head h2 ih

/-- A reversed-graph path is an original-graph path backwards. -/
theorem reach_flip {RA A : V → List (V × Int)}
    (hflip : ∀ a b : V, EdgeOf RA a b → EdgeOf A b a) {r y : V}
    (h : Relation.ReflTransGen (EdgeOf RA) r y) : Reach A y r := by
  induction h with
  | refl => exact Relation.ReflTransGen.refl
  | tail h1 h2 ih =>
    exact Relation.ReflTransGen.trans (Relation.ReflTransGen.single (hflip _ _ h2)) ih

/-- When `W` is closed under mutual reachability and `y` is in the strong
component of `r ∉ W`, the original-graph path from `y` to `r` flips into a
reversed-graph path from `r` to `y` avoiding `W`. -/
theorem mutpath_to_reachAvoid {RA A : V → List (V × Int)} {vs W : List V}
    (hkeysA : ∀ u : V, ∀ q ∈ A u, u ∈ vs)
    (hRA : ∀ a b : V, (b ∈ vs ∧ EdgeOf A b a) → EdgeOf RA a b)
    (hWclosed : ∀ m ∈ W, ∀ y : V, MutReach A m y → y ∈ W)
    {r y : V} (hyr : Reach A y r) (hrW : r ∉ W) :
    Reach A r y → ReachAvoid (EdgeOf RA) W r y := by
  induction hyr using Relation.ReflTransGen.head_induction_on with
  | refl => exact fun _ => ReachAvoid.refl hrW
  | head hstep hrest ih =>
    rename_i x z
    intro hrx
    have hrz : Reach A r z := Relation.ReflTransGen.tail hrx hstep
    have hxvs : x ∈ vs := by
      obtain ⟨w, hw⟩ := hstep
      exact hkeysA x (z, w) hw
    have hxW : x ∉ W := by
      intro hxin
      exact hrW (hWclosed x hxin r ⟨Relation.ReflTransGen.head hstep hrest, hrx⟩)
    exact reachAvoid_snoc (ih hrz) (hRA z x ⟨hxvs, hstep⟩) hxW

/-- Post-condition of the second-pass DFS call at `v`: `Δ` is the set of
vertices newly collected into the component. -/
structure Dfs2Post (RA : V → List (V × Int)) (vs visited comp : List V) (v : V)
    (r : List V × List V × Adj V) (Δ : List V) : Prop where
  comp_eq : r.2.1 = comp ++ Δ
  vis_iff : ∀ x, x ∈ r.1 ↔ x ∈ visited ∨ x ∈ Δ
  v_mem : v ∈ Δ
  sound : ∀ y ∈ Δ, ReachAvoid (EdgeOf RA) visited v y
  fresh : ∀ y ∈ Δ, y ∉ visited
  delta_vs : ∀ y ∈ Δ, y ∈ vs
  closure : ∀ y ∈ Δ, ∀ q ∈ RA y, q.1 ∈ r.1
  delta_nodup : Δ.Nodup
  adjA : ∀ u, acontent r.2.2 u = RA u

/-- Post-condition of the second-pass neighbor loop below parent `v`; `W0` is
the visited set right before `v` itself was marked. -/
structure Nbrs2Post (RA : V → List (V × Int)) (vs W0 visited : List V) (comp : List V)
    (v : V) (l : List (V × Int)) (r : List V × List V × Adj V) (Δ : List V) : Prop where
  comp_eq : r.2.1 = comp ++ Δ
  vis_iff : ∀ x, x ∈ r.1 ↔ x ∈ visited ∨ x ∈ Δ
  sound : ∀ y ∈ Δ, ReachAvoid (EdgeOf RA) W0 v y
  fresh : ∀ y ∈ Δ, y ∉ visited
  delta_vs : ∀ y ∈ Δ, y ∈ vs
  closure : ∀ y ∈ Δ, ∀ q ∈ RA y, q.1 ∈ r.1
  delta_nodup : Δ.Nodup
  adjA : ∀ u, acontent r.2.2 u = RA u
  done : ∀ e ∈ l, e.1 ∈ r.1

/-- Master lemma for the second Kosaraju pass: the DFS collects fresh
vertices reachable from `v` in the reversed graph while avoiding the
previously visited set, and the collection is neighbor-closed. -/
theorem sccDfs2_sound (RA : V → List (V × Int)) (vs : List V)
    (hnbr : ∀ u : V, ∀ q ∈ RA u, q.1 ∈ vs) :
    ∀ fuel : Nat,
      (∀ (radj : Adj V) (visited comp : List V) (v : V),
        (∀ u, acontent radj u = RA u) →
        v ∈ vs → v ∉ visited →
        unvisCount vs visited ≤ fuel →
        ∃ Δ, Dfs2Post RA vs visited comp v (sccDfs2 fuel radj visited comp v) Δ) ∧
      (∀ (radj : Adj V) (W0 visited comp : List V) (v : V) (l : List (V × Int)),
        (∀ u, acontent radj u = RA u) →
        unvisCount vs visited ≤ fuel →
        (∀ x ∈ W0, x ∈ visited) → v ∉ W0 →
        (∀ e ∈ l, e ∈ RA v) →
        ∃ Δ, Nbrs2Post RA vs W0 visited comp v l
          (sccNbrs2 fuel radj visited comp l) Δ) := by
  have nbrs_step : ∀ fuel : Nat,
      (∀ (radj : Adj V) (visited comp : List V) (v : V),
        (∀ u, acontent radj u = RA u) →
        v ∈ vs → v ∉ visited →
        unvisCount vs visited ≤ fuel →
        ∃ Δ, Dfs2Post RA vs visited comp v (sccDfs2 fuel radj visited comp v) Δ) →
      (∀ (radj : Adj V) (W0 visited comp : List V) (v : V) (l : List (V × Int)),
        (∀ u, acontent radj u = RA u) →
        unvisCount vs visited ≤ fuel →
        (∀ x ∈ W0, x ∈ visited) → v ∉ W0 →
        (∀ e ∈ l, e ∈ RA v) →
        ∃ Δ, Nbrs2Post RA vs W0 visited comp v l
          (sccNbrs2 fuel radj visited comp l) Δ) := by
    intro fuel hdfs radj W0 visited comp v l
    induction l generalizing radj visited comp with
    | nil =>
      intro hA hfuel hW0 hvW0 hsub
      rw [sccNbrs2]
      exact ⟨[], ⟨(List.append_nil comp).symm, fun x => by simp,
        fun y hy => absurd hy (List.not_mem_nil y),
        fun y hy => absurd hy (List.not_mem_nil y),
        fun y hy => absurd hy (List.not_mem_nil y),
        fun y hy => absurd hy (List.not_mem_nil y),
        List.nodup_nil, hA, fun e he => absurd he (List.not_mem_nil e)⟩⟩
    | cons e rest ih =>
      intro hA hfuel hW0 hvW0 hsub
      rw [sccNbrs2]
      by_cases hvis : e.1 ∈ visited
      · rw [if_pos hvis]
        obtain ⟨Δ, hp⟩ := ih radj visited comp hA hfuel hW0 hvW0
          (fun q hq => hsub q (List.mem_cons_of_mem _ hq))
        refine ⟨Δ, ⟨hp.comp_eq, hp.vis_iff, hp.sound, hp.fresh, hp.delta_vs,
          hp.closure, hp.delta_nodup, hp.adjA, ?_⟩⟩
        intro q hq
        rcases List.mem_cons.1 hq with hq | hq
        · rw [hq]; exact (hp.vis_iff e.1).2 (Or.inl hvis)
        · exact hp.done q hq
      · rw [if_neg hvis]
        simp only
        have hein : e ∈ RA v := hsub e (List.mem_cons_self _ _)
        have hevs : e.1 ∈ vs := hnbr v e hein
        obtain ⟨Δc, hc⟩ := hdfs radj visited comp e.1 hA hevs hvis hfuel
        have hfuel2 : unvisCount vs (sccDfs2 fuel radj visited comp e.1).1 ≤ fuel :=
          le_trans (unvis_mono (fun x hx => (hc.vis_iff x).2 (Or.inl hx)) vs) hfuel
        have hW02 : ∀ x ∈ W0, x ∈ (sccDfs2 fuel radj visited comp e.1).1 :=
          fun x hx => (hc.vis_iff x).2 (Or.inl (hW0 x hx))
        obtain ⟨Δr, hr⟩ := ih (sccDfs2 fuel radj visited comp e.1).2.2
          (sccDfs2 fuel radj visited comp e.1).1
          (sccDfs2 fuel radj visited comp e.1).2.1
          hc.adjA hfuel2 hW02 hvW0
          (fun q hq => hsub q (List.mem_cons_of_mem _ hq))
        refine ⟨Δc ++ Δr, ⟨?_, ?_, ?_, ?_, ?_, ?_, ?_, ?_, ?_⟩⟩
        · rw [hr.comp_eq, hc.comp_eq, List.append_assoc]
        · intro x
          rw [hr.vis_iff x, hc.vis_iff x, List.mem_append]
          tauto
        · intro y hy
          rcases List.mem_append.1 hy with h | h
          · exact ReachAvoid.head hvW0 ⟨e.2, hein⟩
              (reachAvoid_mono hW0 (hc.sound y h))
          · exact hr.sound y h
        · intro y hy
          rcases List.mem_append.1 hy with h | h
          · exact hc.fresh y h
          · exact fun hmem => hr.fresh y h ((hc.vis_iff y).2 (Or.inl hmem))
        · intro y hy
          rcases List.mem_append.1 hy with h | h
          · exact hc.delta_vs y h
          · exact hr.delta_vs y h
        · intro y hy q hq
          rcases List.mem_append.1 hy with h | h
          · exact (hr.vis_iff q.1).2 (Or.inl (hc.closure y h q hq))
          · exact hr.closure y h q hq
        · rw [List.nodup_append]
          refine ⟨hc.delta_nodup, hr.delta_nodup, ?_⟩
          intro a ha hb
          exact hr.fresh a hb ((hc.vis_iff a).2 (Or.inr ha))
        · exact hr.adjA
        · intro q hq
          rcases List.mem_cons.1 hq with hq | hq
          · rw [hq]
            exact (hr.vis_iff e.1).2 (Or.inl ((hc.vis_iff e.1).2 (Or.inr hc.v_mem)))
          · exact hr.done q hq
  intro fuel
  induction fuel with
  | zero =>
    constructor
    · intro radj visited comp v hA hv hnv hfuel
      have := unvis_pos hv hnv
      omega
    · refine nbrs_step 0 ?_
      intro radj visited comp v hA hv hnv hfuel
      have := unvis_pos hv hnv
      omega
  | succ f ihf =>
    have hnbrsf := nbrs_step f ihf.1
    have hdfs : ∀ (radj : Adj V) (visited comp : List V) (v : V),
        (∀ u, acontent radj u = RA u) →
        v ∈ vs → v ∉ visited →
        unvisCount vs visited ≤ f + 1 →
        ∃ Δ, Dfs2Post RA vs visited comp v (sccDfs2 (f + 1) radj visited comp v) Δ := by
      intro radj visited comp v hA hv hnv hfuel
      rw [sccDfs2]
      show ∃ Δ, Dfs2Post RA vs visited comp v
        (sccNbrs2 f (dgetm radj v []).2 (setAdd visited v) (comp ++ [v])
          (dgetm radj v []).1) Δ
      have hA2 : ∀ u, acontent (dgetm radj v []).2 u = RA u := fun u => by
        rw [dgetm_snd_content]; exact hA u
      have hfuel2 : unvisCount vs (setAdd visited v) ≤ f := by
        have := unvis_setAdd hv hnv
        omega
      have hW0 : ∀ x ∈ visited, x ∈ setAdd visited v := fun x hx =>
        mem_setAdd_iff.2 (Or.inl hx)
      have hsub : ∀ q ∈ (dgetm radj v []).1, q ∈ RA v := by
        intro q hq
        rw [dgetm_fst_content, hA v] at hq
        exact hq
      obtain ⟨Δn, hn⟩ := hnbrsf (dgetm radj v []).2 visited (setAdd visited v)
        (comp ++ [v]) v (dgetm radj v []).1 hA2 hfuel2 hW0 hnv hsub
      have hvΔn : v ∉ Δn := fun h => hn.fresh v h (mem_setAdd_iff.2 (Or.inr rfl))
      refine ⟨v :: Δn, ⟨?_, ?_, List.mem_cons_self _ _, ?_, ?_, ?_, ?_, ?_, hn.adjA⟩⟩
      · rw [hn.comp_eq, List.append_assoc]
        rfl
      · intro x
        rw [hn.vis_iff x, mem_setAdd_iff, List.mem_cons]
        tauto
      · intro y hy
        rcases List.mem_cons.1 hy with hy | hy
        · rw [hy]; exact ReachAvoid.refl hnv
        · exact hn.sound y hy
      · intro y hy
        rcases List.mem_cons.1 hy with hy | hy
        · rw [hy]; exact hnv
        · exact fun hmem => hn.fresh y hy (mem_setAdd_iff.2 (Or.inl hmem))
      · intro y hy
        rcases List.mem_cons.1 hy with hy | hy
        · rw [hy]; exact hv
        · exact hn.delta_vs y hy
      · intro y hy q hq
        rcases List.mem_cons.1 hy with hy | hy
        · have hq2 : q ∈ (dgetm radj v []).1 := by
            rw [dgetm_fst_content, hA v, ← hy]
            exact hq
          exact hn.done q hq2
        · exact hn.closure y hy q hq
      · rw [List.nodup_cons]
        exact ⟨hvΔn, hn.delta_nodup⟩
    exact ⟨hdfs, nbrs_step (f + 1) hdfs⟩

/-- The second-pass collection is complete: any reversed-graph path from `v`
avoiding the pre-visited set stays inside the collected set `Δ`. -/
theorem dfs2_complete {RA : V → List (V × Int)} {visited Δ finalVis : List V}
    (hvis : ∀ x, x ∈ finalVis ↔ x ∈ visited ∨ x ∈ Δ)
    (hclosure : ∀ y ∈ Δ, ∀ q ∈ RA y, q.1 ∈ finalVis) :
    ∀ {u y : V}, ReachAvoid (EdgeOf RA) visited u y → u ∈ Δ → y ∈ Δ := by
  intro u y h
  induction h with
  | refl _ => exact id
  | head h1 h2 hrest ih =>
    intro hmem
    obtain ⟨w, hw⟩ := h2
    rename_i a b _
    have hb : b ∈ finalVis := hclosure a hmem (b, w) hw
    rcases (hvis b).1 hb with h | h
    · exact absurd h (reachAvoid_start_not_mem hrest)
    · exact ih h

/-- A union of exact strong components is closed under mutual reachability. -/
theorem wclosed_of_exact {A : V → List (V × Int)} {W : List V} {comps : List (List V)}
    (hWiff : ∀ x, x ∈ W ↔ ∃ c ∈ comps, x ∈ c)
    (hexact : ∀ c ∈ comps, ∃ r0, ∀ y, y ∈ c ↔ MutReach A r0 y) :
    ∀ m ∈ W, ∀ y, MutReach A m y → y ∈ W := by
  intro m hm y hmy
  obtain ⟨c, hc, hmc⟩ := (hWiff m).1 hm
  obtain ⟨r0, hr0⟩ := hexact c hc
  have hm0 : MutReach A r0 m := (hr0 m).1 hmc
  exact (hWiff y).2 ⟨c, hc, (hr0 y).2 (mutReach_trans hm0 hmy)⟩

/-- Exactness of a single second-pass root collection: with the finish-order
domination property, the previously collected components being exact, and the
processed suffix already collected, the new collection `Δ` is precisely the
strong component of its root `r`. -/
theorem scc_root_exact
    {A RA : V → List (V × Int)} {vs ord W done rest' : List V} {r : V}
    (hkeysA : ∀ u : V, ∀ q ∈ A u, u ∈ vs)
    (hRAflip : ∀ a b : V, EdgeOf RA a b → EdgeOf A b a)
    (hRAmk : ∀ a b : V, (b ∈ vs ∧ EdgeOf A b a) → EdgeOf RA a b)
    (hnd : ord.Nodup)
    (hdom : ∀ x ∈ ord, DomAt A ord [] x)
    (hcovOrd : ∀ x ∈ vs, x ∈ ord)
    (hordRev : ord.reverse = done ++ r :: rest')
    (hWdone : ∀ x ∈ done, x ∈ W)
    (hWclosed : ∀ m ∈ W, ∀ y : V, MutReach A m y → y ∈ W)
    (hrW : r ∉ W)
    {Δ finalVis : List V}
    (hsound : ∀ y ∈ Δ, ReachAvoid (EdgeOf RA) W r y)
    (hfresh : ∀ y ∈ Δ, y ∉ W)
    (hdvs : ∀ y ∈ Δ, y ∈ vs)
    (hvisiff : ∀ x, x ∈ finalVis ↔ x ∈ W ∨ x ∈ Δ)
    (hclosure : ∀ y ∈ Δ, ∀ q ∈ RA y, q.1 ∈ finalVis)
    (hrmem : r ∈ Δ) :
    ∀ y, y ∈ Δ ↔ MutReach A r y := by
  have hord2 : ord = rest'.reverse ++ r :: done.reverse := by
    have hrr := congrArg List.reverse hordRev
    rw [List.reverse_reverse] at hrr
    rw [hrr, List.reverse_append, List.reverse_cons, List.append_assoc,
      List.singleton_append]
  intro y
  constructor
  · intro hy
    by_cases hyr : y = r
    · rw [hyr]; exact mutReach_refl A r
    · have h1 : Reach A y r :=
        reach_flip hRAflip (reachAvoid_to_reflTransGen (hsound y hy))
      have hyo : y ∈ ord := hcovOrd y (hdvs y hy)
      rcases hdom y hyo r h1 with ⟨m, hym, hmy, hble⟩ | ⟨a, ha, _⟩
      · by_cases hmr : m = r
        · subst hmr
          exact ⟨hmy, h1⟩
        · obtain ⟨l1, l2, hsp, hr1⟩ := hble
          have hrl1 : r ∈ l1 := by
            rcases hr1 with h | h
            · exact absurd h.symm hmr
            · exact h
          have hndsp : (l1 ++ m :: l2).Nodup := by rw [← hsp]; exact hnd
          have hidx0 := indexOf_lt_of_before l1 l2 hndsp hrl1
          rw [← hsp] at hidx0
          have hmord : m ∈ ord := ble_mem_right ⟨l1, l2, hsp, hr1⟩
          rw [hord2] at hnd hmord hidx0
          have hmdone := mem_right_of_indexOf_gt rest'.reverse done.reverse hnd
            hmord hidx0
          have hmW : m ∈ W := hWdone m (List.mem_reverse.1 hmdone)
          exact absurd (hWclosed m hmW y ⟨hmy, hym⟩) (hfresh y hy)
      · exact absurd ha (List.not_mem_nil a)
  · intro hmut
    exact dfs2_complete hvisiff hclosure
      (mutpath_to_reachAvoid hkeysA hRAmk hWclosed hmut.2 hrW hmut.1) hrmem

/-- Outer loop of the second pass: folding the component collection over the
reversed finish order yields pairwise-disjoint exact strong components
covering every processed vertex. -/
theorem sccPass2_fold
    (A RA : V → List (V × Int)) (vs ord : List V) (fuel : Nat)
    (hkeysA : ∀ u : V, ∀ q ∈ A u, u ∈ vs)
    (hRnbr : ∀ u : V, ∀ q ∈ RA u, q.1 ∈ vs)
    (hRAflip : ∀ a b : V, EdgeOf RA a b → EdgeOf A b a)
    (hRAmk : ∀ a b : V, (b ∈ vs ∧ EdgeOf A b a) → EdgeOf RA a b)
    (hnd : ord.Nodup)
    (hdom : ∀ x ∈ ord, DomAt A ord [] x)
    (hcovOrd : ∀ x ∈ vs, x ∈ ord)
    (hordvs : ∀ x ∈ ord, x ∈ vs)
    (hfuel : vs.length ≤ fuel) :
    ∀ (rest done : List V) (st : List V × List (List V) × Adj V),
      ord.reverse = done ++ rest →
      (∀ x, x ∈ st.1 ↔ ∃ c ∈ st.2.1, x ∈ c) →
      (∀ x ∈ done, x ∈ st.1) →
      (∀ x ∈ st.1, x ∈ vs) →
      st.2.1.flatten.Nodup →
      (∀ c ∈ st.2.1, ∃ r0, ∀ y, y ∈ c ↔ MutReach A r0 y) →
      (∀ u, acontent st.2.2 u = RA u) →
      ((∀ x, x ∈ (rest.foldl (fun st v => if v ∈ st.1 then st else
          ((sccDfs2 fuel st.2.2 st.1 [] v).1,
            st.2.1 ++ [(sccDfs2 fuel st.2.2 st.1 [] v).2.1],
            (sccDfs2 fuel st.2.2 st.1 [] v).2.2)) st).1 ↔
          ∃ c ∈ (rest.foldl (fun st v => if v ∈ st.1 then st else
          ((sccDfs2 fuel st.2.2 st.1 [] v).1,
            st.2.1 ++ [(sccDfs2 fuel st.2.2 st.1 [] v).2.1],
            (sccDfs2 fuel st.2.2 st.1 [] v).2.2)) st).2.1, x ∈ c) ∧
        (∀ x ∈ rest, x ∈ (rest.foldl (fun st v => if v ∈ st.1 then st else
          ((sccDfs2 fuel st.2.2 st.1 [] v).1,
            st.2.1 ++ [(sccDfs2 fuel st.2.2 st.1 [] v).2.1],
            (sccDfs2 fuel st.2.2 st.1 [] v).2.2)) st).1) ∧
        (∀ x ∈ st.1, x ∈ (rest.foldl (fun st v => if v ∈ st.1 then st else
          ((sccDfs2 fuel st.2.2 st.1 [] v).1,
            st.2.1 ++ [(sccDfs2 fuel st.2.2 st.1 [] v).2.1],
            (sccDfs2 fuel st.2.2 st.1 [] v).2.2)) st).1) ∧
        (∀ x ∈ (rest.foldl (fun st v => if v ∈ st.1 then st else
          ((sccDfs2 fuel st.2.2 st.1 [] v).1,
            st.2.1 ++ [(sccDfs2 fuel st.2.2 st.1 [] v).2.1],
            (sccDfs2 fuel st.2.2 st.1 [] v).2.2)) st).1, x ∈ vs) ∧
        (rest.foldl (fun st v => if v ∈ st.1 then st else
          ((sccDfs2 fuel st.2.2 st.1 [] v).1,
            st.2.1 ++ [(sccDfs2 fuel st.2.2 st.1 [] v).2.1],
            (sccDfs2 fuel st.2.2 st.1 [] v).2.2)) st).2.1.flatten.Nodup ∧
        (∀ c ∈ (rest.foldl (fun st v => if v ∈ st.1 then st else
          ((sccDfs2 fuel st.2.2 st.1 [] v).1,
            st.2.1 ++ [(sccDfs2 fuel st.2.2 st.1 [] v).2.1],
            (sccDfs2 fuel st.2.2 st.1 [] v).2.2)) st).2.1,
          ∃ r0, ∀ y, y ∈ c ↔ MutReach A r0 y)) := by
  intro rest
  induction rest with
  | nil =>
    intro done st hordRev hWiff hWdone hWvs hflat hexact hadj
    exact ⟨hWiff, fun x hx => absurd hx (List.not_mem_nil x), fun x hx => hx,
      hWvs, hflat, hexact⟩
  | cons v rest' ih =>
    intro done st hordRev hWiff hWdone hWvs hflat hexact hadj
    rw [List.foldl_cons]
    have hordRev' : ord.reverse = (done ++ [v]) ++ rest' := by
      rw [hordRev, List.append_assoc, List.singleton_append]
    by_cases hv : v ∈ st.1
    · rw [if_pos hv]
      have hWdone' : ∀ x ∈ done ++ [v], x ∈ st.1 := by
        intro x hx
        rcases List.mem_append.1 hx with h | h
        · exact hWdone x h
        · rw [List.mem_singleton.1 h]; exact hv
      obtain ⟨i1, i2, i3, i4, i5, i6⟩ := ih (done ++ [v]) st hordRev' hWiff hWdone'
        hWvs hflat hexact hadj
      refine ⟨i1, ?_, i3, i4, i5, i6⟩
      intro x hx
      rcases List.mem_cons.1 hx with hx | hx
      · rw [hx]; exact i3 v hv
      · exact i2 x hx
    · rw [if_neg hv]
      have hvvs : v ∈ vs := by
        refine hordvs v (List.mem_reverse.1 ?_)
        rw [hordRev]
        exact List.mem_append.2 (Or.inr (List.mem_cons_self _ _))
      obtain ⟨Δ, hp⟩ := (sccDfs2_sound RA vs hRnbr fuel).1 st.2.2 st.1 [] v hadj
        hvvs hv (le_trans (unvisCount_le_length vs st.1) hfuel)
      have hcomp : (sccDfs2 fuel st.2.2 st.1 [] v).2.1 = Δ := by
        rw [hp.comp_eq, List.nil_append]
      have hWclosed := wclosed_of_exact hWiff hexact
      have hE : ∀ y, y ∈ Δ ↔ MutReach A v y :=
        scc_root_exact hkeysA hRAflip hRAmk hnd hdom hcovOrd hordRev hWdone
          hWclosed hv hp.sound hp.fresh hp.delta_vs hp.vis_iff hp.closure hp.v_mem
      have hWiff2 : ∀ x, x ∈ (sccDfs2 fuel st.2.2 st.1 [] v).1 ↔
          ∃ c ∈ st.2.1 ++ [(sccDfs2 fuel st.2.2 st.1 [] v).2.1], x ∈ c := by
        intro x
        rw [hp.vis_iff x, hcomp]
        constructor
        · rintro (hx | hx)
          · obtain ⟨c, hc, hxc⟩ := (hWiff x).1 hx
            exact ⟨c, List.mem_append.2 (Or.inl hc), hxc⟩
          · exact ⟨Δ, List.mem_append.2 (Or.inr (List.mem_singleton.2 rfl)), hx⟩
        · rintro ⟨c, hc, hxc⟩
          rcases List.mem_append.1 hc with hc | hc
          · exact Or.inl ((hWiff x).2 ⟨c, hc, hxc⟩)
          · rw [List.mem_singleton.1 hc] at hxc
            exact Or.inr hxc
      have hWdone2 : ∀ x ∈ done ++ [v], x ∈ (sccDfs2 fuel st.2.2 st.1 [] v).1 := by
        intro x hx
        rcases List.mem_append.1 hx with h | h
        · exact (hp.vis_iff x).2 (Or.inl (hWdone x h))
        · rw [List.mem_singleton.1 h]
          exact (hp.vis_iff v).2 (Or.inr hp.v_mem)
      have hWvs2 : ∀ x ∈ (sccDfs2 fuel st.2.2 st.1 [] v).1, x ∈ vs := by
        intro x hx
        rcases (hp.vis_iff x).1 hx with h | h
        · exact hWvs x h
        · exact hp.delta_vs x h
      have hflat2 : (st.2.1 ++ [(sccDfs2 fuel st.2.2 st.1 [] v).2.1]).flatten.Nodup := by
        rw [hcomp]
        rw [show (st.2.1 ++ [Δ]).flatten = st.2.1.flatten ++ Δ by simp]
        rw [List.nodup_append]
        refine ⟨hflat, hp.delta_nodup, ?_⟩
        intro a ha hb
        have haW : a ∈ st.1 := (hWiff a).2 (List.mem_flatten.1 ha)
        exact hp.fresh a hb haW
      have hexact2 : ∀ c ∈ st.2.1 ++ [(sccDfs2 fuel st.2.2 st.1 [] v).2.1],
          ∃ r0, ∀ y, y ∈ c ↔ MutReach A r0 y := by
        intro c hc
        rcases List.mem_append.1 hc with hc | hc
        · exact hexact c hc
        · rw [List.mem_singleton.1 hc, hcomp]
          exact ⟨v, hE⟩
      obtain ⟨i1, i2, i3, i4, i5, i6⟩ := ih (done ++ [v])
        ((sccDfs2 fuel st.2.2 st.1 [] v).1,
          st.2.1 ++ [(sccDfs2 fuel st.2.2 st.1 [] v).2.1],
          (sccDfs2 fuel st.2.2 st.1 [] v).2.2)
        hordRev' hWiff2 hWdone2 hWvs2 hflat2 hexact2 hp.adjA
      refine ⟨i1, ?_, ?_, i4, i5, i6⟩
      · intro x hx
        rcases List.mem_cons.1 hx with hx | hx
        · rw [hx]
          exact i3 v ((hp.vis_iff v).2 (Or.inr hp.v_mem))
        · exact i2 x hx
      · intro x hx
        exact i3 x ((hp.vis_iff x).2 (Or.inl hx))

/-- `find_scc` unfolded: the component list is the second-pass fold over the
reversed finish order of the first-pass fold. -/
theorem find_scc_eq (g : Graph V) :
    (find_scc g).1 =
      ((g.vertices.foldl (fun (st : List V × List V × Adj V) v =>
          if v ∈ st.1 then st else sccDfs1 (fuelOf g) st.2.2 st.1 st.2.1 v)
          ([], [], g.adj_list)).2.1.reverse.foldl
        (fun (st : List V × List (List V) × Adj V) v =>
          if v ∈ st.1 then st else
            ((sccDfs2 (fuelOf g) st.2.2 st.1 [] v).1,
              st.2.1 ++ [(sccDfs2 (fuelOf g) st.2.2 st.1 [] v).2.1],
              (sccDfs2 (fuelOf g) st.2.2 st.1 [] v).2.2))
        ([], [],
          (reverse_graph g.vertices
            (g.vertices.foldl (fun (st : List V × List V × Adj V) v =>
              if v ∈ st.1 then st else sccDfs1 (fuelOf g) st.2.2 st.1 st.2.1 v)
              ([], [], g.adj_list)).2.2).1)).2.1 := rfl

/-- Claim C6: on every graph satisfying the construction invariant, the list
of components returned by `find_scc` partitions the vertex set exactly —
every graph vertex appears in exactly one component, and two vertices lie in
the same component if and only if each is reachable from the other. -/
theorem claim_C6_kosaraju_scc (g : Graph V) (hwf : graphWF g) :
    (find_scc g).1.flatten.Nodup ∧
    (∀ x : V, x ∈ (find_scc g).1.flatten ↔ x ∈ g.vertices) ∧
    (∀ x y : V, x ∈ g.vertices → y ∈ g.vertices →
      ((∃ c ∈ (find_scc g).1, x ∈ c ∧ y ∈ c) ↔
        MutReach (acontent g.adj_list) x y)) := by
  have hkeys : ∀ u : V, ∀ q ∈ acontent g.adj_list u, u ∈ g.vertices := by
    intro u q hq
    unfold acontent dlookupD at hq
    rcases hl : dlookup g.adj_list u with _ | lst
    · rw [hl] at hq; simp at hq
    · exact (hwf.2 (u, lst) (dlookup_mem hl)).1
  have hnbr : ∀ u : V, ∀ q ∈ acontent g.adj_list u, q.1 ∈ g.vertices := by
    intro u q hq
    unfold acontent dlookupD at hq
    rcases hl : dlookup g.adj_list u with _ | lst
    · rw [hl] at hq; simp at hq
    · rw [hl] at hq
      simp only [Option.getD_some] at hq
      exact (hwf.2 (u, lst) (dlookup_mem hl)).2 q hq
  have hfuel : g.vertices.length ≤ fuelOf g := by
    unfold fuelOf
    omega
  obtain ⟨icov, ind, iovs, _, idom, iA, irest, _⟩ :=
    sccPass1_fold (acontent g.adj_list) g.vertices hnbr (fuelOf g) hfuel
      g.vertices (([] : List V), ([] : List V), g.adj_list)
      (fun x hx => hx) (fun x => Iff.rfl) List.nodup_nil
      (fun x hx => absurd hx (List.not_mem_nil x))
      (fun x hx => absurd hx (List.not_mem_nil x))
      (fun x hx => absurd hx (List.not_mem_nil x))
      (fun u => rfl)
  have hcovOrd : ∀ x ∈ g.vertices,
      x ∈ (g.vertices.foldl (fun (st : List V × List V × Adj V) v =>
        if v ∈ st.1 then st else sccDfs1 (fuelOf g) st.2.2 st.1 st.2.1 v)
        ([], [], g.adj_list)).2.1 :=
    fun x hx => (icov x).1 (irest x hx)
  have hmemRA := reverse_graph_mem (acontent g.adj_list) g.vertices
    (g.vertices.foldl (fun (st : List V × List V × Adj V) v =>
      if v ∈ st.1 then st else sccDfs1 (fuelOf g) st.2.2 st.1 st.2.1 v)
      ([], [], g.adj_list)).2.2 iA
  have hRnbr : ∀ u : V, ∀ q ∈ acontent (reverse_graph g.vertices
      (g.vertices.foldl (fun (st : List V × List V × Adj V) v =>
        if v ∈ st.1 then st else sccDfs1 (fuelOf g) st.2.2 st.1 st.2.1 v)
        ([], [], g.adj_list)).2.2).1 u, q.1 ∈ g.vertices := by
    intro u q hq
    obtain ⟨u2, hu2, w, hw, hqe⟩ := (hmemRA u q).1 hq
    rw [hqe]
    exact hu2
  have hRAflip : ∀ a b : V, EdgeOf (acontent (reverse_graph g.vertices
      (g.vertices.foldl (fun (st : List V × List V × Adj V) v =>
        if v ∈ st.1 then st else sccDfs1 (fuelOf g) st.2.2 st.1 st.2.1 v)
        ([], [], g.adj_list)).2.2).1) a b →
      EdgeOf (acontent g.adj_list) b a := by
    rintro a b ⟨w, hw⟩
    obtain ⟨u2, hu2, w2, hw2, hqe⟩ := (hmemRA a (b, w)).1 hw
    rw [Prod.mk.injEq] at hqe
    refine ⟨w2, ?_⟩
    rw [hqe.1]
    exact hw2
  have hRAmk : ∀ a b : V, (b ∈ g.vertices ∧ EdgeOf (acontent g.adj_list) b a) →
      EdgeOf (acontent (reverse_graph g.vertices
        (g.vertices.foldl (fun (st : List V × List V × Adj V) v =>
          if v ∈ st.1 then st else sccDfs1 (fuelOf g) st.2.2 st.1 st.2.1 v)
          ([], [], g.adj_list)).2.2).1) a b := by
    rintro a b ⟨hbvs, w, hw⟩
    exact ⟨w, (hmemRA a (b, w)).2 ⟨b, hbvs, w, hw, rfl⟩⟩
  obtain ⟨i1, i2, _, i4, i5, i6⟩ :=
    sccPass2_fold (acontent g.adj_list)
      (acontent (reverse_graph g.vertices
        (g.vertices.foldl (fun (st : List V × List V × Adj V) v =>
          if v ∈ st.1 then st else sccDfs1 (fuelOf g) st.2.2 st.1 st.2.1 v)
          ([], [], g.adj_list)).2.2).1)
      g.vertices
      (g.vertices.foldl (fun (st : List V × List V × Adj V) v =>
        if v ∈ st.1 then st else sccDfs1 (fuelOf g) st.2.2 st.1 st.2.1 v)
        ([], [], g.adj_list)).2.1
      (fuelOf g) hkeys hRnbr hRAflip hRAmk ind idom hcovOrd iovs hfuel
      (g.vertices.foldl (fun (st : List V × List V × Adj V) v =>
        if v ∈ st.1 then st else sccDfs1 (fuelOf g) st.2.2 st.1 st.2.1 v)
        ([], [], g.adj_list)).2.1.reverse
      ([] : List V)
      (([] : List V), ([] : List (List V)),
        (reverse_graph g.vertices
          (g.vertices.foldl (fun (st : List V × List V × Adj V) v =>
            if v ∈ st.1 then st else sccDfs1 (fuelOf g) st.2.2 st.1 st.2.1 v)
            ([], [], g.adj_list)).2.2).1)
      (List.nil_append _).symm
      (fun x => by simp)
      (fun x hx => absurd hx (List.not_mem_nil x))
      (fun x hx => absurd hx (List.not_mem_nil x))
      (by simp)
      (fun c hc => absurd hc (List.not_mem_nil c))
      (fun u => rfl)
  rw [find_scc_eq g]
  refine ⟨i5, ?_, ?_⟩
  · intro x
    constructor
    · intro hx
      obtain ⟨c, hc, hxc⟩ := List.mem_flatten.1 hx
      exact i4 x ((i1 x).2 ⟨c, hc, hxc⟩)
    · intro hx
      exact List.mem_flatten.2 ((i1 x).1 (i2 x (List.mem_reverse.2 (hcovOrd x hx))))
  · intro x y hx hy
    constructor
    · rintro ⟨c, hc, hxc, hyc⟩
      obtain ⟨r0, he⟩ := i6 c hc
      exact mutReach_trans (mutReach_symm ((he x).1 hxc)) ((he y).1 hyc)
    · intro hxy
      obtain ⟨c, hc, hxc⟩ := (i1 x).1 (i2 x (List.mem_reverse.2 (hcovOrd x hx)))
      obtain ⟨r0, he⟩ := i6 c hc
      exact ⟨c, hc, hxc, (he y).2 (mutReach_trans ((he x).1 hxc) hxy)⟩

/-- The SCC demonstration graph of `advanced_graph_algorithms.py`. -/
def sccDemoGraph : Graph Char :=
  buildGraph true [.addE 'A' 'B' 1, .addE 'B' 'C' 1, .addE 'C' 'A' 1,
    .addE 'B' 'D' 1, .addE 'D' 'E' 1, .addE 'E' 'F' 1, .addE 'F' 'D' 1,
    .addE 'G' 'F' 1, .addE 'G' 'H' 1, .addE 'H' 'I' 1, .addE 'I' 'J' 1,
    .addE 'J' 'G' 1]

/-- Witness for C6 on the demonstration graph of
`advanced_graph_algorithms.py`: the construction invariant is discharged by
the generic construction lemma, and the claim theorem instantiates to the
exact-partition property of its `find_scc` components. -/
theorem claim_C6_kosaraju_scc_witness :
    graphWF sccDemoGraph ∧
      ((find_scc sccDemoGraph).1.flatten.Nodup ∧
        (∀ x : Char, x ∈ (find_scc sccDemoGraph).1.flatten ↔ x ∈ sccDemoGraph.vertices) ∧
        (∀ x y : Char, x ∈ sccDemoGraph.vertices → y ∈ sccDemoGraph.vertices →
          ((∃ c ∈ (find_scc sccDemoGraph).1, x ∈ c ∧ y ∈ c) ↔
            MutReach (acontent sccDemoGraph.adj_list) x y))) :=
  ⟨buildGraph_wf true _, claim_C6_kosaraju_scc sccDemoGraph (buildGraph_wf true _)⟩

/-! ### Claim C7: Kruskal and Prim produce equal total MST weight.

First, correctness of the `DisjointSet` structure: ranks strictly increase
along parent chains, which bounds chain length by the domain size and shows
`find` (with path compression) and `union` (by rank) implement the partition
refinement semantics. -/

/-- Current parent of a vertex (a missing key maps to itself). -/
def parentOf (m : Dict V V) (v : V) : V := dlookupD m v v

/-- Iterated parent lookup without compression: the specification of `find`. -/
def rootD (fuel : Nat) (m : Dict V V) (v : V) : V :=
  match fuel with
  | 0 => v
  | f + 1 => if parentOf m v = v then v else rootD f m (parentOf m v)

/-- Chain-length measure: vertices of strictly larger rank. -/
def ufCnt (rank : Dict V Int) (dom : List V) (v : V) : Nat :=
  dom.countP (fun x => decide (dlookupD rank v 0 < dlookupD rank x 0))

/-- Disjoint-set invariant: parents stay in the domain and ranks strictly
increase along non-trivial parent edges. -/
structure UFInv (ds : DisjointSet V) (dom : List V) : Prop where
  closed : ∀ v ∈ dom, parentOf ds.parent v ∈ dom
  rk : ∀ v ∈ dom, parentOf ds.parent v ≠ v →
    dlookupD ds.rank v 0 < dlookupD ds.rank (parentOf ds.parent v) 0

theorem ufCnt_lt {ds : DisjointSet V} {dom : List V} (h : UFInv ds dom) {v : V}
    (hv : v ∈ dom) (hnr : parentOf ds.parent v ≠ v) :
    ufCnt ds.rank dom (parentOf ds.parent v) < ufCnt ds.rank dom v := by
  have hrk := h.rk v hv hnr
  have := countP_strict (l := dom) (h.closed v hv)
    (p := fun x => decide (dlookupD ds.rank v 0 < dlookupD ds.rank x 0))
    (q := fun x => decide (dlookupD ds.rank (parentOf ds.parent v) 0 < dlookupD ds.rank x 0))
    (fun x hx => by
      rw [decide_eq_true_eq] at hx
      rw [decide_eq_true_eq]
      omega)
    (by rw [decide_eq_true_eq]; exact hrk)
    (by rw [decide_eq_false_iff_not]; omega)
  unfold ufCnt
  omega

theorem ufCnt_le_length (rank : Dict V Int) (dom : List V) (v : V) :
    ufCnt rank dom v ≤ dom.length := List.countP_le_length _

theorem rootD_isRoot {ds : DisjointSet V} {dom : List V} (h : UFInv ds dom) :
    ∀ fuel (v : V), v ∈ dom → ufCnt ds.rank dom v < fuel →
      parentOf ds.parent (rootD fuel ds.parent v) = rootD fuel ds.parent v ∧
        rootD fuel ds.parent v ∈ dom := by
  intro fuel
  induction fuel with
  | zero => intro v _ hc; omega
  | succ f ih =>
    intro v hv hc
    rw [rootD]
    by_cases hr : parentOf ds.parent v = v
    · rw [if_pos hr]
      exact ⟨hr, hv⟩
    · rw [if_neg hr]
      have := ufCnt_lt h hv hr
      exact ih (parentOf ds.parent v) (h.closed v hv) (by omega)

theorem rootD_fuel_irrel {ds : DisjointSet V} {dom : List V} (h : UFInv ds dom) :
    ∀ f1 f2 (v : V), v ∈ dom → ufCnt ds.rank dom v < f1 → ufCnt ds.rank dom v < f2 →
      rootD f1 ds.parent v = rootD f2 ds.parent v := by
  intro f1
  induction f1 with
  | zero => intro f2 v _ hc; omega
  | succ g1 ih =>
    intro f2 v hv hc1 hc2
    rcases f2 with _ | g2
    · omega
    rw [rootD, rootD]
    by_cases hr : parentOf ds.parent v = v
    · rw [if_pos hr, if_pos hr]
    · rw [if_neg hr, if_neg hr]
      have := ufCnt_lt h hv hr
      exact ih g2 (parentOf ds.parent v) (h.closed v hv) (by omega) (by omega)

/-- Canonical root with the standard fuel. -/
def rootOf (ds : DisjointSet V) (dom : List V) (v : V) : V :=
  rootD (dom.length + 1) ds.parent v

theorem ufCnt_lt_fuel (rank : Dict V Int) (dom : List V) (v : V) :
    ufCnt rank dom v < dom.length + 1 := by
  have := ufCnt_le_length rank dom v
  omega

theorem rootOf_isRoot {ds : DisjointSet V} {dom : List V} (h : UFInv ds dom) {v : V}
    (hv : v ∈ dom) :
    parentOf ds.parent (rootOf ds dom v) = rootOf ds dom v ∧ rootOf ds dom v ∈ dom :=
  rootD_isRoot h _ v hv (ufCnt_lt_fuel _ _ _)

theorem rootOf_of_isRoot {ds : DisjointSet V} (dom : List V) {v : V}
    (hr : parentOf ds.parent v = v) : rootOf ds dom v = v := by
  unfold rootOf rootD
  rw [if_pos hr]

theorem rootOf_parent {ds : DisjointSet V} {dom : List V} (h : UFInv ds dom) {v : V}
    (hv : v ∈ dom) (hnr : parentOf ds.parent v ≠ v) :
    rootOf ds dom v = rootOf ds dom (parentOf ds.parent v) := by
  unfold rootOf
  rw [show rootD (dom.length + 1) ds.parent v
      = if parentOf ds.parent v = v then v else rootD dom.length ds.parent (parentOf ds.parent v)
    from rfl]
  rw [if_neg hnr]
  have hlt := ufCnt_lt h hv hnr
  have := ufCnt_lt_fuel ds.rank dom v
  exact rootD_fuel_irrel h dom.length (dom.length + 1) (parentOf ds.parent v)
    (h.closed v hv) (by omega) (ufCnt_lt_fuel _ _ _)

theorem rootOf_ne_self {ds : DisjointSet V} {dom : List V} (h : UFInv ds dom) {v : V}
    (hv : v ∈ dom) (hnr : parentOf ds.parent v ≠ v) : rootOf ds dom v ≠ v := by
  intro hEq
  exact hnr (by rw [← hEq] at hnr ⊢; exact (rootOf_isRoot h hv).1)

theorem rank_lt_root {ds : DisjointSet V} {dom : List V} (h : UFInv ds dom) :
    ∀ fuel (v : V), v ∈ dom → ufCnt ds.rank dom v < fuel →
      parentOf ds.parent v ≠ v →
      dlookupD ds.rank v 0 < dlookupD ds.rank (rootD fuel ds.parent v) 0 := by
  intro fuel
  induction fuel with
  | zero => intro v _ hc; omega
  | succ f ih =>
    intro v hv hc hnr
    rw [rootD, if_neg hnr]
    by_cases hp : parentOf ds.parent (parentOf ds.parent v) = parentOf ds.parent v
    · rw [show rootD f ds.parent (parentOf ds.parent v)
          = rootD f ds.parent (parentOf ds.parent v) from rfl]
      have hroot : rootD f ds.parent (parentOf ds.parent v) = parentOf ds.parent v := by
        rcases f with _ | f2
        · have := ufCnt_lt h hv hnr
          omega
        · rw [rootD, if_pos hp]
      rw [hroot]
      exact h.rk v hv hnr
    · have h1 := h.rk v hv hnr
      have h2 := ih (parentOf ds.parent v) (h.closed v hv)
        (by have := ufCnt_lt h hv hnr; omega) hp
      omega

theorem parentOf_dset_self (m : Dict V V) (v rt : V) :
    parentOf (dset m v rt) v = rt := by
  unfold parentOf dlookupD
  rw [dlookup_dset_self]
  rfl

theorem parentOf_dset_ne (m : Dict V V) {v x : V} (rt : V) (h : x ≠ v) :
    parentOf (dset m v rt) x = parentOf m x := by
  unfold parentOf dlookupD
  rw [dlookup_dset_ne _ _ (fun hEq => h hEq.symm)]

/-- Path compression preserves the invariant. -/
theorem ufInv_compress {ds : DisjointSet V} {dom : List V} (h : UFInv ds dom)
    {v : V} (hv : v ∈ dom) (hnr : parentOf ds.parent v ≠ v) :
    UFInv ⟨dset ds.parent v (rootOf ds dom v), ds.rank⟩ dom := by
  constructor
  · intro x hx
    by_cases hxv : x = v
    · subst hxv
      rw [show parentOf (dset ds.parent x (rootOf ds dom x)) x
          = rootOf ds dom x from parentOf_dset_self _ _ _]
      exact (rootOf_isRoot h hx).2
    · rw [show parentOf (dset ds.parent v (rootOf ds dom v)) x
          = parentOf ds.parent x from parentOf_dset_ne _ _ hxv]
      exact h.closed x hx
  · intro x hx hnr2
    by_cases hxv : x = v
    · subst hxv
      rw [show parentOf (dset ds.parent x (rootOf ds dom x)) x
          = rootOf ds dom x from parentOf_dset_self _ _ _]
      exact rank_lt_root h (dom.length + 1) x hx (ufCnt_lt_fuel _ _ _) hnr
    · rw [show parentOf (dset ds.parent v (rootOf ds dom v)) x
          = parentOf ds.parent x from parentOf_dset_ne _ _ hxv] at hnr2 ⊢
      exact h.rk x hx hnr2

/-- Linking one root below another preserves the invariant, provided the new
rank assignment keeps the linked root strictly smaller and only (possibly)
raises the surviving root's rank. -/
theorem ufInv_link {ds : DisjointSet V} {dom : List V} (h : UFInv ds dom) {rA rB : V}
    (hA : rA ∈ dom) (hra : parentOf ds.parent rA = rA)
    (hne : rA ≠ rB) {newRank : Dict V Int}
    (hrk : dlookupD newRank rB 0 < dlookupD newRank rA 0)
    (hother : ∀ x, x ≠ rA → dlookupD newRank x 0 = dlookupD ds.rank x 0)
    (hmono : dlookupD ds.rank rA 0 ≤ dlookupD newRank rA 0) :
    UFInv ⟨dset ds.parent rB rA, newRank⟩ dom := by
  constructor
  · intro x hx
    by_cases hxb : x = rB
    · subst hxb
      rw [show parentOf (dset ds.parent x rA) x = rA from parentOf_dset_self _ _ _]
      exact hA
    · rw [show parentOf (dset ds.parent rB rA) x
          = parentOf ds.parent x from parentOf_dset_ne _ _ hxb]
      exact h.closed x hx
  · intro x hx hnr2
    change parentOf (dset ds.parent rB rA) x ≠ x at hnr2
    change dlookupD newRank x 0
      < dlookupD newRank (parentOf (dset ds.parent rB rA) x) 0
    by_cases hxb : x = rB
    · subst hxb
      rw [show parentOf (dset ds.parent x rA) x = rA from parentOf_dset_self _ _ _]
      exact hrk
    · rw [show parentOf (dset ds.parent rB rA) x
          = parentOf ds.parent x from parentOf_dset_ne _ _ hxb] at hnr2 ⊢
      have hxa : x ≠ rA := by
        intro hEq
        rw [hEq] at hnr2
        exact hnr2 hra
      rw [hother x hxa]
      by_cases hpa : parentOf ds.parent x = rA
      · rw [hpa]
        have := h.rk x hx hnr2
        rw [hpa] at this
        omega
      · rw [hother _ hpa]
        exact h.rk x hx hnr2

/-- Redirecting `v`'s parent to a root `rt` (path compression when
`rt = rootOf v`, root linking when `v` itself is a root) rewires exactly the
class of `v` onto `rt` and leaves every other class's root unchanged. -/
theorem rootOf_redirect {ds ds' : DisjointSet V} {dom : List V} {v rt : V}
    (h : UFInv ds dom) (h' : UFInv ds' dom)
    (hp : ds'.parent = dset ds.parent v rt)
    (hv : v ∈ dom)
    (hne : rt ≠ v)
    (hcase : rootOf ds dom v = rt ∨ rootOf ds dom v = v)
    (hrtroot : parentOf ds.parent rt = rt) :
    ∀ x ∈ dom, rootOf ds' dom x
      = if rootOf ds dom x = rootOf ds dom v then rt else rootOf ds dom x := by
  have hrtroot' : parentOf ds'.parent rt = rt := by
    rw [hp, parentOf_dset_ne _ _ hne]
    exact hrtroot
  have hpv : parentOf ds'.parent v = rt := by
    rw [hp]
    exact parentOf_dset_self _ _ _
  suffices hstep : ∀ fuel, ∀ x ∈ dom, ufCnt ds'.rank dom x < fuel →
      rootOf ds' dom x
        = if rootOf ds dom x = rootOf ds dom v then rt else rootOf ds dom x by
    intro x hx
    exact hstep (dom.length + 1) x hx (ufCnt_lt_fuel _ _ _)
  intro fuel
  induction fuel with
  | zero => intro x _ hc; omega
  | succ f ih =>
    intro x hx hc
    by_cases hxv : x = v
    · subst hxv
      have h1 : rootOf ds' dom x = rt := by
        rw [rootOf_parent h' hx (by rw [hpv]; exact hne), hpv]
        exact rootOf_of_isRoot dom hrtroot'
      rw [h1, if_pos rfl]
    · by_cases hroot : parentOf ds.parent x = x
      · have hx' : parentOf ds'.parent x = x := by
          rw [hp, parentOf_dset_ne _ _ hxv]
          exact hroot
        rw [rootOf_of_isRoot dom hx', rootOf_of_isRoot dom hroot]
        by_cases hcond : x = rootOf ds dom v
        · rw [if_pos hcond]
          rcases hcase with hcase | hcase
          · rw [hcond, hcase]
          · rw [hcase] at hcond
            exact absurd hcond hxv
        · rw [if_neg hcond]
      · have hpx : parentOf ds'.parent x = parentOf ds.parent x := by
          rw [hp, parentOf_dset_ne _ _ hxv]
        have hnr' : parentOf ds'.parent x ≠ x := by
          rw [hpx]
          exact hroot
        have hmeas := ufCnt_lt h' hx hnr'
        rw [hpx] at hmeas
        have hrec := ih (parentOf ds.parent x) (h.closed x hx) (by omega)
        rw [rootOf_parent h' hx hnr', hpx, hrec, rootOf_parent h hx hroot]

/-- Specification of `DisjointSet.find`: it returns the canonical root,
preserves the invariant and the whole partition, never touches ranks, and
only rewrites parents to roots. -/
theorem dsFind_spec {dom : List V} :
    ∀ fuel (ds : DisjointSet V) (v : V), UFInv ds dom → v ∈ dom →
      ufCnt ds.rank dom v < fuel →
      (dsFind fuel ds v).1 = rootOf ds dom v ∧
      UFInv (dsFind fuel ds v).2 dom ∧
      (∀ x ∈ dom, rootOf (dsFind fuel ds v).2 dom x = rootOf ds dom x) ∧
      (dsFind fuel ds v).2.rank = ds.rank ∧
      (∀ x, parentOf (dsFind fuel ds v).2.parent x = parentOf ds.parent x ∨
        parentOf (dsFind fuel ds v).2.parent x = rootOf ds dom x) := by
  intro fuel
  induction fuel with
  | zero => intro ds v h hv hc; omega
  | succ f ih =>
    intro ds v h hv hc
    simp only [dsFind]
    by_cases hr : dlookupD ds.parent v v = v
    · rw [if_pos hr]
      exact ⟨(rootOf_of_isRoot dom hr).symm, h, fun x hx => rfl, rfl,
        fun x => Or.inl rfl⟩
    · rw [if_neg hr]
      have hnr : parentOf ds.parent v ≠ v := hr
      have hpdom : parentOf ds.parent v ∈ dom := h.closed v hv
      have hcnt : ufCnt ds.rank dom (parentOf ds.parent v) < f := by
        have := ufCnt_lt h hv hnr
        omega
      obtain ⟨hval, hinv2, hpres, hrank, htouch⟩ :=
        ih ds (parentOf ds.parent v) h hpdom hcnt
      have hvroot : rootOf ds dom v = rootOf ds dom (parentOf ds.parent v) :=
        rootOf_parent h hv hnr
      have hval2 : (dsFind f ds (parentOf ds.parent v)).1
          = rootOf (dsFind f ds (parentOf ds.parent v)).2 dom v := by
        rw [hval, hpres v hv, hvroot]
      have hnr2 : parentOf (dsFind f ds (parentOf ds.parent v)).2.parent v ≠ v := by
        rcases htouch v with ht | ht
        · rw [ht]; exact hnr
        · rw [ht]
          exact rootOf_ne_self h hv hnr
      have hinv3 : UFInv ⟨dset (dsFind f ds (parentOf ds.parent v)).2.parent v
          ((dsFind f ds (parentOf ds.parent v)).1),
          (dsFind f ds (parentOf ds.parent v)).2.rank⟩ dom := by
        rw [hval2]
        exact ufInv_compress hinv2 hv hnr2
      have hrtroot : parentOf (dsFind f ds (parentOf ds.parent v)).2.parent
          ((dsFind f ds (parentOf ds.parent v)).1)
          = (dsFind f ds (parentOf ds.parent v)).1 := by
        rw [hval2]
        exact (rootOf_isRoot hinv2 hv).1
      have hrtne : (dsFind f ds (parentOf ds.parent v)).1 ≠ v := by
        rw [hval2]
        exact rootOf_ne_self hinv2 hv hnr2
      have hredir := rootOf_redirect hinv2 hinv3 rfl hv hrtne
        (Or.inl hval2.symm) hrtroot
      refine ⟨?_, hinv3, ?_, ?_, ?_⟩
      · show dlookupD (dset (dsFind f ds (parentOf ds.parent v)).2.parent v
          ((dsFind f ds (parentOf ds.parent v)).1)) v v = rootOf ds dom v
        have : dlookup (dset (dsFind f ds (parentOf ds.parent v)).2.parent v
            ((dsFind f ds (parentOf ds.parent v)).1)) v
            = some ((dsFind f ds (parentOf ds.parent v)).1) := dlookup_dset_self _ _ _
        unfold dlookupD
        rw [this]
        rw [show (some ((dsFind f ds (parentOf ds.parent v)).1)).getD v
            = (dsFind f ds (parentOf ds.parent v)).1 from rfl]
        rw [hval, hvroot]
      · intro x hx
        show rootOf ⟨dset (dsFind f ds (parentOf ds.parent v)).2.parent v
            ((dsFind f ds (parentOf ds.parent v)).1),
            (dsFind f ds (parentOf ds.parent v)).2.rank⟩ dom x = rootOf ds dom x
        rw [hredir x hx]
        by_cases hcond : rootOf (dsFind f ds (parentOf ds.parent v)).2 dom x
            = rootOf (dsFind f ds (parentOf ds.parent v)).2 dom v
        · rw [if_pos hcond]
          rw [hpres x hx, hpres v hv] at hcond
          rw [hval, ← hvroot, ← hcond]
        · rw [if_neg hcond]
          exact hpres x hx
      · exact hrank
      · intro x
        show parentOf (dset (dsFind f ds (parentOf ds.parent v)).2.parent v
              ((dsFind f ds (parentOf ds.parent v)).1)) x = parentOf ds.parent x ∨
          parentOf (dset (dsFind f ds (parentOf ds.parent v)).2.parent v
              ((dsFind f ds (parentOf ds.parent v)).1)) x = rootOf ds dom x
        by_cases hxv : x = v
        · subst hxv
          refine Or.inr ?_
          rw [show parentOf (dset (dsFind f ds (parentOf ds.parent x)).2.parent x
              ((dsFind f ds (parentOf ds.parent x)).1)) x
            = (dsFind f ds (parentOf ds.parent x)).1 from parentOf_dset_self _ _ _]
          rw [hval, hvroot]
        · rw [show parentOf (dset (dsFind f ds (parentOf ds.parent v)).2.parent v
              ((dsFind f ds (parentOf ds.parent v)).1)) x
            = parentOf (dsFind f ds (parentOf ds.parent v)).2.parent x
            from parentOf_dset_ne _ _ hxv]
          exact htouch x

/-- The if-rewiring of a two-class merge, as an iff on class equality. -/
theorem merge_iff {ρx ρy rA rB : V} (hAB : rA ≠ rB)
    (hx : (if ρx = rB then rA else ρx) = (if ρy = rB then rA else ρy)) :
    ρx = ρy ∨ ((ρx = rA ∨ ρx = rB) ∧ (ρy = rA ∨ ρy = rB)) := by
  by_cases h1 : ρx = rB
  · rw [if_pos h1] at hx
    by_cases h2 : ρy = rB
    · rw [h1, h2]
      exact Or.inl rfl
    · rw [if_neg h2] at hx
      exact Or.inr ⟨Or.inr h1, Or.inl hx.symm⟩
  · rw [if_neg h1] at hx
    by_cases h2 : ρy = rB
    · rw [if_pos h2] at hx
      exact Or.inr ⟨Or.inl hx, Or.inr h2⟩
    · rw [if_neg h2] at hx
      exact Or.inl hx

theorem merge_iff_rev {ρx ρy rA rB : V}
    (h : ρx = ρy ∨ ((ρx = rA ∨ ρx = rB) ∧ (ρy = rA ∨ ρy = rB))) (hAB : rA ≠ rB) :
    (if ρx = rB then rA else ρx) = (if ρy = rB then rA else ρy) := by
  rcases h with h | ⟨h1, h2⟩
  · rw [h]
  · have e1 : (if ρx = rB then rA else ρx) = rA := by
      rcases h1 with h1 | h1
      · rw [if_neg (by rw [h1]; exact hAB), h1]
      · rw [if_pos h1]
    have e2 : (if ρy = rB then rA else ρy) = rA := by
      rcases h2 with h2 | h2
      · rw [if_neg (by rw [h2]; exact hAB), h2]
      · rw [if_pos h2]
    rw [e1, e2]

/-- Specification of `DisjointSet.union`: the invariant is preserved and the
classes of the two arguments are merged, all other classes unchanged. -/
theorem dsUnion_spec {dom : List V} (fuel : Nat) (ds : DisjointSet V) (v1 v2 : V)
    (h : UFInv ds dom) (hv1 : v1 ∈ dom) (hv2 : v2 ∈ dom)
    (hfuel : dom.length < fuel) :
    UFInv (dsUnion fuel ds v1 v2) dom ∧
    (∀ x ∈ dom, ∀ y ∈ dom,
      (rootOf (dsUnion fuel ds v1 v2) dom x = rootOf (dsUnion fuel ds v1 v2) dom y ↔
        (rootOf ds dom x = rootOf ds dom y ∨
          ((rootOf ds dom x = rootOf ds dom v1 ∨ rootOf ds dom x = rootOf ds dom v2) ∧
            (rootOf ds dom y = rootOf ds dom v1 ∨
              rootOf ds dom y = rootOf ds dom v2))))) := by
  have hc1 : ufCnt ds.rank dom v1 < fuel :=
    lt_of_le_of_lt (ufCnt_le_length _ _ _) hfuel
  obtain ⟨e1, hinv1, hpres1, hrank1, _⟩ := dsFind_spec fuel ds v1 h hv1 hc1
  have hc2 : ufCnt (dsFind fuel ds v1).2.rank dom v2 < fuel :=
    lt_of_le_of_lt (ufCnt_le_length _ _ _) hfuel
  obtain ⟨e2, hinv2, hpres2, hrank2, _⟩ :=
    dsFind_spec fuel (dsFind fuel ds v1).2 v2 hinv1 hv2 hc2
  simp only [dsUnion]
  set dsA := (dsFind fuel (dsFind fuel ds v1).2 v2).2 with hdsA
  have hpres : ∀ x ∈ dom, rootOf dsA dom x = rootOf ds dom x := by
    intro x hx
    rw [hpres2 x hx, hpres1 x hx]
  have hr1 : (dsFind fuel ds v1).1 = rootOf ds dom v1 := e1
  have hr2 : (dsFind fuel (dsFind fuel ds v1).2 v2).1 = rootOf ds dom v2 := by
    rw [e2, hpres1 v2 hv2]
  have hroot1 : parentOf dsA.parent (rootOf ds dom v1) = rootOf ds dom v1 := by
    have := (rootOf_isRoot hinv2 hv1).1
    rw [hpres v1 hv1] at this
    exact this
  have hroot2 : parentOf dsA.parent (rootOf ds dom v2) = rootOf ds dom v2 := by
    have := (rootOf_isRoot hinv2 hv2).1
    rw [hpres v2 hv2] at this
    exact this
  have hmem1 : rootOf ds dom v1 ∈ dom := by
    have := (rootOf_isRoot h hv1).2
    exact this
  have hmem2 : rootOf ds dom v2 ∈ dom := by
    have := (rootOf_isRoot h hv2).2
    exact this
  by_cases hsame : (dsFind fuel ds v1).1 = (dsFind fuel (dsFind fuel ds v1).2 v2).1
  · rw [if_pos hsame]
    rw [hr1, hr2] at hsame
    refine ⟨hinv2, ?_⟩
    intro x hx y hy
    rw [hpres x hx, hpres y hy]
    constructor
    · exact fun hEq => Or.inl hEq
    · rintro (hEq | ⟨hx1, hy1⟩)
      · exact hEq
      · have ex : rootOf ds dom x = rootOf ds dom v1 := by
          rcases hx1 with h1 | h1
          · exact h1
          · rw [h1, ← hsame]
        have ey : rootOf ds dom y = rootOf ds dom v1 := by
          rcases hy1 with h1 | h1
          · exact h1
          · rw [h1, ← hsame]
        rw [ex, ey]
  · rw [if_neg hsame]
    rw [hr1, hr2] at hsame
    rw [hr1, hr2]
    have hlink : ∀ (rA rB : V), rA ∈ dom → rB ∈ dom →
        parentOf dsA.parent rA = rA → parentOf dsA.parent rB = rB → rA ≠ rB →
        ∀ (newRank : Dict V Int),
        dlookupD newRank rB 0 < dlookupD newRank rA 0 →
        (∀ x, x ≠ rA → dlookupD newRank x 0 = dlookupD dsA.rank x 0) →
        dlookupD dsA.rank rA 0 ≤ dlookupD newRank rA 0 →
        UFInv ⟨dset dsA.parent rB rA, newRank⟩ dom ∧
        ∀ x ∈ dom, rootOf ⟨dset dsA.parent rB rA, newRank⟩ dom x
          = if rootOf ds dom x = rB then rA else rootOf ds dom x := by
      intro rA rB hA hB hra hrb hne newRank hrk hother hmono
      have hinvL := ufInv_link hinv2 hA hra hne hrk hother hmono
      refine ⟨hinvL, ?_⟩
      intro x hx
      have hred := rootOf_redirect hinv2 hinvL rfl hB hne
        (Or.inr (rootOf_of_isRoot dom hrb)) hra x hx
      rw [hred, rootOf_of_isRoot dom hrb, hpres x hx]
    have hiff : ∀ (rA rB : V) (dsN : DisjointSet V), rA ≠ rB →
        (rA = rootOf ds dom v1 ∧ rB = rootOf ds dom v2 ∨
          rA = rootOf ds dom v2 ∧ rB = rootOf ds dom v1) →
        (∀ x ∈ dom, rootOf dsN dom x
          = if rootOf ds dom x = rB then rA else rootOf ds dom x) →
        (∀ x ∈ dom, ∀ y ∈ dom,
          (rootOf dsN dom x = rootOf dsN dom y ↔
            (rootOf ds dom x = rootOf ds dom y ∨
              ((rootOf ds dom x = rootOf ds dom v1 ∨
                rootOf ds dom x = rootOf ds dom v2) ∧
                (rootOf ds dom y = rootOf ds dom v1 ∨
                  rootOf ds dom y = rootOf ds dom v2))))) := by
      intro rA rB dsN hne hor hval x hx y hy
      rw [hval x hx, hval y hy]
      constructor
      · intro hEq
        have := merge_iff hne hEq
        rcases hor with ⟨ha, hb⟩ | ⟨ha, hb⟩ <;> rw [← ha, ← hb] <;> tauto
      · intro hOr
        refine merge_iff_rev ?_ hne
        rcases hor with ⟨ha, hb⟩ | ⟨ha, hb⟩ <;> rw [← ha, ← hb] at hOr <;> tauto
    by_cases hb1 : dlookupD dsA.rank (rootOf ds dom v1) 0
        < dlookupD dsA.rank (rootOf ds dom v2) 0
    · rw [if_pos hb1]
      obtain ⟨hI, hV⟩ := hlink (rootOf ds dom v2) (rootOf ds dom v1) hmem2 hmem1
        hroot2 hroot1 (fun hEq => hsame hEq.symm) dsA.rank hb1
        (fun x _ => rfl) (le_refl _)
      exact ⟨hI, hiff _ _ _ (fun hEq => hsame hEq.symm) (Or.inr ⟨rfl, rfl⟩) hV⟩
    · rw [if_neg hb1]
      by_cases hb2 : dlookupD dsA.rank (rootOf ds dom v2) 0
          < dlookupD dsA.rank (rootOf ds dom v1) 0
      · rw [if_pos hb2]
        obtain ⟨hI, hV⟩ := hlink (rootOf ds dom v1) (rootOf ds dom v2) hmem1 hmem2
          hroot1 hroot2 hsame dsA.rank hb2 (fun x _ => rfl) (le_refl _)
        exact ⟨hI, hiff _ _ _ hsame (Or.inl ⟨rfl, rfl⟩) hV⟩
      · rw [if_neg hb2]
        have hrkB : dlookupD (dset dsA.rank (rootOf ds dom v1)
            (dlookupD dsA.rank (rootOf ds dom v1) 0 + 1)) (rootOf ds dom v2) 0
            < dlookupD (dset dsA.rank (rootOf ds dom v1)
              (dlookupD dsA.rank (rootOf ds dom v1) 0 + 1)) (rootOf ds dom v1) 0 := by
          unfold dlookupD
          rw [dlookup_dset_self, dlookup_dset_ne _ _ hsame]
          show (dlookup dsA.rank (rootOf ds dom v2)).getD 0
            < dlookupD dsA.rank (rootOf ds dom v1) 0 + 1
          unfold dlookupD at hb1 hb2 ⊢
          omega
        have hothB : ∀ x, x ≠ rootOf ds dom v1 →
            dlookupD (dset dsA.rank (rootOf ds dom v1)
              (dlookupD dsA.rank (rootOf ds dom v1) 0 + 1)) x 0
            = dlookupD dsA.rank x 0 := by
          intro x hxne
          unfold dlookupD
          rw [dlookup_dset_ne _ _ (fun hEq => hxne hEq.symm)]
        have hmonB : dlookupD dsA.rank (rootOf ds dom v1) 0
            ≤ dlookupD (dset dsA.rank (rootOf ds dom v1)
              (dlookupD dsA.rank (rootOf ds dom v1) 0 + 1)) (rootOf ds dom v1) 0 := by
          unfold dlookupD
          rw [dlookup_dset_self]
          show dlookupD dsA.rank (rootOf ds dom v1) 0
            ≤ dlookupD dsA.rank (rootOf ds dom v1) 0 + 1
          omega
        obtain ⟨hI, hV⟩ := hlink (rootOf ds dom v1) (rootOf ds dom v2) hmem1 hmem2
          hroot1 hroot2 hsame _ hrkB hothB hmonB
        exact ⟨hI, hiff _ _ _ hsame (Or.inl ⟨rfl, rfl⟩) hV⟩

theorem parentOf_foldl_id :
    ∀ (l : List V) (m : Dict V V), (∀ x, parentOf m x = x) →
      ∀ x, parentOf (l.foldl (fun m v => dset m v v) m) x = x := by
  intro l
  induction l with
  | nil => intro m hm x; exact hm x
  | cons v t ih =>
    intro m hm x
    rw [List.foldl_cons]
    refine ih _ ?_ x
    intro y
    by_cases hyv : y = v
    · subst hyv
      exact parentOf_dset_self _ _ _
    · rw [parentOf_dset_ne _ _ hyv]
      exact hm y

theorem parentOf_dsInit (verts : List V) (v : V) :
    parentOf (dsInit verts).parent v = v := by
  unfold dsInit
  refine parentOf_foldl_id verts [] ?_ v
  intro x
  unfold parentOf dlookupD dlookup
  rfl

theorem ufInv_dsInit (verts dom : List V) : UFInv (dsInit verts) dom := by
  constructor
  · intro v hv
    rw [parentOf_dsInit]
    exact hv
  · intro v _ hnr
    exact absurd (parentOf_dsInit verts v) hnr

theorem rootOf_dsInit (verts dom : List V) (v : V) : rootOf (dsInit verts) dom v = v :=
  rootOf_of_isRoot dom (parentOf_dsInit verts v)

/-! Undirected connectivity over a list of weighted edges, and the exchange
theory for spanning trees needed by both MST algorithms. -/

/-- One undirected step along an edge list. -/
def EStep (T : List (V × V × Int)) (x y : V) : Prop :=
  ∃ w : Int, (x, y, w) ∈ T ∨ (y, x, w) ∈ T

/-- Undirected connectivity over an edge list. -/
def EConn (T : List (V × V × Int)) : V → V → Prop :=
  Relation.ReflTransGen (EStep T)

theorem eStep_symm {T : List (V × V × Int)} {x y : V} (h : EStep T x y) : EStep T y x := by
  obtain ⟨w, hw⟩ := h
  exact ⟨w, hw.symm⟩

theorem econn_refl (T : List (V × V × Int)) (x : V) : EConn T x x :=
  Relation.ReflTransGen.refl

theorem econn_symm {T : List (V × V × Int)} {x y : V} (h : EConn T x y) : EConn T y x := by
  induction h with
  | refl => exact Relation.ReflTransGen.refl
  | tail h1 h2 ih => exact Relation.ReflTransGen.head (eStep_symm h2) ih

theorem econn_trans {T : List (V × V × Int)} {x y z : V}
    (h1 : EConn T x y) (h2 : EConn T y z) : EConn T x z :=
  Relation.ReflTransGen.trans h1 h2

theorem econn_mono {T T2 : List (V × V × Int)} (hsub : ∀ e ∈ T, e ∈ T2) {x y : V}
    (h : EConn T x y) : EConn T2 x y := by
  induction h with
  | refl => exact Relation.ReflTransGen.refl
  | tail h1 h2 ih =>
    obtain ⟨w, hw⟩ := h2
    refine Relation.ReflTransGen.tail ih ⟨w, ?_⟩
    rcases hw with hw | hw
    · exact Or.inl (hsub _ hw)
    · exact Or.inr (hsub _ hw)

theorem econn_congr {T T2 : List (V × V × Int)} (hiff : ∀ e, e ∈ T ↔ e ∈ T2) {x y : V} :
    EConn T x y ↔ EConn T2 x y :=
  ⟨econn_mono (fun e he => (hiff e).1 he), econn_mono (fun e he => (hiff e).2 he)⟩

theorem econn_nil {x y : V} (h : EConn [] x y) : x = y := by
  induction h with
  | refl => rfl
  | tail h1 h2 ih =>
    obtain ⟨w, hw⟩ := h2
    rcases hw with hw | hw <;> simp at hw

/-- Collapsing one distinguished edge: a path in `f :: M` either avoids `f`
or decomposes through `f`'s endpoints. -/
theorem econn_collapse {f : V × V × Int} {M : List (V × V × Int)} {x y : V}
    (h : EConn (f :: M) x y) :
    EConn M x y ∨ (EConn M x f.1 ∧ EConn M f.2.1 y) ∨
      (EConn M x f.2.1 ∧ EConn M f.1 y) := by
  induction h using Relation.ReflTransGen.head_induction_on with
  | refl => exact Or.inl Relation.ReflTransGen.refl
  | head hstep hrest ih =>
    rename_i u z
    obtain ⟨w, hw⟩ := hstep
    have hcases : ((u, z, w) = f ∨ (u, z, w) ∈ M) ∨ ((z, u, w) = f ∨ (z, u, w) ∈ M) := by
      rcases hw with hw | hw
      · exact Or.inl (List.mem_cons.1 hw)
      · exact Or.inr (List.mem_cons.1 hw)
    have estep : (u, z, w) = f ∨ (z, u, w) = f ∨ EStep M u z := by
      rcases hcases with (hc | hc) | (hc | hc)
      · exact Or.inl hc
      · exact Or.inr (Or.inr ⟨w, Or.inl hc⟩)
      · exact Or.inr (Or.inl hc)
      · exact Or.inr (Or.inr ⟨w, Or.inr hc⟩)
    rcases estep with hf | hf | hstep2
    · -- u = f.1, z = f.2.1
      have hu : u = f.1 := by rw [← hf]
      have hz : z = f.2.1 := by rw [← hf]
      rcases ih with ih | ⟨ih1, ih2⟩ | ⟨ih1, ih2⟩
      · refine Or.inr (Or.inl ⟨?_, ?_⟩)
        · rw [hu]; exact econn_refl M _
        · rw [← hz]; exact ih
      · refine Or.inr (Or.inl ⟨?_, ih2⟩)
        rw [hu]; exact econn_refl M _
      · refine Or.inl ?_
        rw [hu]
        exact ih2
    · -- z = f.1, u = f.2.1
      have hz : z = f.1 := by rw [← hf]
      have hu : u = f.2.1 := by rw [← hf]
      rcases ih with ih | ⟨ih1, ih2⟩ | ⟨ih1, ih2⟩
      · refine Or.inr (Or.inr ⟨?_, ?_⟩)
        · rw [hu]; exact econn_refl M _
        · rw [← hz]; exact ih
      · refine Or.inl ?_
        rw [hu]
        exact ih2
      · refine Or.inr (Or.inr ⟨?_, ih2⟩)
        rw [hu]; exact econn_refl M _
    · rcases ih with ih | ⟨ih1, ih2⟩ | ⟨ih1, ih2⟩
      · exact Or.inl (Relation.ReflTransGen.head hstep2 ih)
      · exact Or.inr (Or.inl ⟨Relation.ReflTransGen.head hstep2 ih1, ih2⟩)
      · exact Or.inr (Or.inr ⟨Relation.ReflTransGen.head hstep2 ih1, ih2⟩)

theorem mem_cons_eraseE {T : List (V × V × Int)} {f : V × V × Int} (hf : f ∈ T)
    (e : V × V × Int) : e ∈ T ↔ e ∈ f :: T.erase f := by
  by_cases he : e = f
  · subst he
    simp [hf]
  · rw [List.mem_cons, List.mem_erase_of_ne he]
    simp [he]

theorem econn_erase_self {T : List (V × V × Int)} {f : V × V × Int} (hf : f ∈ T)
    {x y : V} (h : EConn T x y) :
    EConn (T.erase f) x y ∨ (EConn (T.erase f) x f.1 ∧ EConn (T.erase f) f.2.1 y) ∨
      (EConn (T.erase f) x f.2.1 ∧ EConn (T.erase f) f.1 y) :=
  econn_collapse ((econn_congr (mem_cons_eraseE hf)).1 h)

theorem econn_erase_redundant {T : List (V × V × Int)} {f : V × V × Int} (hf : f ∈ T)
    (hc : EConn (T.erase f) f.1 f.2.1) {x y : V} (h : EConn T x y) :
    EConn (T.erase f) x y := by
  rcases econn_erase_self hf h with h | ⟨h1, h2⟩ | ⟨h1, h2⟩
  · exact h
  · exact econn_trans h1 (econn_trans hc h2)
  · exact econn_trans h1 (econn_trans (econn_symm hc) h2)

/-- Walks among vertices of a closed block stay on edges rooted in the block. -/
theorem econn_restrict {M : List (V × V × Int)} (P : V → Prop) [DecidablePred P]
    (hc1 : ∀ e ∈ M, P e.1 → P e.2.1) (hc2 : ∀ e ∈ M, P e.2.1 → P e.1)
    {x y : V} (h : EConn M x y) (hx : P x) :
    EConn (M.filter (fun e => decide (P e.1))) x y ∧ P y := by
  induction h with
  | refl => exact ⟨Relation.ReflTransGen.refl, hx⟩
  | tail h1 h2 ih =>
    obtain ⟨ihc, ihp⟩ := ih
    obtain ⟨w, hw⟩ := h2
    rename_i b c
    rcases hw with hw | hw
    · have hpc : P c := hc1 (b, c, w) hw ihp
      refine ⟨Relation.ReflTransGen.tail ihc ⟨w, Or.inl ?_⟩, hpc⟩
      rw [List.mem_filter]
      exact ⟨hw, by rw [decide_eq_true_eq]; exact ihp⟩
    · have hpc : P c := hc2 (c, b, w) hw ihp
      refine ⟨Relation.ReflTransGen.tail ihc ⟨w, Or.inr ?_⟩, hpc⟩
      rw [List.mem_filter]
      exact ⟨hw, by rw [decide_eq_true_eq]; exact hpc⟩

theorem length_filter_split (l : List V) (p : V → Bool) :
    (l.filter p).length + (l.filter (fun x => !p x)).length = l.length := by
  induction l with
  | nil => rfl
  | cons a t ih =>
    by_cases hp : p a = true
    · rw [List.filter_cons_of_pos hp, List.filter_cons_of_neg (by simp [hp])]
      simp only [List.length_cons]
      omega
    · rw [List.filter_cons_of_neg hp, List.filter_cons_of_pos (by simp [hp])]
      simp only [List.length_cons]
      omega

theorem countP_disjoint {p q : V × V × Int → Bool} {l : List (V × V × Int)}
    (h : ∀ x ∈ l, ¬(p x = true ∧ q x = true)) :
    l.countP p + l.countP q ≤ l.length := by
  induction l with
  | nil => simp
  | cons a t ih =>
    rw [List.countP_cons, List.countP_cons, List.length_cons]
    have hrec := ih (fun x hx => h x (List.mem_cons_of_mem _ hx))
    have ha := h a (List.mem_cons_self _ _)
    by_cases hp : p a = true
    · have hq : ¬ q a = true := fun hq => ha ⟨hp, hq⟩
      rw [if_pos hp, if_neg hq]
      omega
    · rw [if_neg hp]
      by_cases hq : q a = true
      · rw [if_pos hq]; omega
      · rw [if_neg hq]; omega

theorem spanning_nil_le {verts : List V} (hnd : verts.Nodup)
    (hspan : ∀ x ∈ verts, ∀ y ∈ verts, EConn ([] : List (V × V × Int)) x y) :
    verts.length ≤ 1 := by
  rcases verts with _ | ⟨v0, vt⟩
  · simp
  · rcases vt with _ | ⟨v1, vt2⟩
    · simp
    · have heq := econn_nil (hspan v0 (by simp) v1 (by simp))
      rw [List.nodup_cons] at hnd
      exact absurd (by rw [heq]; exact List.mem_cons_self _ _) hnd.1

/-- Counting lower bound: connecting `n` distinct vertices needs at least
`n - 1` edges. -/
theorem spanning_count_aux :
    ∀ (n : Nat) (T : List (V × V × Int)) (verts : List V), T.length ≤ n →
      verts.Nodup →
      (∀ e ∈ T, e.1 ∈ verts ∧ e.2.1 ∈ verts) →
      (∀ x ∈ verts, ∀ y ∈ verts, EConn T x y) →
      verts.length ≤ T.length + 1 := by
  intro n
  induction n with
  | zero =>
    intro T verts hlen hnd hend hspan
    have hT : T = [] := List.length_eq_zero.1 (le_antisymm hlen (Nat.zero_le _))
    subst hT
    have := spanning_nil_le hnd hspan
    simpa using this
  | succ m ih =>
    intro T verts hlen hnd hend hspan
    rcases T with _ | ⟨f, M⟩
    · have := spanning_nil_le hnd hspan
      simpa using this
    · classical
      have hf1 : f.1 ∈ verts := (hend f (List.mem_cons_self _ _)).1
      have hsubM : ∀ e ∈ M, e ∈ f :: M := fun e he => List.mem_cons_of_mem _ he
      -- the two blocks of `verts` relative to `M` and `f.1`
      have hsplit := length_filter_split verts (fun x => decide (EConn M f.1 x))
      -- closure of the `A`-side predicate
      have hcA1 : ∀ e ∈ M, EConn M f.1 e.1 → EConn M f.1 e.2.1 := by
        intro e he h1
        exact Relation.ReflTransGen.tail h1 ⟨e.2.2, Or.inl (by
          rw [show (e.1, e.2.1, e.2.2) = e from rfl]; exact he)⟩
      have hcA2 : ∀ e ∈ M, EConn M f.1 e.2.1 → EConn M f.1 e.1 := by
        intro e he h1
        exact Relation.ReflTransGen.tail h1 ⟨e.2.2, Or.inr (by
          rw [show (e.1, e.2.1, e.2.2) = e from rfl]; exact he)⟩
      -- A side
      have hA := ih (M.filter (fun e => decide (EConn M f.1 e.1)))
        (verts.filter (fun x => decide (EConn M f.1 x)))
        (by
          have := List.length_filter_le (fun e => decide (EConn M f.1 e.1)) M
          have hlen2 : M.length ≤ m := by
            rw [List.length_cons] at hlen
            omega
          omega)
        (hnd.filter _)
        (by
          intro e he
          rw [List.mem_filter] at he
          obtain ⟨heM, hec⟩ := he
          rw [decide_eq_true_eq] at hec
          constructor
          · rw [List.mem_filter, decide_eq_true_eq]
            exact ⟨(hend e (hsubM e heM)).1, hec⟩
          · rw [List.mem_filter, decide_eq_true_eq]
            exact ⟨(hend e (hsubM e heM)).2, hcA1 e heM hec⟩)
        (by
          intro x hx y hy
          rw [List.mem_filter, decide_eq_true_eq] at hx hy
          exact (econn_restrict (fun z => EConn M f.1 z) hcA1 hcA2
            (econn_trans (econn_symm hx.2) hy.2) hx.2).1)
      -- B side
      have hcB1 : ∀ e ∈ M, ¬EConn M f.1 e.1 → ¬EConn M f.1 e.2.1 := by
        intro e he h1 h2
        exact h1 (hcA2 e he h2)
      have hcB2 : ∀ e ∈ M, ¬EConn M f.1 e.2.1 → ¬EConn M f.1 e.1 := by
        intro e he h1 h2
        exact h1 (hcA1 e he h2)
      have hBspan : ∀ x ∈ verts, ¬EConn M f.1 x → ∀ y ∈ verts, ¬EConn M f.1 y →
          EConn M x y := by
        intro x hx hxc y hy hyc
        rcases econn_collapse (hspan x hx y hy) with h | ⟨h1, h2⟩ | ⟨h1, h2⟩
        · exact h
        · exact absurd (econn_symm h1) hxc
        · exact absurd h2 (fun hc => hyc hc)
      have hB := ih (M.filter (fun e => decide (¬EConn M f.1 e.1)))
        (verts.filter (fun x => decide (¬EConn M f.1 x)))
        (by
          have := List.length_filter_le (fun e => decide (¬EConn M f.1 e.1)) M
          have hlen2 : M.length ≤ m := by
            rw [List.length_cons] at hlen
            omega
          omega)
        (hnd.filter _)
        (by
          intro e he
          rw [List.mem_filter] at he
          obtain ⟨heM, hec⟩ := he
          rw [decide_eq_true_eq] at hec
          constructor
          · rw [List.mem_filter, decide_eq_true_eq]
            exact ⟨(hend e (hsubM e heM)).1, hec⟩
          · rw [List.mem_filter, decide_eq_true_eq]
            exact ⟨(hend e (hsubM e heM)).2, hcB1 e heM hec⟩)
        (by
          intro x hx y hy
          rw [List.mem_filter, decide_eq_true_eq] at hx hy
          exact (econn_restrict (fun z => ¬EConn M f.1 z) hcB1 hcB2
            (hBspan x hx.1 hx.2 y hy.1 hy.2) hx.2).1)
      -- edge counting between the two restricted edge lists
      have hedges : (M.filter (fun e => decide (EConn M f.1 e.1))).length +
          (M.filter (fun e => decide (¬EConn M f.1 e.1))).length ≤ M.length := by
        rw [← List.countP_eq_length_filter, ← List.countP_eq_length_filter]
        refine countP_disjoint ?_
        intro e he hcon
        obtain ⟨h1, h2⟩ := hcon
        rw [decide_eq_true_eq] at h1 h2
        exact h2 h1
      have hvsplit : (verts.filter (fun x => decide (EConn M f.1 x))).length +
          (verts.filter (fun x => decide (¬EConn M f.1 x))).length = verts.length := by
        have heq2 : verts.filter (fun x => decide (¬EConn M f.1 x))
            = verts.filter (fun x => !decide (EConn M f.1 x)) := by
          refine List.filter_congr ?_
          intro x hx
          simp
        rw [heq2, hsplit]
      rw [List.length_cons]
      omega

theorem spanning_count {T : List (V × V × Int)} {verts : List V} (hnd : verts.Nodup)
    (hend : ∀ e ∈ T, e.1 ∈ verts ∧ e.2.1 ∈ verts)
    (hspan : ∀ x ∈ verts, ∀ y ∈ verts, EConn T x y) :
    verts.length ≤ T.length + 1 :=
  spanning_count_aux T.length T verts (le_refl _) hnd hend hspan

/-- A spanning edge list of minimum cardinality has no duplicate edges. -/
theorem tree_nodup {T : List (V × V × Int)} {verts : List V} (hnd : verts.Nodup)
    (hend : ∀ e ∈ T, e.1 ∈ verts ∧ e.2.1 ∈ verts)
    (hspan : ∀ x ∈ verts, ∀ y ∈ verts, EConn T x y)
    (hcard : T.length + 1 = verts.length) : T.Nodup := by
  have hd := spanning_count hnd
    (fun e he => hend e (List.mem_dedup.1 he))
    (fun x hx y hy =>
      (econn_congr (fun e => (List.mem_dedup : e ∈ T.dedup ↔ e ∈ T))).2
        (hspan x hx y hy))
  have hsub := (List.dedup_sublist T).length_le
  have heq : T.dedup.length = T.length := by omega
  have hTeq : T.dedup = T := (List.dedup_sublist T).eq_of_length heq
  rw [← hTeq]
  exact List.nodup_dedup T

/-- Every edge of a spanning tree is a bridge. -/
theorem tree_bridge {T : List (V × V × Int)} {verts : List V} (hnd : verts.Nodup)
    (hend : ∀ e ∈ T, e.1 ∈ verts ∧ e.2.1 ∈ verts)
    (hspan : ∀ x ∈ verts, ∀ y ∈ verts, EConn T x y)
    (hcard : T.length + 1 = verts.length) {f : V × V × Int} (hf : f ∈ T) :
    ¬ EConn (T.erase f) f.1 f.2.1 := by
  intro hc
  have hspan2 : ∀ x ∈ verts, ∀ y ∈ verts, EConn (T.erase f) x y :=
    fun x hx y hy => econn_erase_redundant hf hc (hspan x hx y hy)
  have hend2 : ∀ e ∈ T.erase f, e.1 ∈ verts ∧ e.2.1 ∈ verts :=
    fun e he => hend e (List.erase_subset _ _ he)
  have hcount := spanning_count hnd hend2 hspan2
  have hlen := List.length_erase_of_mem hf
  have hpos : 1 ≤ T.length := List.length_pos_of_mem hf
  omega

/-- Removing one tree edge splits the vertices into (at most) the two
endpoint blocks. -/
theorem tree_blocks {T : List (V × V × Int)} {verts : List V}
    (hend : ∀ e ∈ T, e.1 ∈ verts ∧ e.2.1 ∈ verts)
    (hspan : ∀ x ∈ verts, ∀ y ∈ verts, EConn T x y)
    {f : V × V × Int} (hf : f ∈ T) :
    ∀ x ∈ verts, EConn (T.erase f) x f.1 ∨ EConn (T.erase f) x f.2.1 := by
  intro x hx
  have hf1 : f.1 ∈ verts := (hend f hf).1
  rcases econn_erase_self hf (hspan x hx f.1 hf1) with h | ⟨h1, h2⟩ | ⟨h1, h2⟩
  · exact Or.inl h
  · exact Or.inl h1
  · exact Or.inr h1

/-- A path from inside a cut to outside it crosses the cut on some edge. -/
theorem econn_cross {T : List (V × V × Int)} {S : V → Prop} {u v : V}
    (h : EConn T u v) (hv : ¬S v) :
    S u → ∃ g ∈ T, (S g.1 ∧ ¬S g.2.1) ∨ (S g.2.1 ∧ ¬S g.1) := by
  induction h using Relation.ReflTransGen.head_induction_on with
  | refl => intro hu; exact absurd hu hv
  | head hstep hrest ih =>
    rename_i a c
    intro ha
    by_cases hc : S c
    · exact ih hc
    · obtain ⟨w, hw⟩ := hstep
      rcases hw with hw | hw
      · exact ⟨(a, c, w), hw, Or.inl ⟨ha, hc⟩⟩
      · exact ⟨(c, a, w), hw, Or.inr ⟨ha, hc⟩⟩

theorem length_filter_lt {l : List V} {p : V → Bool} {b : V} (hb : b ∈ l)
    (hpb : p b = false) : (l.filter p).length < l.length := by
  induction l with
  | nil => simp at hb
  | cons a t ih =>
    rcases List.mem_cons.1 hb with hb | hb
    · subst hb
      rw [List.filter_cons_of_neg (by simp [hpb])]
      have := List.length_filter_le p t
      simp only [List.length_cons]
      omega
    · by_cases hpa : p a = true
      · rw [List.filter_cons_of_pos hpa]
        simp only [List.length_cons]
        exact Nat.succ_lt_succ (ih hb)
      · rw [List.filter_cons_of_neg (by simp at hpa ⊢; exact hpa)]
        simp only [List.length_cons]
        have := ih hb
        omega

theorem nodup_mem_erase_iff {l : List (V × V × Int)} (hnd : l.Nodup)
    {x f : V × V × Int} : x ∈ l.erase f ↔ x ≠ f ∧ x ∈ l := by
  constructor
  · intro hx
    have hxl : x ∈ l := List.erase_subset _ _ hx
    refine ⟨?_, hxl⟩
    intro hEq
    subst hEq
    exact List.Nodup.not_mem_erase hnd hx
  · rintro ⟨hne, hx⟩
    exact (List.mem_erase_of_ne hne).2 hx

/-- Cut-crossing edge selection inside a spanning tree: there is a crossing
tree edge whose removal separates the given endpoints. -/
theorem cross_select :
    ∀ (n : Nat) (T : List (V × V × Int)) (verts : List V) (S : V → Prop),
      verts.length ≤ n → verts.Nodup →
      (∀ e ∈ T, e.1 ∈ verts ∧ e.2.1 ∈ verts) →
      (∀ x ∈ verts, ∀ y ∈ verts, EConn T x y) →
      T.length + 1 = verts.length →
      ∀ u v : V, u ∈ verts → v ∈ verts → S u → ¬S v →
        ∃ f ∈ T, ((S f.1 ∧ ¬S f.2.1) ∨ (S f.2.1 ∧ ¬S f.1)) ∧
          ¬ EConn (T.erase f) u v := by
  intro n
  induction n with
  | zero =>
    intro T verts S hn hnd hend hspan hcard u v hu hv hSu hSv
    have := List.length_pos_of_mem hu
    omega
  | succ m ih =>
    intro T verts S hn hnd hend hspan hcard u v hu hv hSu hSv
    classical
    obtain ⟨g, hgT, hgX⟩ := econn_cross (hspan u hu v hv) hSv hSu
    by_cases hsep : EConn (T.erase g) u v
    · have hTnd : T.Nodup := tree_nodup hnd hend hspan hcard
      have hbridge : ¬ EConn (T.erase g) g.1 g.2.1 :=
        tree_bridge hnd hend hspan hcard hgT
      have hEnd : ∀ e ∈ T.erase g, e.1 ∈ verts ∧ e.2.1 ∈ verts :=
        fun e he => hend e (List.erase_subset _ _ he)
      have hEnodup : (T.erase g).Nodup := List.Nodup.erase _ hTnd
      have hg1v : g.1 ∈ verts := (hend g hgT).1
      have hg2v : g.2.1 ∈ verts := (hend g hgT).2
      have main : ∀ a0 b0 : V,
          ((a0 = g.1 ∧ b0 = g.2.1) ∨ (a0 = g.2.1 ∧ b0 = g.1)) →
          EConn (T.erase g) a0 u →
          ∃ f ∈ T, ((S f.1 ∧ ¬S f.2.1) ∨ (S f.2.1 ∧ ¬S f.1)) ∧
            ¬ EConn (T.erase f) u v := by
        intro a0 b0 hair hua
        have hav : EConn (T.erase g) a0 v := econn_trans hua hsep
        have hb0v : b0 ∈ verts := by
          rcases hair with ⟨_, hb⟩ | ⟨_, hb⟩
          · rw [hb]; exact hg2v
          · rw [hb]; exact hg1v
        have hab : ¬ EConn (T.erase g) a0 b0 := by
          rcases hair with ⟨ha, hb⟩ | ⟨ha, hb⟩
          · rw [ha, hb]; exact hbridge
          · rw [ha, hb]
            intro hc
            exact hbridge (econn_symm hc)
        have hP1 : ∀ e ∈ T.erase g, EConn (T.erase g) a0 e.1 →
            EConn (T.erase g) a0 e.2.1 := by
          intro e he h1
          exact Relation.ReflTransGen.tail h1 ⟨e.2.2, Or.inl (by
            rw [show (e.1, e.2.1, e.2.2) = e from rfl]; exact he)⟩
        have hP2 : ∀ e ∈ T.erase g, EConn (T.erase g) a0 e.2.1 →
            EConn (T.erase g) a0 e.1 := by
          intro e he h1
          exact Relation.ReflTransGen.tail h1 ⟨e.2.2, Or.inr (by
            rw [show (e.1, e.2.1, e.2.2) = e from rfl]; exact he)⟩
        have hQ1 : ∀ e ∈ T.erase g, EConn (T.erase g) b0 e.1 →
            EConn (T.erase g) b0 e.2.1 := by
          intro e he h1
          exact Relation.ReflTransGen.tail h1 ⟨e.2.2, Or.inl (by
            rw [show (e.1, e.2.1, e.2.2) = e from rfl]; exact he)⟩
        have hQ2 : ∀ e ∈ T.erase g, EConn (T.erase g) b0 e.2.1 →
            EConn (T.erase g) b0 e.1 := by
          intro e he h1
          exact Relation.ReflTransGen.tail h1 ⟨e.2.2, Or.inr (by
            rw [show (e.1, e.2.1, e.2.2) = e from rfl]; exact he)⟩
        have hcover : ∀ x ∈ verts,
            EConn (T.erase g) a0 x ∨ EConn (T.erase g) b0 x := by
          intro x hx
          have := tree_blocks hend hspan hgT x hx
          rcases hair with ⟨ha, hb⟩ | ⟨ha, hb⟩
          · rw [ha, hb]
            rcases this with h | h
            · exact Or.inl (econn_symm h)
            · exact Or.inr (econn_symm h)
          · rw [ha, hb]
            rcases this with h | h
            · exact Or.inr (econn_symm h)
            · exact Or.inl (econn_symm h)
        have hPQ : ∀ x, ¬(EConn (T.erase g) a0 x ∧ EConn (T.erase g) b0 x) := by
          rintro x ⟨h1, h2⟩
          exact hab (econn_trans h1 (econn_symm h2))
        -- block and edge filters
        have hAlen : (verts.filter (fun x => decide (EConn (T.erase g) a0 x))).length +
            (verts.filter (fun x => decide (EConn (T.erase g) b0 x))).length
            = verts.length := by
          have heq2 : verts.filter (fun x => decide (EConn (T.erase g) b0 x))
              = verts.filter (fun x => !decide (EConn (T.erase g) a0 x)) := by
            refine List.filter_congr ?_
            intro x hx
            by_cases hPx : EConn (T.erase g) a0 x
            · rw [decide_eq_true hPx,
                decide_eq_false (fun hq => hPQ x ⟨hPx, hq⟩)]
              rfl
            · rw [decide_eq_false hPx,
                decide_eq_true ((hcover x hx).resolve_left hPx)]
              rfl
          rw [heq2, length_filter_split]
        have hMAB : ((T.erase g).filter
              (fun e => decide (EConn (T.erase g) a0 e.1))).length +
            ((T.erase g).filter
              (fun e => decide (EConn (T.erase g) b0 e.1))).length
            ≤ (T.erase g).length := by
          rw [← List.countP_eq_length_filter, ← List.countP_eq_length_filter]
          refine countP_disjoint ?_
          intro e he hcon
          obtain ⟨h1, h2⟩ := hcon
          rw [decide_eq_true_eq] at h1 h2
          exact hPQ e.1 ⟨h1, h2⟩
        have hcountA := @spanning_count V _
          ((T.erase g).filter (fun e => decide (EConn (T.erase g) a0 e.1)))
          (verts.filter (fun x => decide (EConn (T.erase g) a0 x)))
          (hnd.filter _)
          (by
            intro e he
            rw [List.mem_filter, decide_eq_true_eq] at he
            obtain ⟨heE, hec⟩ := he
            constructor
            · rw [List.mem_filter, decide_eq_true_eq]
              exact ⟨(hEnd e heE).1, hec⟩
            · rw [List.mem_filter, decide_eq_true_eq]
              exact ⟨(hEnd e heE).2, hP1 e heE hec⟩)
          (by
            intro x hx y hy
            rw [List.mem_filter, decide_eq_true_eq] at hx hy
            exact (econn_restrict (fun z => EConn (T.erase g) a0 z) hP1 hP2
              (econn_trans (econn_symm hx.2) hy.2) hx.2).1)
        have hcountB := @spanning_count V _
          ((T.erase g).filter (fun e => decide (EConn (T.erase g) b0 e.1)))
          (verts.filter (fun x => decide (EConn (T.erase g) b0 x)))
          (hnd.filter _)
          (by
            intro e he
            rw [List.mem_filter, decide_eq_true_eq] at he
            obtain ⟨heE, hec⟩ := he
            constructor
            · rw [List.mem_filter, decide_eq_true_eq]
              exact ⟨(hEnd e heE).1, hec⟩
            · rw [List.mem_filter, decide_eq_true_eq]
              exact ⟨(hEnd e heE).2, hQ1 e heE hec⟩)
          (by
            intro x hx y hy
            rw [List.mem_filter, decide_eq_true_eq] at hx hy
            exact (econn_restrict (fun z => EConn (T.erase g) b0 z) hQ1 hQ2
              (econn_trans (econn_symm hx.2) hy.2) hx.2).1)
        have hElen : (T.erase g).length + 1 = T.length :=
          by
            have := List.length_erase_of_mem hgT
            have := List.length_pos_of_mem hgT
            omega
        have hcardA : ((T.erase g).filter
              (fun e => decide (EConn (T.erase g) a0 e.1))).length + 1
            = (verts.filter (fun x => decide (EConn (T.erase g) a0 x))).length := by
          omega
        have hPu : EConn (T.erase g) a0 u := hua
        have hPv : EConn (T.erase g) a0 v := hav
        have hbn : ¬ EConn (T.erase g) a0 b0 := hab
        have hAlt : (verts.filter (fun x => decide (EConn (T.erase g) a0 x))).length ≤ m := by
          have := length_filter_lt (p := fun x => decide (EConn (T.erase g) a0 x))
            hb0v (decide_eq_false hbn)
          omega
        obtain ⟨f, hfMA, hfX, hfsep⟩ := ih
          ((T.erase g).filter (fun e => decide (EConn (T.erase g) a0 e.1)))
          (verts.filter (fun x => decide (EConn (T.erase g) a0 x))) S
          hAlt (hnd.filter _)
          (by
            intro e he
            rw [List.mem_filter, decide_eq_true_eq] at he
            obtain ⟨heE, hec⟩ := he
            constructor
            · rw [List.mem_filter, decide_eq_true_eq]
              exact ⟨(hEnd e heE).1, hec⟩
            · rw [List.mem_filter, decide_eq_true_eq]
              exact ⟨(hEnd e heE).2, hP1 e heE hec⟩)
          (by
            intro x hx y hy
            rw [List.mem_filter, decide_eq_true_eq] at hx hy
            exact (econn_restrict (fun z => EConn (T.erase g) a0 z) hP1 hP2
              (econn_trans (econn_symm hx.2) hy.2) hx.2).1)
          hcardA u v
          (by rw [List.mem_filter, decide_eq_true_eq]; exact ⟨hu, hPu⟩)
          (by rw [List.mem_filter, decide_eq_true_eq]; exact ⟨hv, hPv⟩)
          hSu hSv
        have hfE : f ∈ T.erase g := (List.mem_filter.1 hfMA).1
        have hfP : EConn (T.erase g) a0 f.1 := by
          have := (List.mem_filter.1 hfMA).2
          rw [decide_eq_true_eq] at this
          exact this
        have hfg : f ≠ g := by
          intro hEq
          subst hEq
          exact List.Nodup.not_mem_erase hTnd hfE
        have hfT : f ∈ T := List.erase_subset _ _ hfE
        refine ⟨f, hfT, hfX, ?_⟩
        intro hcon
        have hgEf : g ∈ T.erase f := (List.mem_erase_of_ne (fun h => hfg h.symm)).2 hgT
        have hcon2 := (econn_congr (mem_cons_eraseE hgEf)).1 hcon
        have hcomm : (T.erase f).erase g = (T.erase g).erase f := List.erase_comm _ _ _
        rw [hcomm] at hcon2
        have hsubM : ∀ e ∈ (T.erase g).erase f, e ∈ T.erase g :=
          fun e he => List.erase_subset _ _ he
        have hP1' : ∀ e ∈ (T.erase g).erase f, EConn (T.erase g) a0 e.1 →
            EConn (T.erase g) a0 e.2.1 := fun e he => hP1 e (hsubM e he)
        have hP2' : ∀ e ∈ (T.erase g).erase f, EConn (T.erase g) a0 e.2.1 →
            EConn (T.erase g) a0 e.1 := fun e he => hP2 e (hsubM e he)
        rcases econn_collapse hcon2 with hc | ⟨h1, h2⟩ | ⟨h1, h2⟩
        · -- path avoiding g: restrict to the a0-block and contradict the IH
          have hres := (econn_restrict (fun z => EConn (T.erase g) a0 z)
            hP1' hP2' hc hPu).1
          refine hfsep ((econn_congr ?_).1 hres)
          intro e
          rw [List.mem_filter, nodup_mem_erase_iff hEnodup,
            nodup_mem_erase_iff (hEnodup.filter _), List.mem_filter]
          tauto
        · -- path through g: one side links a0's block to b0
          rcases hair with ⟨ha, hb⟩ | ⟨ha, hb⟩
          · have := (econn_restrict (fun z => EConn (T.erase g) a0 z)
              hP1' hP2' (econn_symm h2) hPv).2
            rw [← hb] at this
            exact hab this
          · have := (econn_restrict (fun z => EConn (T.erase g) a0 z)
              hP1' hP2' h1 hPu).2
            rw [← hb] at this
            exact hab this
        · rcases hair with ⟨ha, hb⟩ | ⟨ha, hb⟩
          · have := (econn_restrict (fun z => EConn (T.erase g) a0 z)
              hP1' hP2' h1 hPu).2
            rw [← hb] at this
            exact hab this
          · have := (econn_restrict (fun z => EConn (T.erase g) a0 z)
              hP1' hP2' (econn_symm h2) hPv).2
            rw [← hb] at this
            exact hab this
      rcases tree_blocks hend hspan hgT u hu with hub | hub
      · exact main g.1 g.2.1 (Or.inl ⟨rfl, rfl⟩) (econn_symm hub)
      · exact main g.2.1 g.1 (Or.inr ⟨rfl, rfl⟩) (econn_symm hub)
    · exact ⟨g, hgT, hgX, hsep⟩

/-- An edge of the graph in either stored orientation. -/
def GEdge (g : Graph V) (e : V × V × Int) : Prop :=
  e ∈ g.edges ∨ (e.2.1, e.1, e.2.2) ∈ g.edges

/-- Total weight of an edge list. -/
def eweight (T : List (V × V × Int)) : Int := (T.map (fun e => e.2.2)).sum

/-- Spanning tree of the graph. -/
structure SpanTree (g : Graph V) (T : List (V × V × Int)) : Prop where
  ged : ∀ e ∈ T, GEdge g e
  ends : ∀ e ∈ T, e.1 ∈ g.vertices ∧ e.2.1 ∈ g.vertices
  span : ∀ x ∈ g.vertices, ∀ y ∈ g.vertices, EConn T x y
  card : T.length + 1 = g.vertices.length

theorem eweight_cons (e : V × V × Int) (T : List (V × V × Int)) :
    eweight (e :: T) = e.2.2 + eweight T := by
  unfold eweight
  rw [List.map_cons, List.sum_cons]

theorem eweight_erase {T : List (V × V × Int)} {f : V × V × Int} (hf : f ∈ T) :
    f.2.2 + eweight (T.erase f) = eweight T := by
  induction T with
  | nil => cases hf
  | cons a t ih =>
    by_cases haf : a = f
    · subst haf
      rw [List.erase_cons_head, eweight_cons]
    · rw [List.erase_cons_tail (fun h => haf (eq_of_beq h)), eweight_cons,
        eweight_cons]
      have hft : f ∈ t := by
        rcases List.mem_cons.1 hf with h | h
        · exact absurd h.symm haf
        · exact h
      have := ih hft
      omega

/-- Swapping an edge across the separation keeps the graph spanning. -/
theorem swap_spans {T : List (V × V × Int)} {verts : List V}
    (hend : ∀ e ∈ T, e.1 ∈ verts ∧ e.2.1 ∈ verts)
    (hspan : ∀ x ∈ verts, ∀ y ∈ verts, EConn T x y)
    {f : V × V × Int} (hf : f ∈ T) {u v : V} (hu : u ∈ verts) (hv : v ∈ verts)
    (hsep : ¬ EConn (T.erase f) u v) (w : Int) :
    ∀ x ∈ verts, ∀ y ∈ verts, EConn ((u, v, w) :: T.erase f) x y := by
  have hx2 : ∀ x ∈ verts, EConn (T.erase f) x u ∨ EConn (T.erase f) x v := by
    intro x hx
    rcases tree_blocks hend hspan hf u hu with hub | hub <;>
      rcases tree_blocks hend hspan hf v hv with hvb | hvb
    · exact absurd (econn_trans hub (econn_symm hvb)) hsep
    · rcases tree_blocks hend hspan hf x hx with hxb | hxb
      · exact Or.inl (econn_trans hxb (econn_symm hub))
      · exact Or.inr (econn_trans hxb (econn_symm hvb))
    · rcases tree_blocks hend hspan hf x hx with hxb | hxb
      · exact Or.inr (econn_trans hxb (econn_symm hvb))
      · exact Or.inl (econn_trans hxb (econn_symm hub))
    · exact absurd (econn_trans hub (econn_symm hvb)) hsep
  have hsub : ∀ e ∈ T.erase f, e ∈ (u, v, w) :: T.erase f :=
    fun e he => List.mem_cons_of_mem _ he
  have huv : EConn ((u, v, w) :: T.erase f) u v :=
    Relation.ReflTransGen.single ⟨w, Or.inl (List.mem_cons_self _ _)⟩
  intro x hx y hy
  have hxc : EConn ((u, v, w) :: T.erase f) x u := by
    rcases hx2 x hx with h | h
    · exact econn_mono hsub h
    · exact econn_trans (econn_mono hsub h) (econn_symm huv)
  have hyc : EConn ((u, v, w) :: T.erase f) y u := by
    rcases hx2 y hy with h | h
    · exact econn_mono hsub h
    · exact econn_trans (econn_mono hsub h) (econn_symm huv)
  exact econn_trans hxc (econn_symm hyc)

/-- The exchange step: adding a minimum-weight cut-crossing edge to a forest
that some spanning tree extends keeps it extendable by a spanning tree of no
larger weight. -/
theorem exchange_step {g : Graph V} (hndv : g.vertices.Nodup)
    {T : List (V × V × Int)} (hT : SpanTree g T)
    {F : List (V × V × Int)} (hFT : ∀ e ∈ F, e ∈ T)
    (S : V → Prop)
    (hresp : ∀ e ∈ F, (S e.1 ↔ S e.2.1))
    {u v : V} {w : Int} (hu : u ∈ g.vertices) (hv : v ∈ g.vertices)
    (hSu : S u) (hSv : ¬S v) (hge : GEdge g (u, v, w))
    (hmin : ∀ e2, GEdge g e2 → ((S e2.1 ∧ ¬S e2.2.1) ∨ (S e2.2.1 ∧ ¬S e2.1)) →
      w ≤ e2.2.2) :
    ∃ T2, SpanTree g T2 ∧ (∀ e ∈ (u, v, w) :: F, e ∈ T2) ∧
      eweight T2 ≤ eweight T := by
  by_cases he : (u, v, w) ∈ T
  · refine ⟨T, hT, ?_, le_refl _⟩
    intro e he2
    rcases List.mem_cons.1 he2 with he2 | he2
    · rw [he2]; exact he
    · exact hFT e he2
  · obtain ⟨f, hfT, hfX, hfsep⟩ := cross_select g.vertices.length T g.vertices S
      (le_refl _) hndv hT.ends hT.span hT.card u v hu hv hSu hSv
    have hTpos : 1 ≤ T.length := List.length_pos_of_mem hfT
    have hlenE := List.length_erase_of_mem hfT
    refine ⟨(u, v, w) :: T.erase f, ⟨?_, ?_, ?_, ?_⟩, ?_, ?_⟩
    · intro e he2
      rcases List.mem_cons.1 he2 with he2 | he2
      · rw [he2]; exact hge
      · exact hT.ged e (List.erase_subset _ _ he2)
    · intro e he2
      rcases List.mem_cons.1 he2 with he2 | he2
      · rw [he2]; exact ⟨hu, hv⟩
      · exact hT.ends e (List.erase_subset _ _ he2)
    · exact swap_spans hT.ends hT.span hfT hu hv hfsep w
    · rw [List.length_cons]
      have := hT.card
      omega
    · intro e he2
      rcases List.mem_cons.1 he2 with he2 | he2
      · rw [he2]; exact List.mem_cons_self _ _
      · have heT : e ∈ T := hFT e he2
        have hef : e ≠ f := by
          intro hEq
          have := hresp e he2
          rw [hEq] at this
          rcases hfX with ⟨h1, h2⟩ | ⟨h1, h2⟩
          · exact h2 (this.1 h1)
          · exact h2 (this.2 h1)
        exact List.mem_cons_of_mem _ ((List.mem_erase_of_ne hef).2 heT)
    · rw [eweight_cons]
      show w + eweight (T.erase f) ≤ eweight T
      have hwf := eweight_erase hfT
      have hwle : w ≤ f.2.2 := hmin f (hT.ged f hfT) hfX
      omega

theorem length_le_of_nodup_subset {F T : List (V × V × Int)} (hnF : F.Nodup)
    (hsub : ∀ e ∈ F, e ∈ T) : F.length ≤ T.length := by
  have h1 : F.toFinset.card = F.length := List.toFinset_card_of_nodup hnF
  have h2 : F.toFinset ⊆ T.toFinset := by
    intro e he
    rw [List.mem_toFinset] at he ⊢
    exact hsub e he
  have h3 := Finset.card_le_card h2
  have h4 := List.toFinset_card_le T
  omega

theorem eweight_eq_of_subset {F T : List (V × V × Int)} (hnF : F.Nodup) (hnT : T.Nodup)
    (hsub : ∀ e ∈ F, e ∈ T) (hlen : F.length = T.length) : eweight F = eweight T := by
  have h1 : F.toFinset.card = F.length := List.toFinset_card_of_nodup hnF
  have h2 : T.toFinset.card = T.length := List.toFinset_card_of_nodup hnT
  have hss : F.toFinset ⊆ T.toFinset := by
    intro e he
    rw [List.mem_toFinset] at he ⊢
    exact hsub e he
  have hfe : F.toFinset = T.toFinset :=
    Finset.eq_of_subset_of_card_le hss (by omega)
  have hperm : F.Perm T := List.perm_of_nodup_nodup_toFinset_eq hnF hnT hfe
  unfold eweight
  exact (hperm.map _).sum_eq

theorem eweight_append_single (F : List (V × V × Int)) (e : V × V × Int) :
    eweight (F ++ [e]) = eweight F + e.2.2 := by
  unfold eweight
  rw [List.map_append, List.sum_append]
  simp

theorem econn_append_iff {F : List (V × V × Int)} {e : V × V × Int} {x y : V} :
    EConn (F ++ [e]) x y ↔
      (EConn F x y ∨ (EConn F x e.1 ∧ EConn F e.2.1 y) ∨
        (EConn F x e.2.1 ∧ EConn F e.1 y)) := by
  have hmem : ∀ q, q ∈ F ++ [e] ↔ q ∈ e :: F := by
    intro q
    rw [List.mem_append, List.mem_singleton, List.mem_cons]
    tauto
  have hsub : ∀ q ∈ F, q ∈ F ++ [e] := fun q hq => List.mem_append.2 (Or.inl hq)
  have hstep : EConn (F ++ [e]) e.1 e.2.1 := by
    refine Relation.ReflTransGen.single ⟨e.2.2, Or.inl ?_⟩
    rw [show (e.1, e.2.1, e.2.2) = e from rfl]
    exact List.mem_append.2 (Or.inr (List.mem_singleton.2 rfl))
  constructor
  · intro h
    exact econn_collapse ((econn_congr hmem).1 h)
  · rintro (h | ⟨h1, h2⟩ | ⟨h1, h2⟩)
    · exact econn_mono hsub h
    · exact econn_trans (econn_mono hsub h1)
        (econn_trans hstep (econn_mono hsub h2))
    · exact econn_trans (econn_mono hsub h1)
        (econn_trans (econn_symm hstep) (econn_mono hsub h2))

theorem merge_econn_iff {F : List (V × V × Int)} {e : V × V × Int} {x y : V} :
    (EConn F x y ∨ ((EConn F x e.1 ∨ EConn F x e.2.1) ∧
        (EConn F y e.1 ∨ EConn F y e.2.1))) ↔ EConn (F ++ [e]) x y := by
  rw [econn_append_iff]
  constructor
  · rintro (h | ⟨hx, hy⟩)
    · exact Or.inl h
    · rcases hx with hx | hx <;> rcases hy with hy | hy
      · exact Or.inl (econn_trans hx (econn_symm hy))
      · exact Or.inr (Or.inl ⟨hx, econn_symm hy⟩)
      · exact Or.inr (Or.inr ⟨hx, econn_symm hy⟩)
      · exact Or.inl (econn_trans hx (econn_symm hy))
  · rintro (h | ⟨h1, h2⟩ | ⟨h1, h2⟩)
    · exact Or.inl h
    · exact Or.inr ⟨Or.inl h1, Or.inr (econn_symm h2)⟩
    · exact Or.inr ⟨Or.inr h1, Or.inl (econn_symm h2)⟩

theorem econn_lift {E F : List (V × V × Int)}
    (h : ∀ f ∈ E, EConn F f.1 f.2.1) {x y : V} (hc : EConn E x y) : EConn F x y := by
  induction hc with
  | refl => exact Relation.ReflTransGen.refl
  | tail h1 h2 ih =>
    obtain ⟨w, hw⟩ := h2
    rename_i b c
    rcases hw with hw | hw
    · exact econn_trans ih (h (b, c, w) hw)
    · exact econn_trans ih (econn_symm (h (c, b, w) hw))

/-- Loop invariant of `kruskal`: union-find classes mirror forest
connectivity, processed edges are intra-component, the accepted forest is
extendable by a spanning tree of weight at most any given spanning tree. -/
theorem kruskal_fold (g : Graph V) (hndv : g.vertices.Nodup)
    (hwfe : ∀ e ∈ g.edges, e.1 ∈ g.vertices ∧ e.2.1 ∈ g.vertices) :
    ∀ (todo : List (V × V × Int)) (ds : DisjointSet V) (F : List (V × V × Int))
      (tot : Int),
      (∀ f ∈ todo, f ∈ g.edges) →
      List.Pairwise (fun a b : V × V × Int => a.2.2 ≤ b.2.2) todo →
      UFInv ds g.vertices →
      (∀ x ∈ g.vertices, ∀ y ∈ g.vertices,
        (rootOf ds g.vertices x = rootOf ds g.vertices y ↔ EConn F x y)) →
      (∀ e ∈ F, GEdge g e) →
      (∀ e ∈ F, e.1 ∈ g.vertices ∧ e.2.1 ∈ g.vertices) →
      F.Nodup →
      tot = eweight F →
      (∀ f ∈ g.edges, f ∉ todo → EConn F f.1 f.2.1) →
      (∀ T2, SpanTree g T2 → ∃ T, SpanTree g T ∧ (∀ e ∈ F, e ∈ T) ∧
        eweight T ≤ eweight T2) →
      ((∀ e ∈ (todo.foldl (fun (st : DisjointSet V × List (V × V × Int) × Int) e =>
          if (dsFind (g.vertices.length + 1) st.1 e.1).1
              ≠ (dsFind (g.vertices.length + 1)
                  (dsFind (g.vertices.length + 1) st.1 e.1).2 e.2.1).1 then
            (dsUnion (g.vertices.length + 1)
                (dsFind (g.vertices.length + 1)
                  (dsFind (g.vertices.length + 1) st.1 e.1).2 e.2.1).2 e.1 e.2.1,
              st.2.1 ++ [e], st.2.2 + e.2.2)
          else ((dsFind (g.vertices.length + 1)
              (dsFind (g.vertices.length + 1) st.1 e.1).2 e.2.1).2,
            st.2.1, st.2.2)) (ds, F, tot)).2.1, GEdge g e) ∧
        (∀ e ∈ (todo.foldl (fun (st : DisjointSet V × List (V × V × Int) × Int) e =>
          if (dsFind (g.vertices.length + 1) st.1 e.1).1
              ≠ (dsFind (g.vertices.length + 1)
                  (dsFind (g.vertices.length + 1) st.1 e.1).2 e.2.1).1 then
            (dsUnion (g.vertices.length + 1)
                (dsFind (g.vertices.length + 1)
                  (dsFind (g.vertices.length + 1) st.1 e.1).2 e.2.1).2 e.1 e.2.1,
              st.2.1 ++ [e], st.2.2 + e.2.2)
          else ((dsFind (g.vertices.length + 1)
              (dsFind (g.vertices.length + 1) st.1 e.1).2 e.2.1).2,
            st.2.1, st.2.2)) (ds, F, tot)).2.1,
          e.1 ∈ g.vertices ∧ e.2.1 ∈ g.vertices) ∧
        (todo.foldl (fun (st : DisjointSet V × List (V × V × Int) × Int) e =>
          if (dsFind (g.vertices.length + 1) st.1 e.1).1
              ≠ (dsFind (g.vertices.length + 1)
                  (dsFind (g.vertices.length + 1) st.1 e.1).2 e.2.1).1 then
            (dsUnion (g.vertices.length + 1)
                (dsFind (g.vertices.length + 1)
                  (dsFind (g.vertices.length + 1) st.1 e.1).2 e.2.1).2 e.1 e.2.1,
              st.2.1 ++ [e], st.2.2 + e.2.2)
          else ((dsFind (g.vertices.length + 1)
              (dsFind (g.vertices.length + 1) st.1 e.1).2 e.2.1).2,
            st.2.1, st.2.2)) (ds, F, tot)).2.1.Nodup ∧
        (todo.foldl (fun (st : DisjointSet V × List (V × V × Int) × Int) e =>
          if (dsFind (g.vertices.length + 1) st.1 e.1).1
              ≠ (dsFind (g.vertices.length + 1)
                  (dsFind (g.vertices.length + 1) st.1 e.1).2 e.2.1).1 then
            (dsUnion (g.vertices.length + 1)
                (dsFind (g.vertices.length + 1)
                  (dsFind (g.vertices.length + 1) st.1 e.1).2 e.2.1).2 e.1 e.2.1,
              st.2.1 ++ [e], st.2.2 + e.2.2)
          else ((dsFind (g.vertices.length + 1)
              (dsFind (g.vertices.length + 1) st.1 e.1).2 e.2.1).2,
            st.2.1, st.2.2)) (ds, F, tot)).2.2
          = eweight (todo.foldl
              (fun (st : DisjointSet V × List (V × V × Int) × Int) e =>
          if (dsFind (g.vertices.length + 1) st.1 e.1).1
              ≠ (dsFind (g.vertices.length + 1)
                  (dsFind (g.vertices.length + 1) st.1 e.1).2 e.2.1).1 then
            (dsUnion (g.vertices.length + 1)
                (dsFind (g.vertices.length + 1)
                  (dsFind (g.vertices.length + 1) st.1 e.1).2 e.2.1).2 e.1 e.2.1,
              st.2.1 ++ [e], st.2.2 + e.2.2)
          else ((dsFind (g.vertices.length + 1)
              (dsFind (g.vertices.length + 1) st.1 e.1).2 e.2.1).2,
            st.2.1, st.2.2)) (ds, F, tot)).2.1 ∧
        (∀ f ∈ g.edges, EConn (todo.foldl
            (fun (st : DisjointSet V × List (V × V × Int) × Int) e =>
          if (dsFind (g.vertices.length + 1) st.1 e.1).1
              ≠ (dsFind (g.vertices.length + 1)
                  (dsFind (g.vertices.length + 1) st.1 e.1).2 e.2.1).1 then
            (dsUnion (g.vertices.length + 1)
                (dsFind (g.vertices.length + 1)
                  (dsFind (g.vertices.length + 1) st.1 e.1).2 e.2.1).2 e.1 e.2.1,
              st.2.1 ++ [e], st.2.2 + e.2.2)
          else ((dsFind (g.vertices.length + 1)
              (dsFind (g.vertices.length + 1) st.1 e.1).2 e.2.1).2,
            st.2.1, st.2.2)) (ds, F, tot)).2.1 f.1 f.2.1) ∧
        (∀ T2, SpanTree g T2 → ∃ T, SpanTree g T ∧
          (∀ e ∈ (todo.foldl (fun (st : DisjointSet V × List (V × V × Int) × Int) e =>
          if (dsFind (g.vertices.length + 1) st.1 e.1).1
              ≠ (dsFind (g.vertices.length + 1)
                  (dsFind (g.vertices.length + 1) st.1 e.1).2 e.2.1).1 then
            (dsUnion (g.vertices.length + 1)
                (dsFind (g.vertices.length + 1)
                  (dsFind (g.vertices.length + 1) st.1 e.1).2 e.2.1).2 e.1 e.2.1,
              st.2.1 ++ [e], st.2.2 + e.2.2)
          else ((dsFind (g.vertices.length + 1)
              (dsFind (g.vertices.length + 1) st.1 e.1).2 e.2.1).2,
            st.2.1, st.2.2)) (ds, F, tot)).2.1, e ∈ T) ∧
          eweight T ≤ eweight T2)) := by
  intro todo
  induction todo with
  | nil =>
    intro ds F tot _ _ _ _ hged hends hnd htot hnc hext
    exact ⟨hged, hends, hnd, htot,
      fun f hf => hnc f hf (List.not_mem_nil f), hext⟩
  | cons e rest ih =>
    intro ds F tot htodo hsorted huf hpart hged hends hnd htot hnc hext
    rw [List.foldl_cons]
    have heg : e ∈ g.edges := htodo e (List.mem_cons_self _ _)
    have he1 : e.1 ∈ g.vertices := (hwfe e heg).1
    have he2 : e.2.1 ∈ g.vertices := (hwfe e heg).2
    have hfuel : ufCnt ds.rank g.vertices e.1 < g.vertices.length + 1 :=
      ufCnt_lt_fuel _ _ _
    obtain ⟨v1, hinv1, hpres1, _, _⟩ :=
      dsFind_spec (g.vertices.length + 1) ds e.1 huf he1 hfuel
    obtain ⟨v2, hinv2, hpres2, _, _⟩ :=
      dsFind_spec (g.vertices.length + 1)
        (dsFind (g.vertices.length + 1) ds e.1).2 e.2.1 hinv1 he2
        (ufCnt_lt_fuel _ _ _)
    set ds1 := (dsFind (g.vertices.length + 1) ds e.1).2 with hds1
    set ds2 := (dsFind (g.vertices.length + 1) ds1 e.2.1).2 with hds2
    have hpres12 : ∀ x ∈ g.vertices,
        rootOf ds2 g.vertices x = rootOf ds g.vertices x := by
      intro x hx
      rw [hpres2 x hx, hpres1 x hx]
    have hv1e : (dsFind (g.vertices.length + 1) ds e.1).1
        = rootOf ds g.vertices e.1 := v1
    have hv2e : (dsFind (g.vertices.length + 1) ds1 e.2.1).1
        = rootOf ds g.vertices e.2.1 := by
      rw [v2, hpres1 e.2.1 he2]
    by_cases hacc : (dsFind (g.vertices.length + 1) ds e.1).1
        ≠ (dsFind (g.vertices.length + 1) ds1 e.2.1).1
    · rw [if_pos hacc]
      rw [hv1e, hv2e] at hacc
      have hnconn : ¬ EConn F e.1 e.2.1 := by
        intro hc
        exact hacc ((hpart e.1 he1 e.2.1 he2).2 hc)
      have henotF : e ∉ F := by
        intro heF
        refine hnconn (Relation.ReflTransGen.single ⟨e.2.2, Or.inl ?_⟩)
        rw [show (e.1, e.2.1, e.2.2) = e from rfl]
        exact heF
      obtain ⟨huf3, hmerge⟩ := dsUnion_spec (g.vertices.length + 1) ds2 e.1 e.2.1
        hinv2 he1 he2 (by omega)
      have hpart3 : ∀ x ∈ g.vertices, ∀ y ∈ g.vertices,
          (rootOf (dsUnion (g.vertices.length + 1) ds2 e.1 e.2.1) g.vertices x
              = rootOf (dsUnion (g.vertices.length + 1) ds2 e.1 e.2.1) g.vertices y ↔
            EConn (F ++ [e]) x y) := by
        intro x hx y hy
        rw [hmerge x hx y hy]
        rw [hpres12 x hx, hpres12 y hy, hpres12 e.1 he1, hpres12 e.2.1 he2]
        rw [hpart x hx y hy, hpart x hx e.1 he1, hpart x hx e.2.1 he2,
          hpart y hy e.1 he1, hpart y hy e.2.1 he2]
        exact merge_econn_iff
      have hged3 : ∀ q ∈ F ++ [e], GEdge g q := by
        intro q hq
        rcases List.mem_append.1 hq with hq | hq
        · exact hged q hq
        · rw [List.mem_singleton.1 hq]
          exact Or.inl heg
      have hends3 : ∀ q ∈ F ++ [e], q.1 ∈ g.vertices ∧ q.2.1 ∈ g.vertices := by
        intro q hq
        rcases List.mem_append.1 hq with hq | hq
        · exact hends q hq
        · rw [List.mem_singleton.1 hq]
          exact ⟨he1, he2⟩
      have hnd3 : (F ++ [e]).Nodup := by
        simp [List.nodup_append, hnd, henotF]
      have hnc3 : ∀ f ∈ g.edges, f ∉ rest → EConn (F ++ [e]) f.1 f.2.1 := by
        intro f hf hfr
        by_cases hft : f ∈ e :: rest
        · rcases List.mem_cons.1 hft with hfe | hfe
          · subst hfe
            refine Relation.ReflTransGen.single ⟨f.2.2, Or.inl ?_⟩
            rw [show (f.1, f.2.1, f.2.2) = f from rfl]
            exact List.mem_append.2 (Or.inr (List.mem_singleton.2 rfl))
          · exact absurd hfe hfr
        · exact econn_mono (fun q hq => List.mem_append.2 (Or.inl hq))
            (hnc f hf hft)
      have hext3 : ∀ T2, SpanTree g T2 → ∃ T, SpanTree g T ∧
          (∀ q ∈ F ++ [e], q ∈ T) ∧ eweight T ≤ eweight T2 := by
        intro T2 hT2
        obtain ⟨T, hT, hFT, hwT⟩ := hext T2 hT2
        have hmin : ∀ e2, GEdge g e2 →
            ((EConn F e.1 e2.1 ∧ ¬EConn F e.1 e2.2.1) ∨
              (EConn F e.1 e2.2.1 ∧ ¬EConn F e.1 e2.1)) → e.2.2 ≤ e2.2.2 := by
          intro e2 hge2 hcross
          have hcore : ∀ f0, f0 ∈ g.edges → f0.2.2 = e2.2.2 →
              ((EConn F e.1 f0.1 ∧ ¬EConn F e.1 f0.2.1) ∨
                (EConn F e.1 f0.2.1 ∧ ¬EConn F e.1 f0.1)) → e.2.2 ≤ e2.2.2 := by
            intro f0 hf0 hw0 hcross0
            have hf0todo : f0 ∈ e :: rest := by
              by_contra hnot
              have := hnc f0 hf0 hnot
              rcases hcross0 with ⟨h1, h2⟩ | ⟨h1, h2⟩
              · exact h2 (econn_trans h1 this)
              · exact h2 (econn_trans h1 (econn_symm this))
            rcases List.mem_cons.1 hf0todo with hfe | hfe
            · rw [← hw0, hfe]
            · rw [← hw0]
              exact (List.pairwise_cons.1 hsorted).1 f0 hfe
          rcases hge2 with hge2 | hge2
          · exact hcore e2 hge2 rfl hcross
          · refine hcore (e2.2.1, e2.1, e2.2.2) hge2 rfl ?_
            rcases hcross with ⟨h1, h2⟩ | ⟨h1, h2⟩
            · exact Or.inr ⟨h1, h2⟩
            · exact Or.inl ⟨h1, h2⟩
        obtain ⟨T3, hT3, hT3mem, hT3w⟩ := exchange_step hndv hT hFT
          (fun z => EConn F e.1 z)
          (by
            intro q hq
            constructor
            · intro h1
              exact Relation.ReflTransGen.tail h1 ⟨q.2.2, Or.inl (by
                rw [show (q.1, q.2.1, q.2.2) = q from rfl]; exact hq)⟩
            · intro h1
              exact Relation.ReflTransGen.tail h1 ⟨q.2.2, Or.inr (by
                rw [show (q.1, q.2.1, q.2.2) = q from rfl]; exact hq)⟩)
          he1 he2 (econn_refl F e.1) hnconn (Or.inl (by
            rw [show (e.1, e.2.1, e.2.2) = e from rfl]; exact heg))
          hmin
        refine ⟨T3, hT3, ?_, le_trans hT3w hwT⟩
        intro q hq
        rcases List.mem_append.1 hq with hq | hq
        · exact hT3mem q (List.mem_cons_of_mem _ hq)
        · rw [List.mem_singleton.1 hq]
          exact hT3mem _ (List.mem_cons_self _ _)
      exact ih (dsUnion (g.vertices.length + 1) ds2 e.1 e.2.1) (F ++ [e])
        (tot + e.2.2)
        (fun f hf => htodo f (List.mem_cons_of_mem _ hf))
        (List.pairwise_cons.1 hsorted).2
        huf3 hpart3 hged3 hends3 hnd3
        (by rw [htot, eweight_append_single])
        hnc3 hext3
    · rw [if_neg hacc]
      rw [not_not] at hacc
      rw [hv1e, hv2e] at hacc
      have hconn : EConn F e.1 e.2.1 := (hpart e.1 he1 e.2.1 he2).1 hacc
      have hpart2 : ∀ x ∈ g.vertices, ∀ y ∈ g.vertices,
          (rootOf ds2 g.vertices x = rootOf ds2 g.vertices y ↔ EConn F x y) := by
        intro x hx y hy
        rw [hpres12 x hx, hpres12 y hy]
        exact hpart x hx y hy
      have hnc2 : ∀ f ∈ g.edges, f ∉ rest → EConn F f.1 f.2.1 := by
        intro f hf hfr
        by_cases hft : f ∈ e :: rest
        · rcases List.mem_cons.1 hft with hfe | hfe
          · subst hfe
            exact hconn
          · exact absurd hfe hfr
        · exact hnc f hf hft
      exact ih ds2 F tot
        (fun f hf => htodo f (List.mem_cons_of_mem _ hf))
        (List.pairwise_cons.1 hsorted).2
        hinv2 hpart2 hged hends hnd htot hnc2 hext

/-- Full specification of `kruskal` on a connected well-formed graph: the
returned edges form graph edges whose forest connects all vertices, the total
is their weight sum, and some spanning tree extending them weighs no more than
any given spanning tree. -/
theorem kruskal_spec (g : Graph V) (hndv : g.vertices.Nodup)
    (hwfe : ∀ e ∈ g.edges, e.1 ∈ g.vertices ∧ e.2.1 ∈ g.vertices)
    (hconn : ∀ x ∈ g.vertices, ∀ y ∈ g.vertices, EConn g.edges x y) :
    (∀ e ∈ (kruskal g).1, GEdge g e) ∧
    (∀ e ∈ (kruskal g).1, e.1 ∈ g.vertices ∧ e.2.1 ∈ g.vertices) ∧
    (kruskal g).1.Nodup ∧
    (kruskal g).2 = eweight (kruskal g).1 ∧
    (∀ x ∈ g.vertices, ∀ y ∈ g.vertices, EConn (kruskal g).1 x y) ∧
    (∀ T2, SpanTree g T2 → ∃ T, SpanTree g T ∧ (∀ e ∈ (kruskal g).1, e ∈ T) ∧
      eweight T ≤ eweight T2) := by
  have hperm := List.mergeSort_perm g.edges
    (fun a b : V × V × Int => decide (a.2.2 ≤ b.2.2))
  have hsorted : List.Pairwise
      (fun a b : V × V × Int => decide (a.2.2 ≤ b.2.2) = true)
      (g.edges.mergeSort (fun a b : V × V × Int => decide (a.2.2 ≤ b.2.2))) :=
    List.sorted_mergeSort
    (by
      intro a b c h1 h2
      rw [decide_eq_true_eq] at h1 h2 ⊢
      omega)
    (by
      intro a b
      show (decide (a.2.2 ≤ b.2.2) || decide (b.2.2 ≤ a.2.2)) = true
      rcases le_total a.2.2 b.2.2 with h | h
      · rw [decide_eq_true h]
        rfl
      · rw [decide_eq_true h]
        simp)
    g.edges
  have hpair : List.Pairwise (fun a b : V × V × Int => a.2.2 ≤ b.2.2)
      (g.edges.mergeSort (fun a b : V × V × Int => decide (a.2.2 ≤ b.2.2))) := by
    refine List.Pairwise.imp ?_ hsorted
    intro a b h
    rw [decide_eq_true_eq] at h
    exact h
  have hres := kruskal_fold g hndv hwfe
    (g.edges.mergeSort (fun a b : V × V × Int => decide (a.2.2 ≤ b.2.2)))
    (dsInit g.vertices) [] 0
    (fun f hf => hperm.mem_iff.1 hf)
    hpair
    (ufInv_dsInit _ _)
    (by
      intro x hx y hy
      rw [rootOf_dsInit, rootOf_dsInit]
      constructor
      · intro h
        rw [h]
        exact econn_refl _ _
      · intro h
        exact econn_nil h)
    (fun e he => absurd he (List.not_mem_nil e))
    (fun e he => absurd he (List.not_mem_nil e))
    List.nodup_nil
    rfl
    (fun f hf hnot => absurd (hperm.mem_iff.2 hf) hnot)
    (fun T2 hT2 => ⟨T2, hT2, fun e he => absurd he (List.not_mem_nil e), le_refl _⟩)
  obtain ⟨c1, c2, c3, c4, c5, c6⟩ := hres
  exact ⟨c1, c2, c3, c4,
    fun x hx y hy => econn_lift c5 (hconn x hx y hy), c6⟩

section PrimProof

variable [LinearOrder V]

theorem mem_heapPush3 {h : List (Int × V × V)} {e z : Int × V × V} :
    z ∈ heapPush3 h e ↔ z ∈ h ∨ z = e := by
  induction h with
  | nil =>
    unfold heapPush3
    simp
  | cons x t ih =>
    unfold heapPush3
    by_cases hc : e.1 < x.1 ∨ (e.1 = x.1 ∧ (e.2.1 < x.2.1 ∨ (e.2.1 = x.2.1 ∧ e.2.2 ≤ x.2.2)))
    · rw [if_pos hc]
      simp only [List.mem_cons]
      tauto
    · rw [if_neg hc]
      simp only [List.mem_cons, ih]
      tauto

theorem length_heapPush3 (h : List (Int × V × V)) (e : Int × V × V) :
    (heapPush3 h e).length = h.length + 1 := by
  induction h with
  | nil => rfl
  | cons x t ih =>
    unfold heapPush3
    by_cases hc : e.1 < x.1 ∨ (e.1 = x.1 ∧ (e.2.1 < x.2.1 ∨ (e.2.1 = x.2.1 ∧ e.2.2 ≤ x.2.2)))
    · rw [if_pos hc]
      simp
    · rw [if_neg hc]
      simp only [List.length_cons, ih]

theorem heapPush3_pairwise {h : List (Int × V × V)} {e : Int × V × V}
    (hp : List.Pairwise (fun a b : Int × V × V => a.1 ≤ b.1) h) :
    List.Pairwise (fun a b : Int × V × V => a.1 ≤ b.1) (heapPush3 h e) := by
  induction h with
  | nil => exact List.pairwise_singleton _ _
  | cons x t ih =>
    obtain ⟨hx, ht⟩ := List.pairwise_cons.1 hp
    unfold heapPush3
    by_cases hc : e.1 < x.1 ∨ (e.1 = x.1 ∧ (e.2.1 < x.2.1 ∨ (e.2.1 = x.2.1 ∧ e.2.2 ≤ x.2.2)))
    · rw [if_pos hc]
      refine List.pairwise_cons.2 ⟨?_, hp⟩
      intro b hb
      have hex : e.1 ≤ x.1 := by
        rcases hc with hc | hc
        · omega
        · omega
      rcases List.mem_cons.1 hb with hb | hb
      · rw [hb]; exact hex
      · exact le_trans hex (hx b hb)
    · rw [if_neg hc]
      refine List.pairwise_cons.2 ⟨?_, ih ht⟩
      intro b hb
      rcases mem_heapPush3.1 hb with hb | hb
      · exact hx b hb
      · rw [hb]
        rw [not_or] at hc
        obtain ⟨hc1, _⟩ := hc
        omega

/-- Membership in the neighbor-push fold of `primLoop`. -/
theorem primPush_mem (v : V) (visited2 : List V) :
    ∀ (l : List (V × Int)) (h0 : List (Int × V × V)) (z : Int × V × V),
      z ∈ l.foldl (fun h e => if e.1 ∈ visited2 then h else heapPush3 h (e.2, v, e.1)) h0 ↔
        z ∈ h0 ∨ ∃ q ∈ l, q.1 ∉ visited2 ∧ z = (q.2, v, q.1) := by
  intro l
  induction l with
  | nil =>
    intro h0 z
    simp
  | cons q t ih =>
    intro h0 z
    rw [List.foldl_cons]
    by_cases hq : q.1 ∈ visited2
    · rw [if_pos hq, ih]
      constructor
      · rintro (hz | ⟨q2, hq2, hnv, hze⟩)
        · exact Or.inl hz
        · exact Or.inr ⟨q2, List.mem_cons_of_mem _ hq2, hnv, hze⟩
      · rintro (hz | ⟨q2, hq2, hnv, hze⟩)
        · exact Or.inl hz
        · rcases List.mem_cons.1 hq2 with hq2 | hq2
          · rw [hq2] at hnv
            exact absurd hq hnv
          · exact Or.inr ⟨q2, hq2, hnv, hze⟩
    · rw [if_neg hq, ih]
      constructor
      · rintro (hz | ⟨q2, hq2, hnv, hze⟩)
        · rcases mem_heapPush3.1 hz with hz | hz
          · exact Or.inl hz
          · exact Or.inr ⟨q, List.mem_cons_self _ _, hq, hz⟩
        · exact Or.inr ⟨q2, List.mem_cons_of_mem _ hq2, hnv, hze⟩
      · rintro (hz | ⟨q2, hq2, hnv, hze⟩)
        · exact Or.inl (mem_heapPush3.2 (Or.inl hz))
        · rcases List.mem_cons.1 hq2 with hq2 | hq2
          · subst hq2
            exact Or.inl (mem_heapPush3.2 (Or.inr hze))
          · exact Or.inr ⟨q2, hq2, hnv, hze⟩

theorem primPush_length (v : V) (visited2 : List V) :
    ∀ (l : List (V × Int)) (h0 : List (Int × V × V)),
      (l.foldl (fun h e => if e.1 ∈ visited2 then h
        else heapPush3 h (e.2, v, e.1)) h0).length ≤ h0.length + l.length := by
  intro l
  induction l with
  | nil => intro h0; simp
  | cons q t ih =>
    intro h0
    rw [List.foldl_cons]
    by_cases hq : q.1 ∈ visited2
    · rw [if_pos hq]
      have := ih h0
      simp only [List.length_cons]
      omega
    · rw [if_neg hq]
      have := ih (heapPush3 h0 (q.2, v, q.1))
      rw [length_heapPush3] at this
      simp only [List.length_cons]
      omega

theorem primPush_pairwise (v : V) (visited2 : List V) :
    ∀ (l : List (V × Int)) (h0 : List (Int × V × V)),
      List.Pairwise (fun a b : Int × V × V => a.1 ≤ b.1) h0 →
      List.Pairwise (fun a b : Int × V × V => a.1 ≤ b.1)
        (l.foldl (fun h e => if e.1 ∈ visited2 then h
          else heapPush3 h (e.2, v, e.1)) h0) := by
  intro l
  induction l with
  | nil => intro h0 hp; exact hp
  | cons q t ih =>
    intro h0 hp
    rw [List.foldl_cons]
    by_cases hq : q.1 ∈ visited2
    · rw [if_pos hq]
      exact ih h0 hp
    · rw [if_neg hq]
      exact ih _ (heapPush3_pairwise hp)

theorem primPush0_mem (start : V) :
    ∀ (l : List (V × Int)) (h0 : List (Int × V × V)) (z : Int × V × V),
      z ∈ l.foldl (fun h e => heapPush3 h (e.2, start, e.1)) h0 ↔
        z ∈ h0 ∨ ∃ q ∈ l, z = (q.2, start, q.1) := by
  intro l
  induction l with
  | nil =>
    intro h0 z
    simp
  | cons q t ih =>
    intro h0 z
    rw [List.foldl_cons, ih]
    constructor
    · rintro (hz | ⟨q2, hq2, hze⟩)
      · rcases mem_heapPush3.1 hz with hz | hz
        · exact Or.inl hz
        · exact Or.inr ⟨q, List.mem_cons_self _ _, hz⟩
      · exact Or.inr ⟨q2, List.mem_cons_of_mem _ hq2, hze⟩
    · rintro (hz | ⟨q2, hq2, hze⟩)
      · exact Or.inl (mem_heapPush3.2 (Or.inl hz))
      · rcases List.mem_cons.1 hq2 with hq2 | hq2
        · subst hq2
          exact Or.inl (mem_heapPush3.2 (Or.inr hze))
        · exact Or.inr ⟨q2, hq2, hze⟩

theorem primPush0_length (start : V) :
    ∀ (l : List (V × Int)) (h0 : List (Int × V × V)),
      (l.foldl (fun h e => heapPush3 h (e.2, start, e.1)) h0).length =
        h0.length + l.length := by
  intro l
  induction l with
  | nil => intro h0; simp
  | cons q t ih =>
    intro h0
    rw [List.foldl_cons, ih, length_heapPush3]
    simp only [List.length_cons]
    omega

theorem primPush0_pairwise (start : V) :
    ∀ (l : List (V × Int)) (h0 : List (Int × V × V)),
      List.Pairwise (fun a b : Int × V × V => a.1 ≤ b.1) h0 →
      List.Pairwise (fun a b : Int × V × V => a.1 ≤ b.1)
        (l.foldl (fun h e => heapPush3 h (e.2, start, e.1)) h0) := by
  intro l
  induction l with
  | nil => intro h0 hp; exact hp
  | cons q t ih =>
    intro h0 hp
    rw [List.foldl_cons]
    exact ih _ (heapPush3_pairwise hp)

theorem acontent_cons_self (k : V) (l : List (V × Int)) (m : Adj V) :
    acontent ((k, l) :: m) k = l := by
  unfold acontent dlookupD
  rw [show dlookup ((k, l) :: m) k = if k = k then some l else dlookup m k from rfl,
    if_pos rfl]
  rfl

theorem acontent_cons_ne {k x : V} (l : List (V × Int)) (m : Adj V) (h : k ≠ x) :
    acontent ((k, l) :: m) x = acontent m x := by
  unfold acontent dlookupD
  rw [show dlookup ((k, l) :: m) x = if k = x then some l else dlookup m x from rfl,
    if_neg h]

theorem sum_acontent_cons_le {k : V} {l : List (V × Int)} {m : Adj V} :
    ∀ L : List V, L.Nodup →
      (L.map (fun x => (acontent ((k, l) :: m) x).length)).sum ≤
        l.length + (L.map (fun x => (acontent m x).length)).sum := by
  intro L
  induction L with
  | nil => intro _; simp
  | cons a t ih =>
    intro hnd
    obtain ⟨hat, hndt⟩ := List.nodup_cons.1 hnd
    rw [List.map_cons, List.sum_cons, List.map_cons, List.sum_cons]
    by_cases hak : a = k
    · subst hak
      rw [acontent_cons_self]
      have h2 : t.map (fun x => (acontent ((a, l) :: m) x).length) =
          t.map (fun x => (acontent m x).length) := by
        apply List.map_congr_left
        intro x hx
        have hxa : a ≠ x := fun h => hat (h ▸ hx)
        rw [acontent_cons_ne l m hxa]
      rw [h2]
      omega
    · rw [acontent_cons_ne l m (fun h => hak h.symm)]
      have := ih hndt
      omega

theorem sum_acontent_le (m : Adj V) :
    ∀ L : List V, L.Nodup →
      (L.map (fun x => (acontent m x).length)).sum ≤
        (m.map (fun p => p.2.length)).sum := by
  induction m with
  | nil =>
    intro L _
    have h : L.map (fun x => (acontent ([] : Adj V) x).length) =
        L.map (fun _ => 0) := List.map_congr_left (fun x _ => rfl)
    rw [h]
    simp
  | cons p t ih =>
    intro L hnd
    rw [List.map_cons, List.sum_cons]
    obtain ⟨k, l⟩ := p
    have h1 := sum_acontent_cons_le (k := k) (l := l) (m := t) L hnd
    have h2 := ih L hnd
    have h0 : ((k, l) : V × List (V × Int)).2.length = l.length := rfl
    omega

theorem foldl_add_length (m : Adj V) :
    ∀ a : Nat, m.foldl (fun n p => n + p.2.length) a =
      a + (m.map (fun p => p.2.length)).sum := by
  induction m with
  | nil => intro a; simp
  | cons p t ih =>
    intro a
    rw [List.foldl_cons, ih, List.map_cons, List.sum_cons]
    omega

theorem totalAdj_eq (g : Graph V) :
    totalAdj g = (g.adj_list.map (fun p => p.2.length)).sum := by
  unfold totalAdj
  rw [foldl_add_length]
  omega

theorem filter_sum_setAdd {visited : List V} {v : V} (hnv : v ∉ visited)
    (f : V → Nat) :
    ∀ verts : List V, verts.Nodup → v ∈ verts →
      ((verts.filter (fun x => !decide (x ∈ visited))).map f).sum =
        ((verts.filter (fun x => !decide (x ∈ setAdd visited v))).map f).sum +
          f v := by
  intro verts
  induction verts with
  | nil => intro _ hv; cases hv
  | cons a t ih =>
    intro hnd hv
    obtain ⟨hat, hndt⟩ := List.nodup_cons.1 hnd
    rw [List.filter_cons, List.filter_cons]
    by_cases hav : a = v
    · subst hav
      have h1 : (!decide (a ∈ visited)) = true := by
        rw [decide_eq_false hnv]
        rfl
      have h2 : (!decide (a ∈ setAdd visited a)) = false := by
        rw [decide_eq_true (self_mem_setAdd visited a)]
        rfl
      rw [h1, h2, if_pos rfl, if_neg Bool.false_ne_true]
      simp only [List.map_cons, List.sum_cons]
      have h3 : t.filter (fun x => !decide (x ∈ setAdd visited a)) =
          t.filter (fun x => !decide (x ∈ visited)) := by
        apply List.filter_congr
        intro x hx
        have hxa : x ≠ a := fun h => hat (h ▸ hx)
        have hiff : (x ∈ setAdd visited a) ↔ x ∈ visited := by
          rw [mem_setAdd_iff]
          exact or_iff_left hxa
        rw [decide_eq_decide.2 hiff]
      rw [h3]
      omega
    · have hvt : v ∈ t := by
        rcases List.mem_cons.1 hv with h | h
        · exact absurd h.symm hav
        · exact h
      have heq : decide (a ∈ setAdd visited v) = decide (a ∈ visited) := by
        apply decide_eq_decide.2
        rw [mem_setAdd_iff]
        exact or_iff_left hav
      rw [heq]
      by_cases hain : a ∈ visited
      · have hfa : (!decide (a ∈ visited)) = false := by
          rw [decide_eq_true hain]
          rfl
        rw [hfa, if_neg Bool.false_ne_true]
        exact ih hndt hvt
      · have hfa : (!decide (a ∈ visited)) = true := by
          rw [decide_eq_false hain]
          rfl
        rw [hfa, if_pos rfl, if_pos rfl]
        simp only [List.map_cons, List.sum_cons]
        rw [ih hndt hvt]
        omega

theorem nodup_subset_length_le {α : Type} [DecidableEq α] {F T : List α}
    (hnF : F.Nodup) (hsub : ∀ e ∈ F, e ∈ T) : F.length ≤ T.length := by
  have h1 : F.toFinset.card = F.length := List.toFinset_card_of_nodup hnF
  have h2 : F.toFinset ⊆ T.toFinset := by
    intro e he
    rw [List.mem_toFinset] at he ⊢
    exact hsub e he
  have h3 := Finset.card_le_card h2
  have h4 := List.toFinset_card_le T
  omega

/-- Loop invariant of `primLoop`: the visited set is a nodup subset of the
vertex set spanned by the accepted forest, the heap is weight-sorted, holds
exactly the crossing adjacency entries (soundly and completely), and the
forest extends to a spanning tree no heavier than any given one. -/
structure PrimInv (g : Graph V) (heap : List (Int × V × V)) (visited : List V)
    (F : List (V × V × Int)) (total : Int) : Prop where
  visv : ∀ x ∈ visited, x ∈ g.vertices
  visnd : visited.Nodup
  ends : ∀ e ∈ F, e.1 ∈ visited ∧ e.2.1 ∈ visited
  span : ∀ x ∈ visited, ∀ y ∈ visited, EConn F x y
  card : F.length + 1 = visited.length
  ged : ∀ e ∈ F, GEdge g e
  fnd : F.Nodup
  tot : total = eweight F
  hs : ∀ t ∈ heap, t.2.1 ∈ visited ∧ (t.2.2, t.1) ∈ acontent g.adj_list t.2.1
  hc : ∀ x ∈ visited, ∀ q ∈ acontent g.adj_list x, q.1 ∉ visited →
    (q.2, x, q.1) ∈ heap
  hsort : List.Pairwise (fun a b : Int × V × V => a.1 ≤ b.1) heap
  ext : ∀ T2, SpanTree g T2 → ∃ T, SpanTree g T ∧ (∀ e ∈ F, e ∈ T) ∧
    eweight T ≤ eweight T2

/-- Master loop lemma for `primLoop`: the invariant is preserved, and the loop
returns a state with either a full visited set or no crossing adjacency entry
left. -/
theorem primLoop_sound (g : Graph V) (hndv : g.vertices.Nodup)
    (hnbr : ∀ u ∈ g.vertices, ∀ q ∈ acontent g.adj_list u, q.1 ∈ g.vertices)
    (hadj2edge : ∀ u ∈ g.vertices, ∀ q ∈ acontent g.adj_list u,
      GEdge g (u, q.1, q.2))
    (hboth : ∀ e2, GEdge g e2 → (e2.2.1, e2.2.2) ∈ acontent g.adj_list e2.1 ∧
      (e2.1, e2.2.2) ∈ acontent g.adj_list e2.2.1) :
    ∀ (fuel : Nat) (adj : Adj V) (heap : List (Int × V × V)) (visited : List V)
      (F : List (V × V × Int)) (total : Int),
      (∀ x, acontent adj x = acontent g.adj_list x) →
      PrimInv g heap visited F total →
      heap.length + ((g.vertices.filter (fun x => !decide (x ∈ visited))).map
        (fun x => (acontent g.adj_list x).length)).sum < fuel →
      ∃ visited2 heap2,
        PrimInv g heap2 visited2
          (primLoop fuel adj heap visited g.vertices.length F total).1.1
          (primLoop fuel adj heap visited g.vertices.length F total).1.2 ∧
        (∀ x ∈ visited, x ∈ visited2) ∧
        (g.vertices.length ≤ visited2.length ∨
          ∀ x ∈ visited2, ∀ q ∈ acontent g.adj_list x, q.1 ∈ visited2) := by
  intro fuel
  induction fuel with
  | zero =>
    intro adj heap visited F total hadjA inv hfuel
    exact absurd hfuel (Nat.not_lt_zero _)
  | succ f ih =>
    intro adj heap visited F total hadjA inv hfuel
    cases heap with
    | nil =>
      refine ⟨visited, [], inv, fun x hx => hx, Or.inr ?_⟩
      intro x hx q hq
      by_contra hq1
      exact absurd (inv.hc x hx q hq hq1) (List.not_mem_nil _)
    | cons hd rest =>
      obtain ⟨w, u, v⟩ := hd
      by_cases hfull : g.vertices.length ≤ visited.length
      · have hrun : primLoop (f + 1) adj ((w, u, v) :: rest) visited
            g.vertices.length F total = ((F, total), adj) := if_pos hfull
        rw [hrun]
        exact ⟨visited, (w, u, v) :: rest, inv, fun x hx => hx, Or.inl hfull⟩
      · by_cases hvv : v ∈ visited
        · -- skip: target already visited
          have hrun : primLoop (f + 1) adj ((w, u, v) :: rest) visited
              g.vertices.length F total =
              primLoop f adj rest visited g.vertices.length F total := by
            simp only [primLoop]
            rw [if_neg hfull, if_pos hvv]
          have inv2 : PrimInv g rest visited F total := by
            refine ⟨inv.visv, inv.visnd, inv.ends, inv.span, inv.card, inv.ged,
              inv.fnd, inv.tot, ?_, ?_, (List.pairwise_cons.1 inv.hsort).2,
              inv.ext⟩
            · intro t ht
              exact inv.hs t (List.mem_cons_of_mem _ ht)
            · intro x hx q hq hq1
              have h := inv.hc x hx q hq hq1
              rcases List.mem_cons.1 h with h | h
              · have hq1v : q.1 = v := congrArg (fun z : Int × V × V => z.2.2) h
                rw [hq1v] at hq1
                exact absurd hvv hq1
              · exact h
          have hfuel2 : rest.length +
              ((g.vertices.filter (fun x => !decide (x ∈ visited))).map
                (fun x => (acontent g.adj_list x).length)).sum < f := by
            simp only [List.length_cons] at hfuel
            omega
          obtain ⟨vis3, heap3, hinv3, hmono3, hdisj3⟩ :=
            ih adj rest visited F total hadjA inv2 hfuel2
          rw [hrun]
          exact ⟨vis3, heap3, hinv3, hmono3, hdisj3⟩
        · -- accept edge (u, v, w)
          have hsHead := inv.hs (w, u, v) (List.mem_cons_self _ _)
          have hu_vis : u ∈ visited := hsHead.1
          have hAu : (v, w) ∈ acontent g.adj_list u := hsHead.2
          have hug : u ∈ g.vertices := inv.visv u hu_vis
          have hvg : v ∈ g.vertices := hnbr u hug (v, w) hAu
          have hge : GEdge g (u, v, w) := hadj2edge u hug (v, w) hAu
          have hpA1 : (dgetm adj v []).1 = acontent g.adj_list v := by
            rw [dgetm_fst_content, hadjA v]
          have hadjA2 : ∀ x, acontent (dgetm adj v []).2 x =
              acontent g.adj_list x := by
            intro x
            rw [dgetm_snd_content, hadjA x]
          have hvis2eq : setAdd visited v = visited ++ [v] :=
            setAdd_of_not_mem hvv
          have hrest_sort := List.pairwise_cons.1 inv.hsort
          have hmin : ∀ e2, GEdge g e2 →
              ((e2.1 ∈ visited ∧ e2.2.1 ∉ visited) ∨
               (e2.2.1 ∈ visited ∧ e2.1 ∉ visited)) → w ≤ e2.2.2 := by
            intro e2 hge2 hcross
            have hbo := hboth e2 hge2
            have hmem : ∃ x y, (e2.2.2, x, y) ∈ (w, u, v) :: rest := by
              rcases hcross with ⟨h1, h2⟩ | ⟨h1, h2⟩
              · exact ⟨e2.1, e2.2.1, inv.hc e2.1 h1 (e2.2.1, e2.2.2) hbo.1 h2⟩
              · exact ⟨e2.2.1, e2.1, inv.hc e2.2.1 h1 (e2.1, e2.2.2) hbo.2 h2⟩
            obtain ⟨x, y, hmem⟩ := hmem
            rcases List.mem_cons.1 hmem with hmem | hmem
            · have hwe : e2.2.2 = w :=
                congrArg (fun z : Int × V × V => z.1) hmem
              omega
            · exact hrest_sort.1 _ hmem
          have henotF : (u, v, w) ∉ F := fun hmem => hvv (inv.ends _ hmem).2
          have hnd2 : (F ++ [(u, v, w)]).Nodup := by
            simp [List.nodup_append, inv.fnd, henotF]
          have hsubF : ∀ e ∈ F, e ∈ F ++ [(u, v, w)] :=
            fun e he => List.mem_append.2 (Or.inl he)
          have hstep : EConn (F ++ [(u, v, w)]) u v :=
            Relation.ReflTransGen.single
              ⟨w, Or.inl (List.mem_append.2 (Or.inr (List.mem_singleton.2 rfl)))⟩
          have hspan2 : ∀ x ∈ setAdd visited v, ∀ y ∈ setAdd visited v,
              EConn (F ++ [(u, v, w)]) x y := by
            intro x hx y hy
            rw [mem_setAdd_iff] at hx hy
            rcases hx with hx | hx <;> rcases hy with hy | hy
            · exact econn_mono hsubF (inv.span x hx y hy)
            · subst hy
              exact econn_trans (econn_mono hsubF (inv.span x hx u hu_vis)) hstep
            · subst hx
              exact econn_trans (econn_symm hstep)
                (econn_mono hsubF (inv.span u hu_vis y hy))
            · subst hx
              subst hy
              exact econn_refl _ _
          have hext2 : ∀ T2, SpanTree g T2 → ∃ T, SpanTree g T ∧
              (∀ e ∈ F ++ [(u, v, w)], e ∈ T) ∧ eweight T ≤ eweight T2 := by
            intro T2 hT2
            obtain ⟨T, hT, hFT, hle⟩ := inv.ext T2 hT2
            obtain ⟨T3, hT3, hsub3, hle3⟩ := exchange_step hndv hT hFT
              (fun x => x ∈ visited)
              (fun e he => ⟨fun _ => (inv.ends e he).2, fun _ => (inv.ends e he).1⟩)
              hug hvg hu_vis hvv hge hmin
            refine ⟨T3, hT3, ?_, le_trans hle3 hle⟩
            intro e he
            rcases List.mem_append.1 he with he | he
            · exact hsub3 e (List.mem_cons_of_mem _ he)
            · rw [List.mem_singleton.1 he]
              exact hsub3 _ (List.mem_cons_self _ _)
          have inv2 : PrimInv g
              ((dgetm adj v []).1.foldl
                (fun h e => if e.1 ∈ setAdd visited v then h
                  else heapPush3 h (e.2, v, e.1)) rest)
              (setAdd visited v) (F ++ [(u, v, w)]) (total + w) := by
            refine ⟨?_, ?_, ?_, hspan2, ?_, ?_, hnd2, ?_, ?_, ?_, ?_, hext2⟩
            · intro x hx
              rcases mem_setAdd_iff.1 hx with hx | hx
              · exact inv.visv x hx
              · rw [hx]
                exact hvg
            · rw [hvis2eq]
              simp [List.nodup_append, inv.visnd, hvv]
            · intro e he
              rcases List.mem_append.1 he with he | he
              · exact ⟨mem_setAdd_of_mem (inv.ends e he).1,
                  mem_setAdd_of_mem (inv.ends e he).2⟩
              · rw [List.mem_singleton.1 he]
                exact ⟨mem_setAdd_of_mem hu_vis, self_mem_setAdd _ _⟩
            · rw [hvis2eq]
              simp only [List.length_append, List.length_singleton]
              have := inv.card
              omega
            · intro e he
              rcases List.mem_append.1 he with he | he
              · exact inv.ged e he
              · rw [List.mem_singleton.1 he]
                exact hge
            · rw [eweight_append_single, ← inv.tot]
            · intro t ht
              rcases (primPush_mem v (setAdd visited v) _ rest t).1 ht with
                ht | ⟨q, hq, hqnv, hte⟩
              · have h := inv.hs t (List.mem_cons_of_mem _ ht)
                exact ⟨mem_setAdd_of_mem h.1, h.2⟩
              · rw [hpA1] at hq
                rw [hte]
                exact ⟨self_mem_setAdd _ _, hq⟩
            · intro x hx q hq hq1
              have hq1v : q.1 ∉ visited :=
                fun h => hq1 (mem_setAdd_of_mem h)
              rcases mem_setAdd_iff.1 hx with hx | hx
              · have h := inv.hc x hx q hq hq1v
                rcases List.mem_cons.1 h with h | h
                · have : q.1 = v := congrArg (fun z : Int × V × V => z.2.2) h
                  rw [this] at hq1
                  exact absurd (self_mem_setAdd _ _) hq1
                · exact (primPush_mem v (setAdd visited v) _ rest _).2 (Or.inl h)
              · rw [hx] at hq
                rw [hx]
                refine (primPush_mem v (setAdd visited v) _ rest _).2
                  (Or.inr ⟨q, ?_, hq1, rfl⟩)
                rw [hpA1]
                exact hq
            · exact primPush_pairwise v (setAdd visited v) _ rest hrest_sort.2
          have hlenpush := primPush_length v (setAdd visited v)
            (dgetm adj v []).1 rest
          have hlenA : (dgetm adj v []).1.length =
              (acontent g.adj_list v).length := by
            rw [hpA1]
          have hsum : ((g.vertices.filter (fun x => !decide (x ∈ visited))).map
                (fun x => (acontent g.adj_list x).length)).sum =
              ((g.vertices.filter
                  (fun x => !decide (x ∈ setAdd visited v))).map
                (fun x => (acontent g.adj_list x).length)).sum +
                (acontent g.adj_list v).length :=
            filter_sum_setAdd hvv
              (fun x => (acontent g.adj_list x).length) g.vertices hndv hvg
          have hfuel2 : ((dgetm adj v []).1.foldl
                (fun h e => if e.1 ∈ setAdd visited v then h
                  else heapPush3 h (e.2, v, e.1)) rest).length +
              ((g.vertices.filter (fun x => !decide (x ∈ setAdd visited v))).map
                (fun x => (acontent g.adj_list x).length)).sum < f := by
            simp only [List.length_cons] at hfuel
            omega
          have hrun : primLoop (f + 1) adj ((w, u, v) :: rest) visited
              g.vertices.length F total =
              primLoop f (dgetm adj v []).2
                ((dgetm adj v []).1.foldl
                  (fun h e => if e.1 ∈ setAdd visited v then h
                    else heapPush3 h (e.2, v, e.1)) rest)
                (setAdd visited v) g.vertices.length (F ++ [(u, v, w)])
                (total + w) := by
            simp only [primLoop]
            rw [if_neg hfull, if_neg hvv]
          obtain ⟨vis3, heap3, hinv3, hmono3, hdisj3⟩ :=
            ih (dgetm adj v []).2
              ((dgetm adj v []).1.foldl
                (fun h e => if e.1 ∈ setAdd visited v then h
                  else heapPush3 h (e.2, v, e.1)) rest)
              (setAdd visited v) (F ++ [(u, v, w)]) (total + w)
              hadjA2 inv2 hfuel2
          rw [hrun]
          exact ⟨vis3, heap3, hinv3,
            fun x hx => hmono3 x (mem_setAdd_of_mem hx), hdisj3⟩

theorem prim_eq (g : Graph V) {v0 : V} {tl : List V}
    (hgv : g.vertices = v0 :: tl) :
    prim g none =
      ((primLoop (fuelOf g) (dgetm g.adj_list v0 []).2
          ((dgetm g.adj_list v0 []).1.foldl
            (fun h e => heapPush3 h (e.2, v0, e.1)) [])
          [v0] g.vertices.length [] 0).1,
        { g with adj_list :=
          (primLoop (fuelOf g) (dgetm g.adj_list v0 []).2
            ((dgetm g.adj_list v0 []).1.foldl
              (fun h e => heapPush3 h (e.2, v0, e.1)) [])
            [v0] g.vertices.length [] 0).2 }) := by
  unfold prim
  rw [hgv]
  rfl

/-- Correctness of `prim` on a nonempty coherent connected graph: it returns
a spanning tree, its total is the tree's weight, and the tree extends to a
spanning tree no heavier than any given spanning tree. -/
theorem prim_spec (g : Graph V) (hndv : g.vertices.Nodup)
    (hnbr : ∀ u ∈ g.vertices, ∀ q ∈ acontent g.adj_list u, q.1 ∈ g.vertices)
    (hadj2edge : ∀ u ∈ g.vertices, ∀ q ∈ acontent g.adj_list u,
      GEdge g (u, q.1, q.2))
    (hboth : ∀ e2, GEdge g e2 → (e2.2.1, e2.2.2) ∈ acontent g.adj_list e2.1 ∧
      (e2.1, e2.2.2) ∈ acontent g.adj_list e2.2.1)
    (hconn : ∀ x ∈ g.vertices, ∀ y ∈ g.vertices, EConn g.edges x y)
    {v0 : V} {tl : List V} (hgv : g.vertices = v0 :: tl) :
    SpanTree g (prim g none).1.1 ∧
    (prim g none).1.1.Nodup ∧
    (prim g none).1.2 = eweight (prim g none).1.1 ∧
    (∀ T2, SpanTree g T2 → ∃ T, SpanTree g T ∧
      (∀ e ∈ (prim g none).1.1, e ∈ T) ∧ eweight T ≤ eweight T2) := by
  have hv0 : v0 ∈ g.vertices := by
    rw [hgv]
    exact List.mem_cons_self _ _
  have hpA1 : (dgetm g.adj_list v0 []).1 = acontent g.adj_list v0 :=
    dgetm_fst_content _ _
  have hadjA0 : ∀ x, acontent (dgetm g.adj_list v0 []).2 x =
      acontent g.adj_list x := fun x => dgetm_snd_content _ _ _
  have inv0 : PrimInv g
      ((dgetm g.adj_list v0 []).1.foldl
        (fun h e => heapPush3 h (e.2, v0, e.1)) [])
      [v0] [] 0 := by
    refine ⟨?_, List.nodup_singleton _, ?_, ?_, rfl, ?_, List.nodup_nil, rfl,
      ?_, ?_, ?_, ?_⟩
    · intro x hx
      rw [List.mem_singleton.1 hx]
      exact hv0
    · intro e he
      exact absurd he (List.not_mem_nil e)
    · intro x hx y hy
      rw [List.mem_singleton.1 hx, List.mem_singleton.1 hy]
      exact econn_refl _ _
    · intro e he
      exact absurd he (List.not_mem_nil e)
    · intro t ht
      rcases (primPush0_mem v0 _ [] t).1 ht with ht | ⟨q, hq, hte⟩
      · exact absurd ht (List.not_mem_nil t)
      · rw [hpA1] at hq
        rw [hte]
        exact ⟨List.mem_singleton.2 rfl, hq⟩
    · intro x hx q hq hq1
      rw [List.mem_singleton.1 hx] at hq ⊢
      refine (primPush0_mem v0 _ [] _).2 (Or.inr ⟨q, ?_, rfl⟩)
      rw [hpA1]
      exact hq
    · exact primPush0_pairwise v0 _ [] List.Pairwise.nil
    · intro T2 hT2
      exact ⟨T2, hT2, fun e he => absurd he (List.not_mem_nil e), le_refl _⟩
  have hfuel0 : ((dgetm g.adj_list v0 []).1.foldl
        (fun h e => heapPush3 h (e.2, v0, e.1)) []).length +
      ((g.vertices.filter (fun x => !decide (x ∈ ([v0] : List V)))).map
        (fun x => (acontent g.adj_list x).length)).sum < fuelOf g := by
    have hlen0 := primPush0_length v0 (dgetm g.adj_list v0 []).1 []
    have hlenA : (dgetm g.adj_list v0 []).1.length =
        (acontent g.adj_list v0).length := by
      rw [hpA1]
    have hfe : g.vertices.filter (fun x => !decide (x ∈ ([] : List V))) =
        g.vertices := by
      apply List.filter_eq_self.2
      intro a _
      rw [decide_eq_false (List.not_mem_nil a)]
      rfl
    have hset : setAdd ([] : List V) v0 = [v0] := by
      rw [setAdd_of_not_mem (List.not_mem_nil v0)]
      rfl
    have hsum : ((g.vertices.filter
            (fun x => !decide (x ∈ ([] : List V)))).map
          (fun x => (acontent g.adj_list x).length)).sum =
        ((g.vertices.filter
            (fun x => !decide (x ∈ setAdd ([] : List V) v0))).map
          (fun x => (acontent g.adj_list x).length)).sum +
          (acontent g.adj_list v0).length :=
      filter_sum_setAdd (List.not_mem_nil v0)
        (fun x => (acontent g.adj_list x).length) g.vertices hndv hv0
    rw [hfe, hset] at hsum
    have hS : ((g.vertices.map
          (fun x => (acontent g.adj_list x).length)).sum ≤ totalAdj g) := by
      rw [totalAdj_eq]
      exact sum_acontent_le g.adj_list g.vertices hndv
    have hfuelOf : fuelOf g = g.vertices.length + totalAdj g + 1 := rfl
    simp only [List.length_nil] at hlen0
    omega
  obtain ⟨vis3, heap3, hinv3, hmono3, hdisj3⟩ :=
    primLoop_sound g hndv hnbr hadj2edge hboth (fuelOf g)
      (dgetm g.adj_list v0 []).2
      ((dgetm g.adj_list v0 []).1.foldl
        (fun h e => heapPush3 h (e.2, v0, e.1)) [])
      [v0] [] 0 hadjA0 inv0 hfuel0
  have hall : ∀ x ∈ g.vertices, x ∈ vis3 := by
    rcases hdisj3 with hfull | hnc
    · have h1 : vis3.toFinset ⊆ g.vertices.toFinset := by
        intro a ha
        exact List.mem_toFinset.2 (hinv3.visv a (List.mem_toFinset.1 ha))
      have hc1 : vis3.toFinset.card = vis3.length :=
        List.toFinset_card_of_nodup hinv3.visnd
      have hc2 : g.vertices.toFinset.card = g.vertices.length :=
        List.toFinset_card_of_nodup hndv
      have h2 : vis3.toFinset = g.vertices.toFinset :=
        Finset.eq_of_subset_of_card_le h1 (by omega)
      intro x hx
      have := List.mem_toFinset.2 hx
      rw [← h2] at this
      exact List.mem_toFinset.1 this
    · by_contra hno
      push_neg at hno
      obtain ⟨y, hy, hynv⟩ := hno
      have hv0v : v0 ∈ vis3 := hmono3 v0 (List.mem_singleton.2 rfl)
      obtain ⟨e, he, hcr⟩ := econn_cross (hconn v0 hv0 y hy) hynv hv0v
      have hbo := hboth e (Or.inl he)
      rcases hcr with ⟨h1, h2⟩ | ⟨h1, h2⟩
      · exact h2 (hnc e.1 h1 (e.2.1, e.2.2) hbo.1)
      · exact h2 (hnc e.2.1 h1 (e.1, e.2.2) hbo.2)
  have hlen3 : vis3.length = g.vertices.length := by
    have h1 := nodup_subset_length_le hinv3.visnd hinv3.visv
    have h2 := nodup_subset_length_le hndv hall
    omega
  rw [prim_eq g hgv]
  refine ⟨⟨hinv3.ged, ?_, ?_, ?_⟩, hinv3.fnd, hinv3.tot, hinv3.ext⟩
  · intro e he
    have h := hinv3.ends e he
    exact ⟨hinv3.visv _ h.1, hinv3.visv _ h.2⟩
  · intro x hx y hy
    exact hinv3.span x (hall x hx) y (hall y hy)
  · show (primLoop (fuelOf g) (dgetm g.adj_list v0 []).2
        ((dgetm g.adj_list v0 []).1.foldl
          (fun h e => heapPush3 h (e.2, v0, e.1)) [])
        [v0] g.vertices.length [] 0).1.1.length + 1 = g.vertices.length
    have := hinv3.card
    omega

end PrimProof

/-- Claim C7: for every connected undirected graph with finite (integer)
weights — vertices without duplicates, edge endpoints in the vertex set, the
adjacency mapping and the edge list coherent in both directions, every vertex
pair connected through the edge list — `kruskal` and `prim` return edge sets
whose total weights are equal, and the totals they report agree. -/
theorem claim_C7_kruskal_prim_weight [LinearOrder V] (g : Graph V)
    (hndv : g.vertices.Nodup)
    (hwfe : ∀ e ∈ g.edges, e.1 ∈ g.vertices ∧ e.2.1 ∈ g.vertices)
    (hadj2edge : ∀ u ∈ g.vertices, ∀ q ∈ acontent g.adj_list u,
      GEdge g (u, q.1, q.2))
    (hedge2adj : ∀ e ∈ g.edges, (e.2.1, e.2.2) ∈ acontent g.adj_list e.1 ∧
      (e.1, e.2.2) ∈ acontent g.adj_list e.2.1)
    (hconn : ∀ x ∈ g.vertices, ∀ y ∈ g.vertices, EConn g.edges x y) :
    eweight (kruskal g).1 = eweight (prim g none).1.1 ∧
    (kruskal g).2 = (prim g none).1.2 := by
  cases hgv : g.vertices with
  | nil =>
    have hE : g.edges = [] := by
      cases hE : g.edges with
      | nil => rfl
      | cons e t =>
        have h := (hwfe e (by rw [hE]; exact List.mem_cons_self _ _)).1
        rw [hgv] at h
        cases h
    have hk : kruskal g = ([], 0) := by
      simp only [kruskal, hE, List.mergeSort_nil, List.foldl_nil]
    have hp : prim g none = (([], 0), g) := by
      unfold prim
      rw [hgv]
    rw [hk, hp]
    exact ⟨rfl, rfl⟩
  | cons v0 tl =>
    have hnbr : ∀ u ∈ g.vertices, ∀ q ∈ acontent g.adj_list u,
        q.1 ∈ g.vertices := by
      intro u hu q hq
      rcases hadj2edge u hu q hq with h | h
      · exact (hwfe _ h).2
      · exact (hwfe _ h).1
    have hboth : ∀ e2, GEdge g e2 →
        (e2.2.1, e2.2.2) ∈ acontent g.adj_list e2.1 ∧
        (e2.1, e2.2.2) ∈ acontent g.adj_list e2.2.1 := by
      intro e2 hge2
      rcases hge2 with h | h
      · exact hedge2adj e2 h
      · have h2 := hedge2adj _ h
        exact ⟨h2.2, h2.1⟩
    obtain ⟨hTp, hPnd, hPtot, hPext⟩ :=
      prim_spec g hndv hnbr hadj2edge hboth hconn hgv
    obtain ⟨hKged, hKends, hKnd, hKtot, hKspan, hKext⟩ :=
      kruskal_spec g hndv hwfe hconn
    obtain ⟨T, hT, hsubK, hleK⟩ := hKext (prim g none).1.1 hTp
    have hk1 : (kruskal g).1.length ≤ T.length :=
      nodup_subset_length_le hKnd hsubK
    have hk2 : g.vertices.length ≤ (kruskal g).1.length + 1 :=
      spanning_count hndv hKends hKspan
    have hTcard := hT.card
    have hklen : (kruskal g).1.length = T.length := by omega
    have hTnd : T.Nodup := tree_nodup hndv hT.ends hT.span hT.card
    have hKeq : eweight (kruskal g).1 = eweight T :=
      eweight_eq_of_subset hKnd hTnd hsubK hklen
    have hle1 : eweight (kruskal g).1 ≤ eweight (prim g none).1.1 := by
      rw [hKeq]
      exact hleK
    have hTk : SpanTree g (kruskal g).1 := ⟨hKged, hKends, hKspan, by omega⟩
    obtain ⟨T2, hT2, hsubP, hleP⟩ := hPext (kruskal g).1 hTk
    have hp1 : (prim g none).1.1.length ≤ T2.length :=
      nodup_subset_length_le hPnd hsubP
    have hT2card := hT2.card
    have hPcard := hTp.card
    have hplen : (prim g none).1.1.length = T2.length := by omega
    have hT2nd : T2.Nodup := tree_nodup hndv hT2.ends hT2.span hT2.card
    have hPeq : eweight (prim g none).1.1 = eweight T2 :=
      eweight_eq_of_subset hPnd hT2nd hsubP hplen
    have hle2 : eweight (prim g none).1.1 ≤ eweight (kruskal g).1 := by
      rw [hPeq]
      exact hleP
    have hweq : eweight (kruskal g).1 = eweight (prim g none).1.1 :=
      le_antisymm hle1 hle2
    refine ⟨hweq, ?_⟩
    rw [hKtot, hPtot]
    exact hweq

/-- The demonstration graph of `minimum_spanning_trees.py` (undirected,
weighted). -/
def mstDemoGraph : Graph Char :=
  buildGraph false
    [GOp.addE 'A' 'B' 4, GOp.addE 'A' 'C' 2, GOp.addE 'B' 'C' 1,
     GOp.addE 'B' 'D' 5, GOp.addE 'C' 'D' 8, GOp.addE 'C' 'E' 10,
     GOp.addE 'D' 'E' 2, GOp.addE 'E' 'F' 5, GOp.addE 'D' 'F' 6,
     GOp.addE 'B' 'F' 2]

theorem mstDemo_conn : ∀ x ∈ mstDemoGraph.vertices,
    ∀ y ∈ mstDemoGraph.vertices, EConn mstDemoGraph.edges x y := by
  have toA : ∀ x ∈ mstDemoGraph.vertices, EConn mstDemoGraph.edges x 'A' := by
    intro x hx
    have hv : mstDemoGraph.vertices = ['A', 'B', 'C', 'D', 'E', 'F'] := by
      decide
    rw [hv] at hx
    simp only [List.mem_cons, List.not_mem_nil, or_false] at hx
    have hBA : EConn mstDemoGraph.edges 'B' 'A' :=
      Relation.ReflTransGen.single ⟨4, Or.inr (by decide)⟩
    rcases hx with hx | hx | hx | hx | hx | hx
    · subst hx
      exact econn_refl _ _
    · subst hx
      exact hBA
    · subst hx
      exact Relation.ReflTransGen.single ⟨2, Or.inr (by decide)⟩
    · subst hx
      exact Relation.ReflTransGen.head ⟨5, Or.inr (by decide)⟩ hBA
    · subst hx
      have h1 : EStep mstDemoGraph.edges 'E' 'D' := ⟨2, Or.inr (by decide)⟩
      have h2 : EStep mstDemoGraph.edges 'D' 'B' := ⟨5, Or.inr (by decide)⟩
      exact Relation.ReflTransGen.head h1 (Relation.ReflTransGen.head h2 hBA)
    · subst hx
      exact Relation.ReflTransGen.head ⟨2, Or.inr (by decide)⟩ hBA
  intro x hx y hy
  exact econn_trans (toA x hx) (econn_symm (toA y hy))

theorem mstDemo_adj2edge : ∀ u ∈ mstDemoGraph.vertices,
    ∀ q ∈ acontent mstDemoGraph.adj_list u,
    GEdge mstDemoGraph (u, q.1, q.2) := by
  show ∀ u ∈ mstDemoGraph.vertices, ∀ q ∈ acontent mstDemoGraph.adj_list u,
    ((u, q.1, q.2) ∈ mstDemoGraph.edges ∨ (q.1, u, q.2) ∈ mstDemoGraph.edges)
  decide

/-- Witness for claim C7: on the demonstration graph of
`minimum_spanning_trees.py`, Kruskal's and Prim's totals agree. -/
theorem claim_C7_kruskal_prim_weight_witness :
    eweight (kruskal mstDemoGraph).1 = eweight (prim mstDemoGraph none).1.1 ∧
    (kruskal mstDemoGraph).2 = (prim mstDemoGraph none).1.2 :=
  claim_C7_kruskal_prim_weight mstDemoGraph (by decide) (by decide)
    mstDemo_adj2edge (by decide) mstDemo_conn

end PyDSA
